import Mathlib

/-!
# GVec.h : homogeneous numeric tuples `TuplaG<T,n>`

A shallow embedding of the class templates `TuplaG<T,n>`, `TuplaG2<T>`, `TuplaG3<T>` and
`TuplaG4<T>` of `src/GVec.h`, generic in the scalar type `T` (the template parameter) and
instantiated at the C++ types `int` (the scalar of `Tupla2i`, `Tupla3i`, `Tupla4i`), `float`
(`Tupla2f`, ...) and `double` (`Tupla2d`, ...); `unsigned int` is not instantiated.

Conventions of the embedding.

* A member function returns `Except Fault α`.  `Fault.assertion` is a failed `assert`
  (the program aborts); `Fault.undefined` is an operation that yields no value of the model
  (an integer division by zero, which traps; an access through the raw pointer outside the
  array; a floating operation whose result is an infinity or a NaN).
* A local `TuplaG<T,n> res ;` is default constructed and its contents are indeterminate.  Every
  function that declares such a local takes its initial contents as the argument `res0`; the
  theorems hold for all of them.
* `for( unsigned i = 0 ; i < n ; i++ )` is `forLoop n`.
* `double` is modelled by the rationals that are binary64 values; every operation is rounded
  on its own to nearest, ties to even (`Dbl.rnd`): no fused multiply-add, no extended
  precision.  Infinities, NaN and the bounds of the exponent of `double` are not part of the
  model; the values that the theorems feed to `double` stay far inside the exponent range.
  `float` is modelled in the same way by the rationals that are binary32 values (`Flt.rnd`),
  with its subnormal values (gradual underflow to the multiples of `2^-149`) and without
  its largest finite value.
* `int` is 32 bits wide, two's complement, and behaves as in the compiled x86-64 program: its
  arithmetic wraps around (`wrap32`), and the conversion of a `double` that is out of range,
  or a NaN, yields `INT_MIN` (the result of the conversion instruction `cvttsd2si`).
* Assertions are compiled in (`NDEBUG` is not defined).
-/

namespace GVec

/-- The ways in which a call does not return a value. -/
inductive Fault where
  | assertion
  | undefined
  deriving DecidableEq, Repr

/-! ## The model of `double` -/

/-- Finite `double` values, held as exact rationals. -/
abbrev Dbl := ℚ

namespace Dbl

/-- Nearest integer to `x`, a tie going to the even neighbour. -/
def roundHalfEven (x : ℚ) : ℤ :=
  let f := ⌊x⌋
  if x - f < 1 / 2 then f
  else if 1 / 2 < x - f then f + 1
  else if f % 2 = 0 then f else f + 1

/-- Exponent of the leading binary digit: `2 ^ expo q ≤ |q| < 2 ^ (expo q + 1)` for `q ≠ 0`. -/
def expo (q : ℚ) : ℤ := Int.log 2 |q|

/-- Rounding of a rational to the nearest value with a significand of 53 bits, ties to even. -/
def rnd (q : ℚ) : ℚ :=
  if q = 0 then 0
  else (roundHalfEven (q / 2 ^ (expo q - 52)) : ℚ) * 2 ^ (expo q - 52)

/-- Addition of two `double`s. -/
def add (a b : Dbl) : Dbl := rnd (a + b)

/-- Product of two `double`s. -/
def mul (a b : Dbl) : Dbl := rnd (a * b)

/-- Quotient of two `double`s; the quotient by zero is not a finite value. -/
def div (a b : Dbl) : Except Fault Dbl :=
  if b = 0 then .error .undefined else .ok (rnd (a / b))

/-- The integer nearest to the square root of `m` (for `m ≥ 0`), ties to even: the root lies
between `r = ⌊√m⌋` and `r + 1`, and comparing `4 m` with `(2 r + 1) ^ 2` tells on which side
of their midpoint. -/
def roundedRoot (m : ℚ) : ℤ :=
  let r : ℤ := (Nat.sqrt ⌊m⌋.toNat : ℤ)
  if 4 * m < ((2 * r + 1 : ℤ) : ℚ) ^ 2 then r
  else if ((2 * r + 1 : ℤ) : ℚ) ^ 2 < 4 * m then r + 1
  else if r % 2 = 0 then r else r + 1

/-- Correctly rounded square root, as `std::sqrt` on `double`: the exact root lies in
`[2 ^ e, 2 ^ (e + 1))` for `e = ⌊expo a / 2⌋`, so its unit in the last place is
`u = 2 ^ (e - 52)` and the result is `u` times the integer nearest to `√a / u = √(a / u²)`.
The root of a negative number is not a finite value. -/
def sqrt (a : Dbl) : Except Fault Dbl :=
  if a < 0 then .error .undefined
  else if a = 0 then .ok 0
  else
    let u : ℚ := 2 ^ (expo a / 2 - 52)
    .ok ((roundedRoot (a / (u * u)) : ℚ) * u)

/-- Conversion of a `double` to an integer type truncates toward zero. -/
def trunc (d : Dbl) : ℤ := if 0 ≤ d then ⌊d⌋ else ⌈d⌉

end Dbl

/-! ## Scalars: the template parameter `T` -/

/-- The operations of the scalar type `T` that `GVec.h` uses: `+`, binary and unary `-`, `*`,
`/`, the conversion `double(x)` and the conversion `T(d)` from a `double`: `ofDouble` for a
finite `d`, `ofNaN` for a NaN (the only non-finite `double` that the code can convert: the
square root of a negative number in `length`). -/
class Scalar (T : Type) where
  add : T → T → T
  sub : T → T → T
  neg : T → T
  mul : T → T → T
  div : T → T → Except Fault T
  toDouble : T → Dbl
  ofDouble : Dbl → Except Fault T
  ofNaN : Except Fault T

/-- Reduction of an integer to the range of a 32 bit two's complement `int`. -/
def wrap32 (x : ℤ) : ℤ := (x + 2147483648) % 4294967296 - 2147483648

/-- The C++ type `int`: the integers from `-2^31` to `2^31 - 1`. -/
structure CInt where
  val : ℤ
  lo : -2147483648 ≤ val
  hi : val < 2147483648
  deriving DecidableEq

namespace CInt

/-- The `int` that an integer wraps to. -/
def wrap (x : ℤ) : CInt :=
  ⟨wrap32 x, by unfold wrap32; omega, by unfold wrap32; omega⟩

/-- Division of `int`s truncates; on a division by zero and on `INT_MIN / -1` the division
instruction traps, and there is no value. -/
def div (a b : CInt) : Except Fault CInt :=
  if b.val = 0 then .error .undefined
  else if a.val = -2147483648 ∧ b.val = -1 then .error .undefined
  else .ok (wrap (Int.tdiv a.val b.val))

/-- The value `INT_MIN`. -/
def min : CInt := ⟨-2147483648, by norm_num, by norm_num⟩

/-- The conversion `int(d)`: truncation toward zero; when the truncated value is no `int` the
conversion instruction yields `INT_MIN`. -/
def ofDouble (d : Dbl) : Except Fault CInt :=
  if h : -2147483648 ≤ Dbl.trunc d ∧ Dbl.trunc d < 2147483648 then .ok ⟨Dbl.trunc d, h.1, h.2⟩
  else .ok min

instance (k : ℕ) : OfNat CInt k := ⟨wrap k⟩

instance : Scalar CInt where
  add a b := wrap (a.val + b.val)
  sub a b := wrap (a.val - b.val)
  neg a := wrap (-a.val)
  mul a b := wrap (a.val * b.val)
  div := div
  toDouble a := (a.val : ℚ)
  ofDouble := ofDouble
  ofNaN := .ok min

end CInt

/-! ### The scalar types `float` and `double` -/

namespace Flt

/-- Rounding of a rational to the nearest binary32 value, ties to even: a significand of 24
bits, and no unit in the last place below `2 ^ (-149)` (the subnormal values). -/
def rnd (q : ℚ) : ℚ :=
  if q = 0 then 0
  else (Dbl.roundHalfEven (q / 2 ^ max (Dbl.expo q - 23) (-149)) : ℚ)
    * 2 ^ max (Dbl.expo q - 23) (-149)

end Flt

/-- The C++ type `float`: a finite value, held as an exact rational. -/
structure CFloat where
  val : ℚ
  deriving DecidableEq

namespace CFloat

instance : Scalar CFloat where
  add a b := ⟨Flt.rnd (a.val + b.val)⟩
  sub a b := ⟨Flt.rnd (a.val - b.val)⟩
  neg a := ⟨-a.val⟩
  mul a b := ⟨Flt.rnd (a.val * b.val)⟩
  div a b := if b.val = 0 then .error .undefined else .ok ⟨Flt.rnd (a.val / b.val)⟩
  toDouble a := a.val
  ofDouble d := .ok ⟨Flt.rnd d⟩
  ofNaN := .error .undefined

end CFloat

/-- The C++ type `double` as a scalar type: a finite value, held as an exact rational. -/
structure CDouble where
  val : Dbl
  deriving DecidableEq

namespace CDouble

instance : Scalar CDouble where
  add a b := ⟨Dbl.add a.val b.val⟩
  sub a b := ⟨Dbl.rnd (a.val - b.val)⟩
  neg a := ⟨-a.val⟩
  mul a b := ⟨Dbl.mul a.val b.val⟩
  div a b := if b.val = 0 then .error .undefined else .ok ⟨Dbl.rnd (a.val / b.val)⟩
  toDouble a := a.val
  ofDouble d := .ok ⟨d⟩
  ofNaN := .error .undefined

end CDouble

/-! ## `TuplaG<T,n>` -/

/-- The class `TuplaG<T,n>`: its only member is the array `T coo[n]`. -/
structure TuplaG (T : Type) (n : ℕ) where
  coo : Fin n → T

/-- The class `TuplaG2<T>`, derived from `TuplaG<T,2>` without new members. -/
abbrev TuplaG2 (T : Type) := TuplaG T 2

/-- The class `TuplaG3<T>`, derived from `TuplaG<T,3>` without new members. -/
abbrev TuplaG3 (T : Type) := TuplaG T 3

/-- The class `TuplaG4<T>`, derived from `TuplaG<T,4>` without new members. -/
abbrev TuplaG4 (T : Type) := TuplaG T 4

/-- The loop `for( unsigned i = 0 ; i < n ; i++ ) body`, threading the variables that the body
assigns. -/
def forLoop {σ : Type} (n : ℕ) (body : ℕ → σ → Except Fault σ) (s : σ) : Except Fault σ :=
  (List.range n).foldlM (fun acc i => body i acc) s

namespace TuplaG

variable {T : Type} {n : ℕ}

instance [DecidableEq T] : DecidableEq (TuplaG T n) := fun a b =>
  decidable_of_iff (a.coo = b.coo) (by cases a; cases b; simp)

/-- The read only accessor `const T & operator () (const unsigned i) const`:
`assert( i < n ) ; return coo[i] ;`.  It is the overload that the `const` members and the
free operators call. -/
def opCall (self : TuplaG T n) (i : ℕ) : Except Fault T :=
  if h : i < n then .ok (self.coo ⟨i, h⟩) else .error .assertion

/-- The statement `t[i] = x`: `operator []` is commented out in the source, so `t` converts to
`T*` (`operator T * ()` returns `coo`) and the built-in subscript stores without any check. -/
def ptrWrite (self : TuplaG T n) (i : ℕ) (x : T) : Except Fault (TuplaG T n) :=
  if i < n then .ok ⟨fun j => if j.val = i then x else self.coo j⟩ else .error .undefined

variable [Scalar T]

/-- The unary `operator - ()`. -/
def neg (self : TuplaG T n) (res0 : TuplaG T n) : Except Fault (TuplaG T n) :=
  forLoop n (fun i res => do
    let a ← self.opCall i
    res.ptrWrite i (Scalar.neg a)) res0

/-- The member `operator * ( const T & a )`. -/
def mulScalar (self : TuplaG T n) (a : T) (res0 : TuplaG T n) : Except Fault (TuplaG T n) :=
  forLoop n (fun i res => do
    let x ← self.opCall i
    res.ptrWrite i (Scalar.mul x a)) res0

/-- The member `dot`: the products are formed and summed in `double`, the sum is converted
to `T`. -/
def dot (self v2 : TuplaG T n) : Except Fault T := do
  let res ← forLoop n (fun i (res : Dbl) => do
    let a ← self.opCall i
    let b ← v2.opCall i
    pure (Dbl.add res (Dbl.mul (Scalar.toDouble a) (Scalar.toDouble b)))) (0 : Dbl)
  Scalar.ofDouble res

/-- The member `lengthSq`: `return T( this->dot( *this ) ) ;`, a conversion from `T` to `T`. -/
def lengthSq (self : TuplaG T n) : Except Fault T := do
  let d ← self.dot self
  pure d

/-- The member `length`: `return T( std::sqrt( lengthSq() ) ) ;`.  The square root of a
negative number is a NaN, which is converted to `T` as well.  The root is taken in `double`;
for `T = float` the overload `std::sqrt(float)` rounds the root to `float` at once, which is
the `float` that the `double` root is converted to (24 bits against 53: rounding a square
root twice does not change the result). -/
def length (self : TuplaG T n) : Except Fault T := do
  let s ← self.lengthSq
  match Dbl.sqrt (Scalar.toDouble s) with
  | .ok r => Scalar.ofDouble r
  | .error _ => Scalar.ofNaN

/-- The member `operator |`. -/
def opBar (self der : TuplaG T n) : Except Fault T :=
  self.dot der

/-- The member `normalized`.  The squared length is summed in `T`; the line written to `cout`
when the test fails is left out (it has no effect on the result). -/
def normalized (self : TuplaG T n) (res0 : TuplaG T n) : Except Fault (TuplaG T n) := do
  let zero ← (Scalar.ofDouble (0 : Dbl) : Except Fault T)
  let lenSq ← forLoop n (fun i (lenSq : T) => do
    let a ← self.opCall i
    let b ← self.opCall i
    pure (Scalar.add lenSq (Scalar.mul a b))) zero
  if 0 < Scalar.toDouble lenSq then do
    let r ← Dbl.sqrt (Scalar.toDouble lenSq)
    let q ← Dbl.div 1 r
    let f ← (Scalar.ofDouble q : Except Fault T)
    self.mulScalar f res0
  else .error .assertion

end TuplaG

/-! ## `TuplaG2<T>` and `TuplaG3<T>`: the constructors from scalars, `cross` -/

namespace TuplaG2

variable {T : Type}

/-- The constructor `TuplaG2( const T & c0, const T & c1 )`, run on the indeterminate
object `this0`. -/
def ctor (c0 c1 : T) (this0 : TuplaG2 T) : Except Fault (TuplaG2 T) := do
  let t ← this0.ptrWrite 0 c0
  t.ptrWrite 1 c1

end TuplaG2

namespace TuplaG3

variable {T : Type}

/-- The constructor `TuplaG3( const T & c0, const T & c1, const T & c2 )`, run on the
indeterminate object `this0`. -/
def ctor (c0 c1 c2 : T) (this0 : TuplaG3 T) : Except Fault (TuplaG3 T) := do
  let t ← this0.ptrWrite 0 c0
  let t ← t.ptrWrite 1 c1
  t.ptrWrite 2 c2

/-- The member `cross`. -/
def cross [Scalar T] (self v2 : TuplaG3 T) (this0 : TuplaG3 T) : Except Fault (TuplaG3 T) := do
  let a0 ← self.opCall 0
  let a1 ← self.opCall 1
  let a2 ← self.opCall 2
  let b0 ← v2.opCall 0
  let b1 ← v2.opCall 1
  let b2 ← v2.opCall 2
  ctor (Scalar.sub (Scalar.mul a1 b2) (Scalar.mul a2 b1))
       (Scalar.sub (Scalar.mul a2 b0) (Scalar.mul a0 b2))
       (Scalar.sub (Scalar.mul a0 b1) (Scalar.mul a1 b0)) this0

end TuplaG3

/-! ## The other members: read-write access, the pointer, `+`, `-`, `/`, `a * v` -/

namespace TuplaG

variable {T : Type} {n : ℕ}

/-- The read-write accessor `T & operator () (const unsigned i)`:
`assert( i < n ) ; return coo[i] ;`.  The reference to `coo[i]` is held as the value stored
there together with the store through the reference. -/
def opCallRef (self : TuplaG T n) (i : ℕ) : Except Fault (T × (T → TuplaG T n)) :=
  if h : i < n then
    .ok (self.coo ⟨i, h⟩, fun x => ⟨fun j => if j.val = i then x else self.coo j⟩)
  else .error .assertion

/-- The assignment `v(i) = x` through the read-write accessor. -/
def opCallAssign (self : TuplaG T n) (i : ℕ) (x : T) : Except Fault (TuplaG T n) := do
  let r ← self.opCallRef i
  pure (r.2 x)

/-- The expression `p[i]` for the pointer `p` that `operator T * ()` or
`operator const T * () const` returns (both `return coo ;`): the element `coo[i]`, and no
value outside the array. -/
def ptrRead (self : TuplaG T n) (i : ℕ) : Except Fault T :=
  if h : i < n then .ok (self.coo ⟨i, h⟩) else .error .undefined

/-- The buffer view of a tuple: the `n` scalars `p[0]`, ..., `p[n-1]` read in index order
through the pointer `p` that the conversion returns. -/
def bufferView (self : TuplaG T n) : Except Fault (List T) :=
  (List.range n).mapM self.ptrRead

/-- The constructor `TuplaG( const T * org )`, `org` pointing to the elements of the list
`org`, run on the indeterminate object `this0`; reading past the end of `org` is undefined. -/
def ctorArray (org : List T) (this0 : TuplaG T n) : Except Fault (TuplaG T n) :=
  forLoop n (fun i self =>
    match org.get? i with
    | some x => self.ptrWrite i x
    | none => .error .undefined) this0

variable [Scalar T]

/-- The member `operator + ( const TuplaG & der )`. -/
def add (self der : TuplaG T n) (res0 : TuplaG T n) : Except Fault (TuplaG T n) :=
  forLoop n (fun i res => do
    let a ← self.opCall i
    let b ← der.opCall i
    res.ptrWrite i (Scalar.add a b)) res0

/-- The binary member `operator - ( const TuplaG & der )`. -/
def sub (self der : TuplaG T n) (res0 : TuplaG T n) : Except Fault (TuplaG T n) :=
  forLoop n (fun i res => do
    let a ← self.opCall i
    let b ← der.opCall i
    res.ptrWrite i (Scalar.sub a b)) res0

/-- The member `operator / ( const T & a )`. -/
def divScalar (self : TuplaG T n) (a : T) (res0 : TuplaG T n) : Except Fault (TuplaG T n) :=
  forLoop n (fun i res => do
    let x ← self.opCall i
    let q ← Scalar.div x a
    res.ptrWrite i q) res0

/-- The free `operator * ( const T & a, const TuplaG<T,n> & der )`. -/
def scalarMul (a : T) (der : TuplaG T n) (res0 : TuplaG T n) : Except Fault (TuplaG T n) :=
  forLoop n (fun i res => do
    let x ← der.opCall i
    res.ptrWrite i (Scalar.mul a x)) res0

end TuplaG

/-! ## The formatter -/

namespace TuplaG

variable {T : Type} {n : ℕ}

/-- The free `operator << ( std::ostream & os, const TuplaG<T,n> & der )`.  The stream is held
as the text written to it so far, and `render x` is the text that `os << x` writes for a
scalar `x`.  In `i+1 < n` the sum does not wrap around, because `i < n`. -/
def opShiftLeft (render : T → String) (os : String) (der : TuplaG T n) :
    Except Fault String := do
  let os := os ++ "("
  let os ← forLoop n (fun i os => do
    let x ← der.opCall i
    let os := os ++ render x
    if i + 1 < n then pure (os ++ ",") else pure os) os
  pure (os ++ ")")

end TuplaG

namespace CInt

/-- The text that `os << x` writes for an `int` on a stream in its initial state: the decimal
digits, after a minus sign when `x` is negative. -/
def render (x : CInt) : String := toString x.val

end CInt

/-! ## The constructors and assignments of `TuplaG2<T>`, `TuplaG3<T>`, `TuplaG4<T>` -/

namespace TuplaG2

variable {T : Type}

/-- The constructor `TuplaG2( const TuplaG<T,2> & ini )`, run on the indeterminate
object `this0`. -/
def ctorCopy (ini : TuplaG T 2) (this0 : TuplaG2 T) : Except Fault (TuplaG2 T) := do
  let x0 ← ini.opCall 0
  let t ← this0.ptrWrite 0 x0
  let x1 ← ini.opCall 1
  t.ptrWrite 1 x1

/-- The member `operator = ( const TuplaG<T,2> & der )` of the object `this0`. -/
def opAssign (this0 : TuplaG2 T) (der : TuplaG T 2) : Except Fault (TuplaG2 T) := do
  let x0 ← der.opCall 0
  let t ← this0.ptrWrite 0 x0
  let x1 ← der.opCall 1
  t.ptrWrite 1 x1

end TuplaG2

namespace TuplaG3

variable {T : Type}

/-- The constructor `TuplaG3( const TuplaG<T,3> & ini )`, run on the indeterminate
object `this0`. -/
def ctorCopy (ini : TuplaG T 3) (this0 : TuplaG3 T) : Except Fault (TuplaG3 T) := do
  let x0 ← ini.opCall 0
  let t ← this0.ptrWrite 0 x0
  let x1 ← ini.opCall 1
  let t ← t.ptrWrite 1 x1
  let x2 ← ini.opCall 2
  t.ptrWrite 2 x2

/-- The member `operator = ( const TuplaG<T,3> & der )` of the object `this0`. -/
def opAssign (this0 : TuplaG3 T) (der : TuplaG T 3) : Except Fault (TuplaG3 T) := do
  let x0 ← der.opCall 0
  let t ← this0.ptrWrite 0 x0
  let x1 ← der.opCall 1
  let t ← t.ptrWrite 1 x1
  let x2 ← der.opCall 2
  t.ptrWrite 2 x2

/-- The member `operator = ( const TuplaG<T,4> & der )` of the object `this0`: it assigns
ignoring the last component. -/
def opAssign4 (this0 : TuplaG3 T) (der : TuplaG T 4) : Except Fault (TuplaG3 T) := do
  let x0 ← der.opCall 0
  let t ← this0.ptrWrite 0 x0
  let x1 ← der.opCall 1
  let t ← t.ptrWrite 1 x1
  let x2 ← der.opCall 2
  t.ptrWrite 2 x2

end TuplaG3

namespace TuplaG4

variable {T : Type}

/-- The constructor `TuplaG4( const T & c0, const T & c1, const T & c2, const T & c3 )`, run
on the indeterminate object `this0`. -/
def ctor (c0 c1 c2 c3 : T) (this0 : TuplaG4 T) : Except Fault (TuplaG4 T) := do
  let t ← this0.ptrWrite 0 c0
  let t ← t.ptrWrite 1 c1
  let t ← t.ptrWrite 2 c2
  t.ptrWrite 3 c3

/-- The constructor `TuplaG4( const TuplaG<T,4> & ini )`, run on the indeterminate
object `this0`. -/
def ctorCopy (ini : TuplaG T 4) (this0 : TuplaG4 T) : Except Fault (TuplaG4 T) := do
  let x0 ← ini.opCall 0
  let t ← this0.ptrWrite 0 x0
  let x1 ← ini.opCall 1
  let t ← t.ptrWrite 1 x1
  let x2 ← ini.opCall 2
  let t ← t.ptrWrite 2 x2
  let x3 ← ini.opCall 3
  t.ptrWrite 3 x3

/-- The member `operator = ( const TuplaG<T,4> & der )` of the object `this0`. -/
def opAssign (this0 : TuplaG4 T) (der : TuplaG T 4) : Except Fault (TuplaG4 T) := do
  let x0 ← der.opCall 0
  let t ← this0.ptrWrite 0 x0
  let x1 ← der.opCall 1
  let t ← t.ptrWrite 1 x1
  let x2 ← der.opCall 2
  let t ← t.ptrWrite 2 x2
  let x3 ← der.opCall 3
  t.ptrWrite 3 x3

end TuplaG4

/-! ## Exact values, used to state the claims -/

namespace Dbl

/-- A rational is a `double` when rounding leaves it unchanged. -/
def IsDouble (q : ℚ) : Prop := rnd q = q

instance : DecidablePred IsDouble := fun q => inferInstanceAs (Decidable (rnd q = q))

end Dbl

namespace Flt

/-- A rational is a `float` when rounding leaves it unchanged. -/
def IsFloat (q : ℚ) : Prop := rnd q = q

instance : DecidablePred IsFloat := fun q => inferInstanceAs (Decidable (rnd q = q))

end Flt

namespace CInt

/-- An integer is in the range of `int`. -/
def InRange (x : ℤ) : Prop := -2147483648 ≤ x ∧ x < 2147483648

instance : DecidablePred InRange := fun x =>
  inferInstanceAs (Decidable (-2147483648 ≤ x ∧ x < 2147483648))

end CInt

namespace TuplaG

variable {T : Type} {n : ℕ}

/-- The exact product of the components of index `i` of two `int` tuples (`0` from `n` on). -/
def prodAt (a b : TuplaG CInt n) (i : ℕ) : ℤ :=
  if h : i < n then (a.coo ⟨i, h⟩).val * (b.coo ⟨i, h⟩).val else 0

/-- The exact sum of the first `k` products. -/
def prefixSum (a b : TuplaG CInt n) (k : ℕ) : ℤ :=
  ∑ i ∈ Finset.range k, prodAt a b i

/-- The dot product in the words of the specification: accumulate `a[i] * b[i]` for all `i`,
in index order, in `double`, then convert the accumulated sum back to `T`. -/
def dotSpec [Scalar T] (a b : TuplaG T n) : Except Fault T :=
  Scalar.ofDouble ((List.finRange n).foldl
    (fun acc i => Dbl.add acc (Dbl.mul (Scalar.toDouble (a.coo i)) (Scalar.toDouble (b.coo i))))
    (0 : Dbl))

end TuplaG

namespace TuplaG

variable {n : ℕ}

/-- The accumulation of `dot(a,b)` on `int` tuples is exact: every product and every partial
sum is a `double`, and the sum is in the range of `int`. -/
def DotExact (a b : TuplaG CInt n) : Prop :=
  (∀ i, i < n → Dbl.IsDouble ((prodAt a b i : ℤ) : ℚ)) ∧
  (∀ k, k ≤ n → Dbl.IsDouble ((prefixSum a b k : ℤ) : ℚ)) ∧
  CInt.InRange (prefixSum a b n)

instance (a b : TuplaG CInt n) : Decidable (DotExact a b) := by
  unfold DotExact
  exact inferInstanceAs (Decidable (_ ∧ _ ∧ _))

end TuplaG

namespace TuplaG3

/-- No `int` operation of `v.cross(w)` overflows: the six products and the three differences,
computed exactly, are in the range of `int`. -/
def CrossExact (v w : TuplaG3 CInt) : Prop :=
  CInt.InRange ((v.coo 1).val * (w.coo 2).val) ∧ CInt.InRange ((v.coo 2).val * (w.coo 1).val) ∧
  CInt.InRange ((v.coo 2).val * (w.coo 0).val) ∧ CInt.InRange ((v.coo 0).val * (w.coo 2).val) ∧
  CInt.InRange ((v.coo 0).val * (w.coo 1).val) ∧ CInt.InRange ((v.coo 1).val * (w.coo 0).val) ∧
  CInt.InRange ((v.coo 1).val * (w.coo 2).val - (v.coo 2).val * (w.coo 1).val) ∧
  CInt.InRange ((v.coo 2).val * (w.coo 0).val - (v.coo 0).val * (w.coo 2).val) ∧
  CInt.InRange ((v.coo 0).val * (w.coo 1).val - (v.coo 1).val * (w.coo 0).val)

instance (v w : TuplaG3 CInt) : Decidable (CrossExact v w) := by
  unfold CrossExact; infer_instance

end TuplaG3

namespace TuplaG

variable {T : Type} {n : ℕ}

/-- The scalar `1 / sqrt(s)` converted to `T`, for a squared length `s` of type `T`: the
expression `T( 1.0 / sqrt( double(s) ) )`. -/
def invSqrt [Scalar T] (s : T) : Except Fault T := do
  let r ← Dbl.sqrt (Scalar.toDouble s)
  let q ← Dbl.div 1 r
  Scalar.ofDouble q

end TuplaG

/-! ## Running the embedding: `Except`, loops, componentwise stores -/

section Basics

variable {α β : Type}

@[simp] theorem ok_bind (a : α) (f : α → Except Fault β) : (Except.ok a >>= f) = f a := rfl

@[simp] theorem error_bind (e : Fault) (f : α → Except Fault β) :
    ((Except.error e : Except Fault α) >>= f) = Except.error e := rfl

@[simp] theorem pure_eq_ok (a : α) : (pure a : Except Fault α) = Except.ok a := rfl

theorem forLoop_zero {σ : Type} (body : ℕ → σ → Except Fault σ) (s : σ) :
    forLoop 0 body s = .ok s := rfl

theorem forLoop_succ {σ : Type} (k : ℕ) (body : ℕ → σ → Except Fault σ) (s : σ) :
    forLoop (k + 1) body s = (forLoop k body s >>= fun acc => body k acc) := by
  unfold forLoop
  rw [List.range_succ, List.foldlM_append]
  congr 1
  funext acc
  simp only [List.foldlM, pure_eq_ok]
  cases body k acc <;> rfl

/-- The loop rule: a property that holds on entry and is carried from `i` to `i + 1` by every
iteration that the loop runs holds on exit, and the loop returns. -/
theorem forLoop_inv {σ : Type} (n : ℕ) (body : ℕ → σ → Except Fault σ) (P : ℕ → σ → Prop)
    (s0 : σ) (h0 : P 0 s0)
    (hstep : ∀ i s, i < n → P i s → ∃ s', body i s = .ok s' ∧ P (i + 1) s') :
    ∃ s, forLoop n body s0 = .ok s ∧ P n s := by
  suffices h : ∀ k, k ≤ n → ∃ s, forLoop k body s0 = .ok s ∧ P k s from h n le_rfl
  intro k
  induction k with
  | zero => intro _; exact ⟨s0, rfl, h0⟩
  | succ k ih =>
    intro hk
    obtain ⟨s, hs, hP⟩ := ih (Nat.le_of_succ_le hk)
    obtain ⟨s', hs', hP'⟩ := hstep k s hk hP
    exact ⟨s', by rw [forLoop_succ, hs, ok_bind, hs'], hP'⟩

end Basics

/-! ## Rounding in `double` -/

namespace Dbl

theorem roundHalfEven_intCast (z : ℤ) : roundHalfEven (z : ℚ) = z := by
  simp [roundHalfEven]

theorem roundHalfEven_sub_le (x : ℚ) : |(roundHalfEven x : ℚ) - x| ≤ 1 / 2 := by
  have h1 := Int.floor_le x
  have h2 := Int.lt_floor_add_one x
  unfold roundHalfEven
  simp only
  split_ifs with ha hb hc
  · rw [abs_le]; constructor <;> linarith
  · rw [abs_le]; push_cast; constructor <;> linarith
  · rw [abs_le]; constructor <;> linarith
  · rw [abs_le]; push_cast; constructor <;> linarith

theorem expo_spec {q : ℚ} (hq : q ≠ 0) :
    (2 : ℚ) ^ expo q ≤ |q| ∧ |q| < (2 : ℚ) ^ (expo q + 1) := by
  have hpos : 0 < |q| := abs_pos.mpr hq
  constructor
  · have h := @Int.zpow_log_le_self ℚ _ _ 2 |q| (by norm_num) hpos
    simpa [expo] using h
  · have h := @Int.lt_zpow_succ_log_self ℚ _ _ 2 (by norm_num) |q|
    simpa [expo] using h

theorem expo_eq {q : ℚ} {e : ℤ} (h1 : (2 : ℚ) ^ e ≤ |q|) (h2 : |q| < (2 : ℚ) ^ (e + 1)) :
    expo q = e := by
  have hpos : 0 < |q| := lt_of_lt_of_le (by positivity) h1
  have a := (@Int.zpow_le_iff_le_log ℚ _ _ 2 (by norm_num) e |q| hpos).1 (by simpa using h1)
  have b := (@Int.lt_zpow_iff_log_lt ℚ _ _ 2 (by norm_num) (e + 1) |q| hpos).1 (by simpa using h2)
  unfold expo
  omega

/-- The unit in the last place of `q` is positive. -/
theorem ulp_pos (q : ℚ) : (0 : ℚ) < 2 ^ (expo q - 52) := by positivity

/-- A value `m * 2 ^ e` with `|m| < 2 ^ 53` is a `double`: rounding leaves it unchanged. -/
theorem rnd_eq_self_of_repr (m e : ℤ) (hm : |m| < 2 ^ 53) :
    rnd ((m : ℚ) * 2 ^ e) = (m : ℚ) * 2 ^ e := by
  by_cases hq : (m : ℚ) * 2 ^ e = 0
  · simp [rnd, hq]
  have hm0 : m ≠ 0 := by
    rintro rfl
    simp at hq
  obtain ⟨hlo, hhi⟩ := expo_spec hq
  set E := expo ((m : ℚ) * 2 ^ e) with hE
  have h2e : (0 : ℚ) < 2 ^ e := by positivity
  have habs : |(m : ℚ) * 2 ^ e| = |(m : ℚ)| * 2 ^ e := by
    rw [abs_mul, abs_of_pos h2e]
  -- the exponent `e` is at least `E - 52`
  have hge : E - 52 ≤ e := by
    by_contra hcon
    have hcon : e + 53 ≤ E := by omega
    have h53 : ((2 : ℚ) ^ (53 : ℕ)) * 2 ^ e ≤ |(m : ℚ)| * 2 ^ e := by
      calc ((2 : ℚ) ^ (53 : ℕ)) * 2 ^ e = 2 ^ (e + 53) := by
            rw [zpow_add₀ (by norm_num : (2 : ℚ) ≠ 0)]
            norm_cast
            ring
        _ ≤ 2 ^ E := zpow_le_zpow_right₀ (by norm_num) hcon
        _ ≤ |(m : ℚ)| * 2 ^ e := by rw [← habs]; exact hlo
    have h53' : ((2 : ℚ) ^ (53 : ℕ)) ≤ |(m : ℚ)| := le_of_mul_le_mul_right h53 h2e
    have : ((2 : ℤ) ^ 53 : ℤ) ≤ |m| := by
      have h' : (((2 : ℤ) ^ 53 : ℤ) : ℚ) ≤ ((|m| : ℤ) : ℚ) := by
        push_cast
        exact h53'
      exact_mod_cast h'
    omega
  obtain ⟨k, hk⟩ : ∃ k : ℕ, e = E - 52 + k := ⟨(e - (E - 52)).toNat, by omega⟩
  have hquot : (m : ℚ) * 2 ^ e / 2 ^ (E - 52) = ((m * 2 ^ k : ℤ) : ℚ) := by
    rw [hk, zpow_add₀ (by norm_num : (2 : ℚ) ≠ 0)]
    push_cast
    field_simp
    ring
  unfold rnd
  rw [if_neg hq, ← hE, hquot, roundHalfEven_intCast, ← hquot]
  field_simp

/-- An integer of magnitude at most `2 ^ 53` is a `double`. -/
theorem rnd_intCast (x : ℤ) (hx : |x| ≤ 2 ^ 53) : rnd (x : ℚ) = x := by
  rcases lt_or_eq_of_le hx with h | h
  · simpa using rnd_eq_self_of_repr x 0 h
  · rcases abs_eq (by norm_num : (0 : ℤ) ≤ 2 ^ 53) |>.1 h with h' | h'
    · have := rnd_eq_self_of_repr 1 53 (by norm_num)
      rw [h']
      norm_num at this ⊢
      exact this
    · have := rnd_eq_self_of_repr (-1) 53 (by norm_num)
      rw [h']
      norm_num at this ⊢
      exact this

/-- Rounding moves a value by at most half a unit in the last place. -/
theorem rnd_sub_le (q : ℚ) : |rnd q - q| ≤ 2 ^ (expo q - 53) := by
  by_cases hq : q = 0
  · simp [rnd, hq]
    positivity
  have hu := ulp_pos q
  have h := roundHalfEven_sub_le (q / 2 ^ (expo q - 52))
  unfold rnd
  rw [if_neg hq]
  have e1 : (roundHalfEven (q / 2 ^ (expo q - 52)) : ℚ) * 2 ^ (expo q - 52) - q
      = ((roundHalfEven (q / 2 ^ (expo q - 52)) : ℚ) - q / 2 ^ (expo q - 52))
        * 2 ^ (expo q - 52) := by
    field_simp
  rw [e1, abs_mul, abs_of_pos hu]
  have e2 : (2 : ℚ) ^ (expo q - 53) = 1 / 2 * 2 ^ (expo q - 52) := by
    rw [show expo q - 53 = (expo q - 52) + (-1) by ring, zpow_add₀ (by norm_num : (2 : ℚ) ≠ 0)]
    norm_num
    ring
  rw [e2]
  exact mul_le_mul_of_nonneg_right h hu.le

theorem roundedRoot_natCast (M : ℕ) :
    (roundedRoot (M : ℚ) = Nat.sqrt M ∨
      (roundedRoot (M : ℚ) = Nat.sqrt M + 1 ∧ (2 * Nat.sqrt M + 1) ^ 2 ≤ 4 * M)) ∧
    (4 * M < (2 * Nat.sqrt M + 1) ^ 2 → roundedRoot (M : ℚ) = Nat.sqrt M) := by
  have hfl : ⌊(M : ℚ)⌋.toNat = M := by simp
  have hlt : (4 * (M : ℚ) < (((2 * (Nat.sqrt M : ℤ) + 1 : ℤ)) : ℚ) ^ 2) ↔
      4 * M < (2 * Nat.sqrt M + 1) ^ 2 := by
    constructor
    · intro h; exact_mod_cast h
    · intro h; exact_mod_cast h
  unfold roundedRoot
  simp only [hfl, hlt]
  by_cases h : 4 * M < (2 * Nat.sqrt M + 1) ^ 2
  · simp [h]
  · have hle : (2 * Nat.sqrt M + 1) ^ 2 ≤ 4 * M := Nat.le_of_not_lt h
    simp only [h, if_false, false_imp_iff, and_true]
    split_ifs <;> simp [hle]

/-- The square root of a natural number `1 ≤ s < 2 ^ 31` in `double`: the result lies between
`⌊√s⌋` and `⌊√s⌋ + 1`, is at least `5 / 4` from `s = 2` on, and is exact on squares. -/
theorem sqrt_natCast (s : ℕ) (h1 : 1 ≤ s) (h2 : s < 2 ^ 31) :
    ∃ d : ℚ, sqrt (s : ℚ) = .ok d ∧ (Nat.sqrt s : ℚ) ≤ d ∧ d < (Nat.sqrt s : ℚ) + 1 ∧
      (2 ≤ s → 5 / 4 ≤ d) ∧ (s = Nat.sqrt s * Nat.sqrt s → d = Nat.sqrt s) := by
  have hs0 : (s : ℚ) ≠ 0 := by
    have : (0 : ℚ) < s := by exact_mod_cast h1
    exact this.ne'
  have hsn : ¬ ((s : ℚ) < 0) := by
    have : (0 : ℚ) ≤ s := by exact_mod_cast Nat.zero_le s
    exact not_lt.mpr this
  obtain ⟨hlo, hhi⟩ := expo_spec hs0
  rw [abs_of_nonneg (by exact_mod_cast Nat.zero_le s : (0 : ℚ) ≤ s)] at hlo hhi
  set E := expo (s : ℚ) with hE
  -- bounds on the exponent
  have hE0 : 0 ≤ E := by
    have h : (2 : ℚ) ^ (0 : ℤ) < 2 ^ (E + 1) := by
      have : (1 : ℚ) ≤ s := by exact_mod_cast h1
      simpa using lt_of_le_of_lt this hhi
    have := (zpow_lt_zpow_iff_right₀ (by norm_num : (1 : ℚ) < 2)).1 h
    omega
  have hE30 : E ≤ 30 := by
    have h : (2 : ℚ) ^ E < 2 ^ (31 : ℤ) := by
      have h31 : (s : ℚ) < (2 : ℚ) ^ (31 : ℤ) := by
        have h' : (s : ℚ) < (2 : ℚ) ^ (31 : ℕ) := by exact_mod_cast h2
        rw [show (31 : ℤ) = ((31 : ℕ) : ℤ) by norm_num, zpow_natCast]
        exact h'
      exact lt_of_le_of_lt hlo h31
    have := (zpow_lt_zpow_iff_right₀ (by norm_num : (1 : ℚ) < 2)).1 h
    omega
  obtain ⟨t, ht, ht37, ht52⟩ : ∃ t : ℕ, E / 2 - 52 = -(t : ℤ) ∧ 37 ≤ t ∧ t ≤ 52 :=
    ⟨(52 - E / 2).toNat, by omega, by omega, by omega⟩
  set N : ℕ := 2 ^ t with hN
  have hNpos : 0 < N := by positivity
  have hu : (2 : ℚ) ^ (E / 2 - 52) = ((N : ℚ))⁻¹ := by
    rw [ht, zpow_neg, zpow_natCast]
    simp [hN]
  have hNq : (N : ℚ) ≠ 0 := by exact_mod_cast hNpos.ne'
  have hm : (s : ℚ) / ((N : ℚ)⁻¹ * (N : ℚ)⁻¹) = ((s * N * N : ℕ) : ℚ) := by
    push_cast
    field_simp
    ring
  obtain ⟨hcase, hexact⟩ := roundedRoot_natCast (s * N * N)
  set k := Nat.sqrt s with hk
  set r := Nat.sqrt (s * N * N) with hr
  have hk1 : k * k ≤ s := Nat.sqrt_le s
  have hk2 : s < (k + 1) * (k + 1) := Nat.lt_succ_sqrt s
  -- `k + 1 ≤ 2 ^ 16 ≤ N`
  have hkN : k + 1 ≤ N := by
    have hk16 : k < 2 ^ 16 := by
      by_contra hcon
      have : 2 ^ 16 ≤ k := Nat.le_of_not_lt hcon
      have : 2 ^ 16 * 2 ^ 16 ≤ k * k := Nat.mul_le_mul this this
      omega
    have : 2 ^ 37 ≤ N := Nat.pow_le_pow_right (by norm_num) ht37
    omega
  have h4N : 4 ∣ N := by
    rw [hN]
    exact Dvd.dvd.trans (by norm_num : 4 ∣ 2 ^ 2) (pow_dvd_pow 2 (by omega))
  have hrlo : k * N ≤ r := by
    rw [hr, Nat.le_sqrt]
    calc k * N * (k * N) = k * k * N * N := by ring
      _ ≤ s * N * N := by gcongr
  have hrhi : r < (k + 1) * N := by
    rw [hr, Nat.sqrt_lt]
    calc s * N * N < (k + 1) * (k + 1) * N * N := by
          have : s * N < (k + 1) * (k + 1) * N := Nat.mul_lt_mul_of_pos_right hk2 hNpos
          exact Nat.mul_lt_mul_of_pos_right this hNpos
      _ = (k + 1) * N * ((k + 1) * N) := by ring
  -- the significand of the result
  obtain ⟨s', hs', hs'lo, hs'hi, hs'2, hs'sq⟩ : ∃ s' : ℕ, roundedRoot ((s * N * N : ℕ) : ℚ) = s' ∧
      k * N ≤ s' ∧ s' < (k + 1) * N ∧ (2 ≤ s → 5 * N ≤ 4 * s') ∧
      (s = k * k → s' = k * N) := by
    have h5 : 2 ≤ s → 5 * N ≤ 4 * r := by
      intro hs2
      obtain ⟨c, hc⟩ := h4N
      have : 5 * c ≤ r := by
        rw [hr, Nat.le_sqrt, hc]
        calc 5 * c * (5 * c) = 25 * (c * c) := by ring
          _ ≤ 32 * (c * c) := by gcongr; norm_num
          _ = 2 * (4 * c) * (4 * c) := by ring
          _ ≤ s * (4 * c) * (4 * c) := by gcongr
      omega
    have hsq : s = k * k → r = k * N := by
      intro hsk
      rw [hr, eq_comm, Nat.eq_sqrt]
      constructor
      · rw [hsk]; exact le_of_eq (by ring)
      · rw [hsk]
        calc k * k * N * N = k * N * (k * N) := by ring
          _ < (k * N + 1) * (k * N + 1) := Nat.mul_self_lt_mul_self (Nat.lt_succ_self _)
    rcases hcase with hc | ⟨hc, hround⟩
    · exact ⟨r, by exact_mod_cast hc, hrlo, hrhi, h5, hsq⟩
    · refine ⟨r + 1, by exact_mod_cast hc, by omega, ?_, fun h => by have := h5 h; omega, ?_⟩
      · -- rounding up cannot reach `(k + 1) * N`
        by_contra hcon
        have hrk : r + 1 = (k + 1) * N := by omega
        have hle : s * N * N + N * N ≤ (k + 1) * N * ((k + 1) * N) := by
          have : s + 1 ≤ (k + 1) * (k + 1) := hk2
          calc s * N * N + N * N = (s + 1) * (N * N) := by ring
            _ ≤ (k + 1) * (k + 1) * (N * N) := by gcongr
            _ = (k + 1) * N * ((k + 1) * N) := by ring
        have hNN : r + 1 ≤ N * N := by
          rw [hrk]
          exact Nat.mul_le_mul_right N hkN
        rw [← hrk] at hle
        have hid : (2 * r + 1) ^ 2 + 4 * (r + 1) = 4 * ((r + 1) * (r + 1)) + 1 := by ring
        linarith
      · intro hsk
        have hr' := hsq hsk
        have : 4 * (s * N * N) < (2 * r + 1) ^ 2 := by
          rw [hr', hsk]
          have hid : (2 * (k * N) + 1) ^ 2 = 4 * (k * k * N * N) + 4 * (k * N) + 1 := by ring
          rw [hid]
          omega
        have := hexact this
        rw [hc] at this
        have : (r : ℤ) + 1 = r := by exact_mod_cast this
        omega
  refine ⟨(s' : ℚ) * (N : ℚ)⁻¹, ?_, ?_, ?_, ?_, ?_⟩
  · unfold sqrt
    simp only [if_neg hsn, if_neg hs0, ← hE, hu, hm, hs']
    norm_cast
  · rw [le_mul_inv_iff₀ (by exact_mod_cast hNpos)]
    exact_mod_cast hs'lo
  · rw [mul_inv_lt_iff₀ (by exact_mod_cast hNpos)]
    exact_mod_cast hs'hi
  · intro hs2
    rw [le_mul_inv_iff₀ (by exact_mod_cast hNpos)]
    have := hs'2 hs2
    have h' : (5 : ℚ) * N ≤ 4 * s' := by exact_mod_cast this
    linarith
  · intro hsk
    rw [hs'sq hsk]
    push_cast
    field_simp

end Dbl

namespace TuplaG

variable {T : Type} {n : ℕ}

theorem ext_coo {a b : TuplaG T n} (h : ∀ j, a.coo j = b.coo j) : a = b := by
  cases a; cases b; congr; funext j; exact h j

theorem opCall_lt (self : TuplaG T n) {i : ℕ} (h : i < n) :
    self.opCall i = .ok (self.coo ⟨i, h⟩) := by
  simp [opCall, h]

theorem opCall_ge (self : TuplaG T n) {i : ℕ} (h : n ≤ i) :
    self.opCall i = .error .assertion := by
  simp [opCall, Nat.not_lt.mpr h]

theorem ptrWrite_lt (self : TuplaG T n) {i : ℕ} (h : i < n) (x : T) :
    self.ptrWrite i x = .ok ⟨fun j => if j.val = i then x else self.coo j⟩ := by
  simp [ptrWrite, h]

/-- A loop that stores `g i` in component `i` for every `i < n` returns the tuple of the
`g i`, whatever the tuple held before. -/
theorem forLoop_fill (g : Fin n → T) (body : ℕ → TuplaG T n → Except Fault (TuplaG T n))
    (hbody : ∀ i (h : i < n) (res : TuplaG T n), body i res = res.ptrWrite i (g ⟨i, h⟩))
    (res0 : TuplaG T n) : forLoop n body res0 = .ok ⟨g⟩ := by
  obtain ⟨s, hs, hP⟩ := forLoop_inv n body
    (fun k res => ∀ j : Fin n, j.val < k → res.coo j = g j) res0
    (fun j hj => absurd hj (Nat.not_lt_zero _))
    (fun i res hi hP => by
      refine ⟨_, by rw [hbody i hi res, ptrWrite_lt _ hi], ?_⟩
      intro j hj
      by_cases hji : j.val = i
      · have : j = ⟨i, hi⟩ := Fin.ext hji
        simp [hji, this]
      · simp only [hji, if_false]
        exact hP j (by omega))
  rw [hs]
  congr 1
  exact ext_coo (fun j => hP j j.isLt)

variable [Scalar T]

theorem neg_eq (self res0 : TuplaG T n) :
    self.neg res0 = .ok ⟨fun j => Scalar.neg (self.coo j)⟩ :=
  forLoop_fill _ _ (fun i h res => by simp [opCall_lt _ h]) res0

theorem mulScalar_eq (self : TuplaG T n) (a : T) (res0 : TuplaG T n) :
    self.mulScalar a res0 = .ok ⟨fun j => Scalar.mul (self.coo j) a⟩ :=
  forLoop_fill _ _ (fun i h res => by simp [opCall_lt _ h]) res0

end TuplaG

namespace TuplaG3

variable {T : Type}

theorem ctor3_eq (c0 c1 c2 : T) (this0 : TuplaG3 T) :
    ctor c0 c1 c2 this0 = .ok ⟨![c0, c1, c2]⟩ := by
  simp only [ctor, TuplaG.ptrWrite, show (0 : ℕ) < 3 by norm_num, show (1 : ℕ) < 3 by norm_num,
    show (2 : ℕ) < 3 by norm_num, if_true, ok_bind]
  congr 1
  apply TuplaG.ext_coo
  intro j
  fin_cases j <;> simp

theorem cross_eq [Scalar T] (self v2 this0 : TuplaG3 T) :
    self.cross v2 this0 = .ok ⟨![
      Scalar.sub (Scalar.mul (self.coo 1) (v2.coo 2)) (Scalar.mul (self.coo 2) (v2.coo 1)),
      Scalar.sub (Scalar.mul (self.coo 2) (v2.coo 0)) (Scalar.mul (self.coo 0) (v2.coo 2)),
      Scalar.sub (Scalar.mul (self.coo 0) (v2.coo 1)) (Scalar.mul (self.coo 1) (v2.coo 0))]⟩ := by
  simp only [cross, TuplaG.opCall, show (0 : ℕ) < 3 by norm_num, show (1 : ℕ) < 3 by norm_num,
    show (2 : ℕ) < 3 by norm_num, dif_pos, ok_bind, ctor3_eq]
  rfl

end TuplaG3

/-! ## Arithmetic of `int` -/

namespace CInt

theorem ext_val {a b : CInt} (h : a.val = b.val) : a = b := by
  cases a; cases b; simp only [mk.injEq]; exact h

theorem wrap32_of_inRange {x : ℤ} (h1 : -2147483648 ≤ x) (h2 : x < 2147483648) :
    wrap32 x = x := by
  unfold wrap32; omega

@[simp] theorem wrap_val (x : ℤ) : (wrap x).val = wrap32 x := rfl

theorem wrap_self (a : CInt) : wrap a.val = a :=
  ext_val (wrap32_of_inRange a.lo a.hi)

@[simp] theorem add_val (a b : CInt) : (Scalar.add a b).val = wrap32 (a.val + b.val) := rfl

@[simp] theorem sub_val (a b : CInt) : (Scalar.sub a b).val = wrap32 (a.val - b.val) := rfl

@[simp] theorem mul_val (a b : CInt) : (Scalar.mul a b).val = wrap32 (a.val * b.val) := rfl

@[simp] theorem toDouble_eq (a : CInt) : Scalar.toDouble a = (a.val : ℚ) := rfl

@[simp] theorem ofNat_val (k : ℕ) : (OfNat.ofNat k : CInt).val = wrap32 k := rfl

end CInt

/-! ## The dot product -/

section Loops

variable {σ : Type}

theorem foldlM_ok (f : σ → Fin n → σ) (l : List (Fin n)) (s : σ) :
    l.foldlM (fun acc i => (Except.ok (f acc i) : Except Fault σ)) s = .ok (l.foldl f s) := by
  induction l generalizing s with
  | nil => rfl
  | cons x xs ih => simp only [List.foldlM, List.foldl, ok_bind, ih]

/-- A loop whose body returns, at every index `i < n`, a function of the index and of the
accumulator, is the left fold of that function over the indices in increasing order. -/
theorem forLoop_eq_foldl {n : ℕ} (body : ℕ → σ → Except Fault σ) (step : σ → Fin n → σ)
    (hbody : ∀ (i : Fin n) (acc : σ), body i.val acc = .ok (step acc i)) (s : σ) :
    forLoop n body s = .ok ((List.finRange n).foldl step s) := by
  unfold forLoop
  rw [← List.map_coe_finRange n, List.foldlM_map]
  rw [show (fun acc (i : Fin n) => body i.val acc) =
    fun acc i => (Except.ok (step acc i) : Except Fault σ) from
      funext fun acc => funext fun i => hbody i acc]
  exact foldlM_ok step _ s

end Loops

namespace Dbl

theorem trunc_intCast (z : ℤ) : trunc (z : ℚ) = z := by
  unfold trunc
  split_ifs <;> simp

theorem rnd_zero : rnd 0 = 0 := by simp [rnd]

end Dbl

namespace CInt

theorem ofDouble_intCast (z : ℤ) (h1 : -2147483648 ≤ z) (h2 : z < 2147483648) :
    (Scalar.ofDouble (z : ℚ) : Except Fault CInt) = .ok ⟨z, h1, h2⟩ := by
  show ofDouble (z : ℚ) = _
  unfold ofDouble
  simp only [Dbl.trunc_intCast]
  rw [dif_pos ⟨h1, h2⟩]

end CInt

namespace TuplaG

variable {T : Type} {n : ℕ}

theorem dot_eq_dotSpec [Scalar T] (a b : TuplaG T n) : a.dot b = a.dotSpec b := by
  unfold dot dotSpec
  rw [forLoop_eq_foldl _ (fun acc i =>
    Dbl.add acc (Dbl.mul (Scalar.toDouble (a.coo i)) (Scalar.toDouble (b.coo i))))
    (fun i acc => by simp [opCall_lt _ i.isLt])]
  rfl

theorem prodAt_lt (a b : TuplaG CInt n) {i : ℕ} (h : i < n) :
    prodAt a b i = (a.coo ⟨i, h⟩).val * (b.coo ⟨i, h⟩).val := by
  simp [prodAt, h]

theorem prefixSum_zero (a b : TuplaG CInt n) : prefixSum a b 0 = 0 := by
  simp [prefixSum]

theorem prefixSum_succ (a b : TuplaG CInt n) (k : ℕ) :
    prefixSum a b (k + 1) = prefixSum a b k + prodAt a b k := by
  simp [prefixSum, Finset.sum_range_succ]

theorem prefixSum_full (a b : TuplaG CInt n) :
    prefixSum a b n = ∑ i : Fin n, (a.coo i).val * (b.coo i).val := by
  unfold prefixSum
  rw [← Fin.sum_univ_eq_sum_range]
  refine Finset.sum_congr rfl (fun i _ => ?_)
  rw [prodAt_lt a b i.isLt]

/-- The accumulation loop of `dot` on `int` tuples: when every product and every partial sum
is a `double`, the accumulator ends with the exact sum. -/
theorem dot_loop_exact (a b : TuplaG CInt n)
    (hp : ∀ i, i < n → Dbl.IsDouble (prodAt a b i))
    (hs : ∀ k, k ≤ n → Dbl.IsDouble (prefixSum a b k)) :
    forLoop n (fun i (res : Dbl) => do
      let x ← a.opCall i
      let y ← b.opCall i
      pure (Dbl.add res (Dbl.mul (Scalar.toDouble x) (Scalar.toDouble y)))) (0 : Dbl)
      = .ok (prefixSum a b n : ℚ) := by
  obtain ⟨s, hs', hP⟩ := forLoop_inv n (fun i (res : Dbl) => do
      let x ← a.opCall i
      let y ← b.opCall i
      pure (Dbl.add res (Dbl.mul (Scalar.toDouble x) (Scalar.toDouble y))))
    (fun k (acc : Dbl) => acc = (prefixSum a b k : ℚ))
    (0 : Dbl) (by simp [prefixSum_zero])
    (fun i acc hi hacc => by
      have hacc' : acc = (prefixSum a b i : ℚ) := hacc
      refine ⟨Dbl.add acc (Dbl.mul (Scalar.toDouble (a.coo ⟨i, hi⟩))
        (Scalar.toDouble (b.coo ⟨i, hi⟩))),
        by simp only [opCall_lt _ hi, ok_bind, pure_eq_ok], ?_⟩
      show Dbl.add acc (Dbl.mul (Scalar.toDouble (a.coo ⟨i, hi⟩))
        (Scalar.toDouble (b.coo ⟨i, hi⟩))) = ((prefixSum a b (i + 1) : ℤ) : ℚ)
      have h1 : Dbl.mul (Scalar.toDouble (a.coo ⟨i, hi⟩)) (Scalar.toDouble (b.coo ⟨i, hi⟩))
          = (prodAt a b i : ℚ) := by
        have := hp i hi
        unfold Dbl.IsDouble at this
        rw [prodAt_lt a b hi] at this ⊢
        simp only [CInt.toDouble_eq, Dbl.mul]
        push_cast at this ⊢
        exact this
      have h2 := hs (i + 1) hi
      unfold Dbl.IsDouble at h2
      rw [h1, hacc', Dbl.add, prefixSum_succ]
      rw [prefixSum_succ] at h2
      push_cast at h2 ⊢
      exact h2)
  rw [hs', hP]

/-- The dot product of `int` tuples is the exact sum when the accumulation is exact and the
sum is an `int`. -/
theorem dot_exact (a b : TuplaG CInt n)
    (hp : ∀ i, i < n → Dbl.IsDouble (prodAt a b i))
    (hs : ∀ k, k ≤ n → Dbl.IsDouble (prefixSum a b k))
    (h1 : -2147483648 ≤ prefixSum a b n) (h2 : prefixSum a b n < 2147483648) :
    a.dot b = .ok ⟨prefixSum a b n, h1, h2⟩ := by
  unfold dot
  rw [dot_loop_exact a b hp hs, ok_bind]
  exact CInt.ofDouble_intCast _ h1 h2

end TuplaG

namespace Dbl

theorem isDouble_intCast (x : ℤ) (hx : |x| ≤ 2 ^ 53) : IsDouble (x : ℚ) :=
  rnd_intCast x hx

theorem roundHalfEven_eq_of_near (x : ℚ) (z : ℤ) (h : |x - z| < 1 / 2) :
    roundHalfEven x = z := by
  rw [abs_lt] at h
  obtain ⟨h1, h2⟩ := h
  unfold roundHalfEven
  simp only
  by_cases hz : (z : ℚ) ≤ x
  · have hf : ⌊x⌋ = z := by
      rw [Int.floor_eq_iff]
      constructor
      · exact hz
      · linarith
    rw [hf, if_pos (by linarith)]
  · have hf : ⌊x⌋ = z - 1 := by
      rw [Int.floor_eq_iff]
      push_cast
      constructor
      · linarith
      · linarith
    rw [hf]
    push_cast
    rw [if_neg (by linarith), if_pos (by linarith)]
    ring

/-- Rounding of `q` with `2 ^ e ≤ |q| < 2 ^ (e + 1)`: the multiple `z * 2 ^ (e - 52)` of the
unit in the last place that is less than half a unit away. -/
theorem rnd_eq_of_near (q : ℚ) (e z : ℤ) (h1 : (2 : ℚ) ^ e ≤ |q|) (h2 : |q| < (2 : ℚ) ^ (e + 1))
    (hz : |q / 2 ^ (e - 52) - z| < 1 / 2) : rnd q = (z : ℚ) * 2 ^ (e - 52) := by
  have hq : q ≠ 0 := by
    intro h0
    rw [h0, abs_zero] at h1
    exact absurd h1 (not_le.mpr (by positivity))
  unfold rnd
  rw [if_neg hq, expo_eq h1 h2, roundHalfEven_eq_of_near _ z hz]

end Dbl

namespace TuplaG3

theorem coo_of_cross_eq {v w this0 c : TuplaG3 CInt} (hc : v.cross w this0 = .ok c)
    (hex : CrossExact v w) :
    (c.coo 0).val = (v.coo 1).val * (w.coo 2).val - (v.coo 2).val * (w.coo 1).val ∧
    (c.coo 1).val = (v.coo 2).val * (w.coo 0).val - (v.coo 0).val * (w.coo 2).val ∧
    (c.coo 2).val = (v.coo 0).val * (w.coo 1).val - (v.coo 1).val * (w.coo 0).val := by
  rw [cross_eq] at hc
  have hc' := (Except.ok.inj hc).symm
  obtain ⟨h1, h2, h3, h4, h5, h6, h7, h8, h9⟩ := hex
  have e : ∀ {x : ℤ}, CInt.InRange x → wrap32 x = x := fun h => CInt.wrap32_of_inRange h.1 h.2
  subst hc'
  refine ⟨?_, ?_, ?_⟩
  · show (Scalar.sub (Scalar.mul (v.coo 1) (w.coo 2)) (Scalar.mul (v.coo 2) (w.coo 1))).val = _
    rw [CInt.sub_val, CInt.mul_val, CInt.mul_val, e h1, e h2, e h7]
  · show (Scalar.sub (Scalar.mul (v.coo 2) (w.coo 0)) (Scalar.mul (v.coo 0) (w.coo 2))).val = _
    rw [CInt.sub_val, CInt.mul_val, CInt.mul_val, e h3, e h4, e h8]
  · show (Scalar.sub (Scalar.mul (v.coo 0) (w.coo 1)) (Scalar.mul (v.coo 1) (w.coo 0))).val = _
    rw [CInt.sub_val, CInt.mul_val, CInt.mul_val, e h5, e h6, e h9]

end TuplaG3

namespace TuplaG

/-- The dot product of 3-component `int` tuples, with the loop unrolled. -/
theorem dot3_eq (a b : TuplaG CInt 3) :
    a.dot b = Scalar.ofDouble (Dbl.add (Dbl.add (Dbl.add 0
      (Dbl.mul ((a.coo 0).val : ℚ) ((b.coo 0).val : ℚ)))
      (Dbl.mul ((a.coo 1).val : ℚ) ((b.coo 1).val : ℚ)))
      (Dbl.mul ((a.coo 2).val : ℚ) ((b.coo 2).val : ℚ))) := by
  rw [dot_eq_dotSpec]
  rfl

end TuplaG

namespace Dbl

/-- The accumulation of `(2^30+1, -2^30, -(2^30+1)) · (2^30+1, 2^30+1, 1)` in `double`: the
first product, `2^60 + 2^31 + 1`, is rounded to `2^60 + 2^31`. -/
theorem accumulate_example :
    Dbl.add (Dbl.add (Dbl.add 0
      (Dbl.mul ((1073741825 : ℤ) : ℚ) ((1073741825 : ℤ) : ℚ)))
      (Dbl.mul ((-1073741824 : ℤ) : ℚ) ((1073741825 : ℤ) : ℚ)))
      (Dbl.mul ((-1073741825 : ℤ) : ℚ) ((1 : ℤ) : ℚ)) = ((-1 : ℤ) : ℚ) := by
  have m0 : Dbl.mul ((1073741825 : ℤ) : ℚ) ((1073741825 : ℤ) : ℚ)
      = ((1152921506754330624 : ℤ) : ℚ) := by
    have h := rnd_eq_of_near 1152921506754330625 60 4503599635759104
      (by norm_num [abs_le]) (by norm_num [abs_lt]) (by norm_num [abs_lt])
    unfold Dbl.mul
    norm_num at h ⊢
    exact h
  have a0 : Dbl.add 0 ((1152921506754330624 : ℤ) : ℚ) = ((1152921506754330624 : ℤ) : ℚ) := by
    have h := rnd_eq_self_of_repr 536870913 31 (by norm_num)
    unfold Dbl.add
    norm_num at h ⊢
    exact h
  have m1 : Dbl.mul ((-1073741824 : ℤ) : ℚ) ((1073741825 : ℤ) : ℚ)
      = ((-1152921505680588800 : ℤ) : ℚ) := by
    have h := rnd_eq_self_of_repr (-1073741825) 30 (by norm_num)
    unfold Dbl.mul
    norm_num at h ⊢
    exact h
  have a1 : Dbl.add ((1152921506754330624 : ℤ) : ℚ) ((-1152921505680588800 : ℤ) : ℚ)
      = ((1073741824 : ℤ) : ℚ) := by
    have h := rnd_intCast 1073741824 (by norm_num)
    unfold Dbl.add
    norm_num at h ⊢
    exact h
  have m2 : Dbl.mul ((-1073741825 : ℤ) : ℚ) ((1 : ℤ) : ℚ) = ((-1073741825 : ℤ) : ℚ) := by
    have h := rnd_intCast (-1073741825) (by norm_num)
    unfold Dbl.mul
    norm_num at h ⊢
    exact h
  have a2 : Dbl.add ((1073741824 : ℤ) : ℚ) ((-1073741825 : ℤ) : ℚ) = ((-1 : ℤ) : ℚ) := by
    have h := rnd_intCast (-1) (by norm_num)
    unfold Dbl.add
    norm_num at h ⊢
    exact h
  rw [m0, a0, m1, a1, m2, a2]

end Dbl

/-! ## Sums of squares: `lengthSq` and the test of `normalized` -/

namespace Dbl

theorem floor_le_roundHalfEven (x : ℚ) : ⌊x⌋ ≤ roundHalfEven x := by
  unfold roundHalfEven
  simp only
  split_ifs <;> omega

theorem rnd_nonneg {q : ℚ} (hq : 0 ≤ q) : 0 ≤ rnd q := by
  unfold rnd
  split_ifs with h0
  · exact le_rfl
  · have hu := ulp_pos q
    have hx : 0 ≤ q / 2 ^ (expo q - 52) := div_nonneg hq hu.le
    have hf : (0 : ℤ) ≤ roundHalfEven (q / 2 ^ (expo q - 52)) :=
      le_trans (Int.floor_nonneg.mpr hx) (floor_le_roundHalfEven _)
    exact mul_nonneg (by exact_mod_cast hf) hu.le

/-- Rounding does not go below a power of two that the value reaches. -/
theorem le_rnd_of_two_pow_le {q : ℚ} (k : ℤ) (hq : (2 : ℚ) ^ k ≤ q) : (2 : ℚ) ^ k ≤ rnd q := by
  have hpos : 0 < q := lt_of_lt_of_le (by positivity) hq
  have hq0 : q ≠ 0 := hpos.ne'
  obtain ⟨hlo, hhi⟩ := expo_spec hq0
  rw [abs_of_pos hpos] at hlo hhi
  have hkE : k ≤ expo q := by
    have h : (2 : ℚ) ^ k < 2 ^ (expo q + 1) := lt_of_le_of_lt hq hhi
    have := (zpow_lt_zpow_iff_right₀ (by norm_num : (1 : ℚ) < 2)).1 h
    omega
  have hu := ulp_pos q
  have h52 : ((2 ^ 52 : ℤ) : ℚ) ≤ q / 2 ^ (expo q - 52) := by
    rw [le_div_iff₀ hu]
    calc ((2 ^ 52 : ℤ) : ℚ) * 2 ^ (expo q - 52) = 2 ^ (expo q) := by
          rw [show expo q = 52 + (expo q - 52) by ring, zpow_add₀ (by norm_num : (2 : ℚ) ≠ 0)]
          norm_num
      _ ≤ q := hlo
  have hf : (2 ^ 52 : ℤ) ≤ roundHalfEven (q / 2 ^ (expo q - 52)) :=
    le_trans (Int.le_floor.mpr h52) (floor_le_roundHalfEven _)
  unfold rnd
  rw [if_neg hq0]
  calc (2 : ℚ) ^ k ≤ 2 ^ (expo q) := zpow_le_zpow_right₀ (by norm_num) hkE
    _ = ((2 ^ 52 : ℤ) : ℚ) * 2 ^ (expo q - 52) := by
          rw [show expo q = 52 + (expo q - 52) by ring, zpow_add₀ (by norm_num : (2 : ℚ) ≠ 0)]
          norm_num
    _ ≤ (roundHalfEven (q / 2 ^ (expo q - 52)) : ℚ) * 2 ^ (expo q - 52) :=
          mul_le_mul_of_nonneg_right (by exact_mod_cast hf) hu.le

end Dbl

namespace TuplaG

variable {n : ℕ}

theorem prodAt_self_nonneg (v : TuplaG CInt n) (i : ℕ) : 0 ≤ prodAt v v i := by
  unfold prodAt
  split_ifs
  · exact mul_self_nonneg _
  · exact le_rfl

theorem prefixSum_self_nonneg (v : TuplaG CInt n) (k : ℕ) : 0 ≤ prefixSum v v k :=
  Finset.sum_nonneg (fun i _ => prodAt_self_nonneg v i)

theorem prefixSum_self_mono (v : TuplaG CInt n) {j k : ℕ} (h : j ≤ k) :
    prefixSum v v j ≤ prefixSum v v k := by
  induction k with
  | zero => rw [Nat.le_zero.mp h]
  | succ k ih =>
    rcases Nat.lt_or_ge j (k + 1) with hlt | hge
    · have := ih (Nat.lt_succ_iff.mp hlt)
      rw [prefixSum_succ]
      have := prodAt_self_nonneg v k
      omega
    · rw [Nat.le_antisymm h hge]

/-- The `double` accumulation of `dot(v,v)` on an `int` tuple: it ends with the exact sum of
the squares when that sum is below `2 ^ 31`, and with at least `2 ^ 31` otherwise. -/
theorem sq_loop (v : TuplaG CInt n) :
    ∃ acc : Dbl, forLoop n (fun i (res : Dbl) => do
        let x ← v.opCall i
        let y ← v.opCall i
        pure (Dbl.add res (Dbl.mul (Scalar.toDouble x) (Scalar.toDouble y)))) (0 : Dbl)
        = .ok acc ∧
      (prefixSum v v n < 2147483648 → acc = (prefixSum v v n : ℚ)) ∧
      (2147483648 ≤ prefixSum v v n → (2147483648 : ℚ) ≤ acc) := by
  refine forLoop_inv n (fun i (res : Dbl) => do
      let x ← v.opCall i
      let y ← v.opCall i
      pure (Dbl.add res (Dbl.mul (Scalar.toDouble x) (Scalar.toDouble y))))
    (fun k (acc : Dbl) => (prefixSum v v k < 2147483648 → acc = (prefixSum v v k : ℚ)) ∧
      (2147483648 ≤ prefixSum v v k → (2147483648 : ℚ) ≤ acc))
    (0 : Dbl) ⟨fun _ => by simp [prefixSum_zero], fun h => by simp [prefixSum_zero] at h⟩ ?_
  intro i acc hi hacc
  obtain ⟨hA, hB⟩ : (prefixSum v v i < 2147483648 → acc = (prefixSum v v i : ℚ)) ∧
      (2147483648 ≤ prefixSum v v i → (2147483648 : ℚ) ≤ acc) := hacc
  refine ⟨Dbl.add acc (Dbl.mul (Scalar.toDouble (v.coo ⟨i, hi⟩))
    (Scalar.toDouble (v.coo ⟨i, hi⟩))),
    by simp only [opCall_lt _ hi, ok_bind, pure_eq_ok], ?_⟩
  show (prefixSum v v (i + 1) < 2147483648 → Dbl.add acc (Dbl.mul (Scalar.toDouble
      (v.coo ⟨i, hi⟩)) (Scalar.toDouble (v.coo ⟨i, hi⟩))) = ((prefixSum v v (i + 1) : ℤ) : ℚ)) ∧
    (2147483648 ≤ prefixSum v v (i + 1) → (2147483648 : ℚ) ≤ Dbl.add acc (Dbl.mul
      (Scalar.toDouble (v.coo ⟨i, hi⟩)) (Scalar.toDouble (v.coo ⟨i, hi⟩))))
  have hS0 := prefixSum_self_nonneg v i
  have hp0 := prodAt_self_nonneg v i
  have hsucc := prefixSum_succ v v i
  have hmul : Dbl.mul (Scalar.toDouble (v.coo ⟨i, hi⟩)) (Scalar.toDouble (v.coo ⟨i, hi⟩))
      = Dbl.rnd ((prodAt v v i : ℤ) : ℚ) := by
    rw [prodAt_lt v v hi]
    simp only [CInt.toDouble_eq, Dbl.mul]
    push_cast
    rfl
  rw [hmul]
  have h31 : (2147483648 : ℚ) = (2 : ℚ) ^ (31 : ℤ) := by norm_num
  have hacc0 : 0 ≤ acc := by
    rcases lt_or_le (prefixSum v v i) 2147483648 with h | h
    · rw [hA h]; exact_mod_cast hS0
    · exact le_trans (by norm_num) (hB h)
  -- the sum in `double` is at least `2 ^ 31` as soon as one of its terms is
  have hbig : (2147483648 : ℚ) ≤ acc + Dbl.rnd ((prodAt v v i : ℤ) : ℚ) →
      (2147483648 : ℚ) ≤ Dbl.add acc (Dbl.rnd ((prodAt v v i : ℤ) : ℚ)) := by
    intro h
    rw [h31] at h ⊢
    exact Dbl.le_rnd_of_two_pow_le 31 h
  have hrp0 : 0 ≤ Dbl.rnd ((prodAt v v i : ℤ) : ℚ) :=
    Dbl.rnd_nonneg (by exact_mod_cast hp0)
  -- a product below `2 ^ 31` is exact; a product from `2 ^ 31` on stays that large
  have hrp : (prodAt v v i < 2147483648 →
      Dbl.rnd ((prodAt v v i : ℤ) : ℚ) = ((prodAt v v i : ℤ) : ℚ)) ∧
      (2147483648 ≤ prodAt v v i → (2147483648 : ℚ) ≤ Dbl.rnd ((prodAt v v i : ℤ) : ℚ)) := by
    constructor
    · intro h
      exact Dbl.rnd_intCast _ (by rw [abs_of_nonneg hp0]; omega)
    · intro h
      have h' : (2 : ℚ) ^ (31 : ℤ) ≤ ((prodAt v v i : ℤ) : ℚ) := by
        rw [← h31]; exact_mod_cast h
      rw [h31]
      exact Dbl.le_rnd_of_two_pow_le 31 h'
  constructor
  · intro hlt
    have hSi : prefixSum v v i < 2147483648 := by omega
    have hpi : prodAt v v i < 2147483648 := by omega
    rw [hA hSi, hrp.1 hpi, Dbl.add, hsucc]
    have := Dbl.rnd_intCast (prefixSum v v i + prodAt v v i)
      (by rw [abs_of_nonneg (by omega)]; omega)
    push_cast at this ⊢
    exact this
  · intro hge
    rcases lt_or_le (prefixSum v v i) 2147483648 with hSi | hSi
    · rcases lt_or_le (prodAt v v i) 2147483648 with hpi | hpi
      · rw [hA hSi, hrp.1 hpi, Dbl.add]
        have := Dbl.rnd_intCast (prefixSum v v i + prodAt v v i)
          (by rw [abs_of_nonneg (by omega)]; omega)
        push_cast at this
        rw [this]
        have h' : (2147483648 : ℤ) ≤ prefixSum v v i + prodAt v v i := by omega
        exact_mod_cast h'
      · exact hbig (by have := hrp.2 hpi; linarith)
    · exact hbig (by have := hB hSi; linarith)

end TuplaG

namespace Dbl

theorem sqrt_zero : sqrt 0 = .ok 0 := by
  simp [sqrt]

theorem trunc_of_nonneg {d : ℚ} (h : 0 ≤ d) : trunc d = ⌊d⌋ := by
  simp [trunc, h]

end Dbl

namespace CInt

theorem ofDouble_zero : (Scalar.ofDouble (0 : Dbl) : Except Fault CInt) = .ok 0 := by
  have := ofDouble_intCast 0 (by norm_num) (by norm_num)
  rw [Int.cast_zero] at this
  rw [this]
  rfl

theorem ofDouble_of_floor {d : ℚ} {z : ℤ} (h0 : 0 ≤ d) (hz : ⌊d⌋ = z)
    (h1 : -2147483648 ≤ z) (h2 : z < 2147483648) :
    (Scalar.ofDouble d : Except Fault CInt) = .ok ⟨z, h1, h2⟩ := by
  show ofDouble d = _
  unfold ofDouble
  have ht : Dbl.trunc d = z := by rw [Dbl.trunc_of_nonneg h0, hz]
  simp only [ht]
  rw [dif_pos ⟨h1, h2⟩]

theorem ofDouble_of_large {d : ℚ} (h : (2147483648 : ℚ) ≤ d) :
    (Scalar.ofDouble d : Except Fault CInt) = .ok min := by
  show ofDouble d = _
  unfold ofDouble
  have h0 : (0 : ℚ) ≤ d := le_trans (by norm_num) h
  have ht : (2147483648 : ℤ) ≤ Dbl.trunc d := by
    rw [Dbl.trunc_of_nonneg h0, Int.le_floor]
    exact_mod_cast h
  rw [dif_neg (by omega)]

theorem min_val : min.val = -2147483648 := rfl

end CInt

namespace TuplaG

variable {n : ℕ}

/-- On an `int` tuple `lengthSq` returns the exact sum of the squares when that sum is below
`2 ^ 31`, and `INT_MIN` otherwise. -/
theorem lengthSq_cases (v : TuplaG CInt n) :
    (∀ h : prefixSum v v n < 2147483648,
      v.lengthSq = .ok ⟨prefixSum v v n, by have := prefixSum_self_nonneg v n; omega, h⟩) ∧
    (2147483648 ≤ prefixSum v v n → v.lengthSq = .ok CInt.min) := by
  obtain ⟨acc, hacc, hA, hB⟩ := sq_loop v
  constructor
  · intro h
    unfold lengthSq dot
    rw [hacc, hA h]
    simp only [ok_bind]
    rw [CInt.ofDouble_intCast _ (by have := prefixSum_self_nonneg v n; omega) h]
    rfl
  · intro h
    unfold lengthSq dot
    rw [hacc]
    simp only [ok_bind]
    rw [CInt.ofDouble_of_large (hB h)]
    rfl

/-- A non-negative result of `lengthSq` on an `int` tuple is the exact sum of the squares. -/
theorem lengthSq_sum (v : TuplaG CInt n) (s : CInt) (h : v.lengthSq = .ok s)
    (hs : 0 ≤ s.val) : s.val = prefixSum v v n := by
  obtain ⟨h1, h2⟩ := lengthSq_cases v
  rcases lt_or_le (prefixSum v v n) 2147483648 with hlt | hge
  · rw [h1 hlt] at h
    rw [← Except.ok.inj h]
  · rw [h2 hge] at h
    rw [← Except.ok.inj h, CInt.min_val] at hs
    omega

theorem lengthSq_of_sum (v : TuplaG CInt n) (s : CInt) (h : s.val = prefixSum v v n) :
    v.lengthSq = .ok s := by
  obtain ⟨h1, _⟩ := lengthSq_cases v
  have hlt : prefixSum v v n < 2147483648 := by rw [← h]; exact s.hi
  rw [h1 hlt]
  congr 1
  exact CInt.ext_val h.symm

/-- The loop of `normalized`, which sums the squares in `int`: without overflow it ends with
the exact sum. -/
theorem normalized_loop (v : TuplaG CInt n) (h : prefixSum v v n < 2147483648) :
    forLoop n (fun i (lenSq : CInt) => do
        let a ← v.opCall i
        let b ← v.opCall i
        pure (Scalar.add lenSq (Scalar.mul a b))) (0 : CInt)
      = .ok ⟨prefixSum v v n, by have := prefixSum_self_nonneg v n; omega, h⟩ := by
  obtain ⟨s, hs, hP⟩ := forLoop_inv n (fun i (lenSq : CInt) => do
        let a ← v.opCall i
        let b ← v.opCall i
        pure (Scalar.add lenSq (Scalar.mul a b)))
    (fun k (lenSq : CInt) => lenSq.val = prefixSum v v k) (0 : CInt)
    (by show (0 : CInt).val = prefixSum v v 0; rw [prefixSum_zero]; rfl)
    (fun i lenSq hi hacc => by
      have hacc' : lenSq.val = prefixSum v v i := hacc
      refine ⟨Scalar.add lenSq (Scalar.mul (v.coo ⟨i, hi⟩) (v.coo ⟨i, hi⟩)),
        by simp only [opCall_lt _ hi, ok_bind, pure_eq_ok], ?_⟩
      show (Scalar.add lenSq (Scalar.mul (v.coo ⟨i, hi⟩) (v.coo ⟨i, hi⟩))).val
        = prefixSum v v (i + 1)
      have hS0 := prefixSum_self_nonneg v i
      have hp0 := prodAt_self_nonneg v i
      have hle : prefixSum v v (i + 1) ≤ prefixSum v v n :=
        prefixSum_self_mono v (Nat.succ_le_of_lt hi)
      have hsucc := prefixSum_succ v v i
      have hw1 : wrap32 (prodAt v v i) = prodAt v v i :=
        CInt.wrap32_of_inRange (by omega) (by omega)
      have hw2 : wrap32 (prefixSum v v i + prodAt v v i) = prefixSum v v i + prodAt v v i :=
        CInt.wrap32_of_inRange (by omega) (by omega)
      rw [CInt.add_val, CInt.mul_val, ← prodAt_lt v v hi, hacc', hw1, hw2, hsucc])
  rw [hs]
  congr 1
  exact CInt.ext_val hP

end TuplaG

/-! ## The factor of `normalized` on `int` tuples -/

namespace TuplaG

variable {n : ℕ}

theorem invSqrt_one (s : CInt) (hs : s.val = 1) : invSqrt s = .ok 1 := by
  obtain ⟨d, hd, _, _, _, hsq⟩ := Dbl.sqrt_natCast 1 (by norm_num) (by norm_num)
  have hd1 : d = 1 := by
    have := hsq (by rw [Nat.sqrt_one])
    rw [Nat.sqrt_one] at this
    simpa using this
  rw [hd1] at hd
  unfold invSqrt
  simp only [CInt.toDouble_eq, hs]
  rw [show ((1 : ℤ) : ℚ) = ((1 : ℕ) : ℚ) by norm_num, hd, ok_bind]
  have hdiv : Dbl.div 1 1 = .ok (((1 : ℤ) : ℚ)) := by
    unfold Dbl.div
    rw [if_neg (by norm_num)]
    have := Dbl.rnd_intCast 1 (by norm_num)
    norm_num at this ⊢
    exact this
  rw [hdiv, ok_bind, CInt.ofDouble_intCast 1 (by norm_num) (by norm_num)]
  rfl

theorem invSqrt_ge_two (s : CInt) (hs : 2 ≤ s.val) : invSqrt s = .ok 0 := by
  obtain ⟨t, ht⟩ : ∃ t : ℕ, s.val = t := ⟨s.val.toNat, by omega⟩
  have hthi : t < 2 ^ 31 := by have := s.hi; omega
  obtain ⟨d, hd, _, _, h54, _⟩ := Dbl.sqrt_natCast t (by omega) hthi
  have hd54 : 5 / 4 ≤ d := h54 (by omega)
  have hdpos : 0 < d := lt_of_lt_of_le (by norm_num) hd54
  -- the quotient in `double`
  set x : ℚ := 1 / d with hx
  have hxpos : 0 < x := by positivity
  have hx45 : x ≤ 4 / 5 := by
    rw [hx, div_le_iff₀ hdpos]
    linarith
  have hr0 : 0 ≤ Dbl.rnd x := Dbl.rnd_nonneg hxpos.le
  have hr1 : Dbl.rnd x < 1 := by
    have herr := Dbl.rnd_sub_le x
    obtain ⟨hlo, _⟩ := Dbl.expo_spec hxpos.ne'
    rw [abs_of_pos hxpos] at hlo
    have hE : Dbl.expo x < 0 := by
      have h : (2 : ℚ) ^ Dbl.expo x < 2 ^ (0 : ℤ) := by
        rw [zpow_zero]
        exact lt_of_le_of_lt hlo (by linarith)
      exact (zpow_lt_zpow_iff_right₀ (by norm_num : (1 : ℚ) < 2)).1 h
    have hpow : (2 : ℚ) ^ (Dbl.expo x - 53) ≤ 2 ^ (-54 : ℤ) :=
      zpow_le_zpow_right₀ (by norm_num) (by omega)
    have h54' : (2 : ℚ) ^ (-54 : ℤ) < 1 / 5 := by
      rw [zpow_neg]
      norm_num
    have h15 : (2 : ℚ) ^ (Dbl.expo x - 53) < 1 / 5 := lt_of_le_of_lt hpow h54'
    have := (abs_le.mp herr).2
    linarith
  have hfloor : ⌊Dbl.rnd x⌋ = 0 := by
    rw [Int.floor_eq_iff]
    constructor
    · exact_mod_cast hr0
    · simpa using hr1
  unfold invSqrt
  simp only [CInt.toDouble_eq, ht]
  rw [show ((t : ℤ) : ℚ) = (t : ℚ) by norm_num, hd, ok_bind]
  have hdiv : Dbl.div 1 d = .ok (Dbl.rnd x) := by
    unfold Dbl.div
    rw [if_neg hdpos.ne']
  rw [hdiv, ok_bind, CInt.ofDouble_of_floor hr0 hfloor (by norm_num) (by norm_num)]
  rfl

/-- What `normalized` does with the squared length `L` that its loop has summed. -/
theorem normalized_of_loop (v res0 : TuplaG CInt n) (L : CInt)
    (hloop : forLoop n (fun i (lenSq : CInt) => do
        let a ← v.opCall i
        let b ← v.opCall i
        pure (Scalar.add lenSq (Scalar.mul a b))) (0 : CInt) = .ok L) :
    v.normalized res0 =
      if 0 < L.val then (invSqrt L >>= fun f => v.mulScalar f res0) else .error .assertion := by
  unfold normalized
  rw [CInt.ofDouble_zero, ok_bind, hloop, ok_bind]
  by_cases hpos : 0 < L.val
  · have hq : (0 : ℚ) < Scalar.toDouble L := by
      rw [CInt.toDouble_eq]; exact_mod_cast hpos
    rw [if_pos hq, if_pos hpos]
    unfold invSqrt
    cases Dbl.sqrt (Scalar.toDouble L) with
    | error e => rfl
    | ok r =>
      simp only [ok_bind]
      cases Dbl.div 1 r with
      | error e => rfl
      | ok q => simp only [ok_bind]
  · have hq : ¬ ((0 : ℚ) < Scalar.toDouble L) := by
      rw [CInt.toDouble_eq]
      intro hc
      exact hpos (by exact_mod_cast hc)
    rw [if_neg hq, if_neg hpos]

/-- On an `int` tuple whose squared length `lengthSq` returns, `normalized` tests that very
value: it fails its assertion when the value is not positive, and otherwise multiplies the
tuple by `T( 1.0 / sqrt( double(lenSq) ) )`. -/
theorem normalized_of_lengthSq (v res0 : TuplaG CInt n) (s : CInt) (h : v.lengthSq = .ok s)
    (hs0 : 0 ≤ s.val) :
    v.normalized res0 =
      if 0 < s.val then (invSqrt s >>= fun f => v.mulScalar f res0) else .error .assertion := by
  have hs := lengthSq_sum v s h hs0
  have hlt : prefixSum v v n < 2147483648 := by rw [← hs]; exact s.hi
  have hloop := normalized_loop v hlt
  have hs' : (⟨prefixSum v v n, by have := prefixSum_self_nonneg v n; omega, hlt⟩ : CInt) = s :=
    CInt.ext_val hs.symm
  rw [hs'] at hloop
  exact normalized_of_loop v res0 s hloop

theorem mulScalar_one (v res0 : TuplaG CInt n) : v.mulScalar 1 res0 = .ok v := by
  rw [mulScalar_eq]
  congr 1
  apply ext_coo
  intro j
  apply CInt.ext_val
  show wrap32 ((v.coo j).val * wrap32 1) = (v.coo j).val
  have := (v.coo j).lo
  have := (v.coo j).hi
  rw [show wrap32 1 = 1 by decide, mul_one]
  exact CInt.wrap32_of_inRange (by omega) (by omega)

theorem mulScalar_zero (v res0 : TuplaG CInt n) : v.mulScalar 0 res0 = .ok ⟨fun _ => 0⟩ := by
  rw [mulScalar_eq]
  congr 1
  apply ext_coo
  intro j
  apply CInt.ext_val
  show wrap32 ((v.coo j).val * wrap32 0) = wrap32 0
  rw [show wrap32 0 = 0 by decide, mul_zero]
  decide

theorem prefixSum_zero_tuple (k : ℕ) :
    prefixSum (⟨fun _ => 0⟩ : TuplaG CInt n) ⟨fun _ => 0⟩ k = 0 := by
  unfold prefixSum
  apply Finset.sum_eq_zero
  intro i _
  unfold prodAt
  split_ifs
  · show wrap32 0 * wrap32 0 = 0
    decide
  · rfl

theorem lengthSq_zero_tuple : (⟨fun _ => 0⟩ : TuplaG CInt n).lengthSq = .ok 0 := by
  apply lengthSq_of_sum
  rw [prefixSum_zero_tuple]
  decide

/-- The square root step of `length` on a non-negative squared length that `lengthSq`
returned. -/
theorem length_of_lengthSq (v : TuplaG CInt n) (s : CInt) (h : v.lengthSq = .ok s)
    (hs0 : 0 ≤ s.val) :
    ∃ l : CInt, v.length = .ok l ∧ l.val = Nat.sqrt s.val.toNat := by
  obtain ⟨t, ht⟩ : ∃ t : ℕ, s.val = t := ⟨s.val.toNat, by omega⟩
  have hthi : t < 2 ^ 31 := by have := s.hi; omega
  have hk : Nat.sqrt t < 2147483648 := by
    have := Nat.sqrt_le_self t
    omega
  unfold length
  rw [h, ok_bind, CInt.toDouble_eq, ht, show ((t : ℤ) : ℚ) = (t : ℚ) by norm_num]
  simp only [Int.toNat_ofNat]
  rcases Nat.eq_zero_or_pos t with h0 | hpos
  · subst h0
    rw [Nat.cast_zero, Dbl.sqrt_zero]
    show ∃ l : CInt, (Scalar.ofDouble (0 : Dbl) : Except Fault CInt) = .ok l ∧ _
    rw [CInt.ofDouble_zero]
    exact ⟨0, rfl, by decide⟩
  · obtain ⟨d, hd, hlo, hhi, _, _⟩ := Dbl.sqrt_natCast t hpos hthi
    have hd0 : 0 ≤ d := le_trans (by positivity) hlo
    have hfloor : ⌊d⌋ = (Nat.sqrt t : ℤ) := by
      rw [Int.floor_eq_iff]
      constructor
      · exact_mod_cast hlo
      · exact_mod_cast hhi
    rw [hd]
    show ∃ l : CInt, (Scalar.ofDouble d : Except Fault CInt) = .ok l ∧ _
    rw [CInt.ofDouble_of_floor hd0 hfloor (by omega) (by omega)]
    exact ⟨_, rfl, rfl⟩

/-- On an `int` tuple whose sum of squares is `2 ^ 31` or more, `lengthSq` and `length` both
return `INT_MIN`: the root of the negative `lengthSq` is a NaN. -/
theorem length_of_overflow (v : TuplaG CInt n) (h : 2147483648 ≤ prefixSum v v n) :
    v.lengthSq = .ok CInt.min ∧ v.length = .ok CInt.min := by
  have hl := (lengthSq_cases v).2 h
  refine ⟨hl, ?_⟩
  unfold length
  rw [hl, ok_bind]
  have hsq : Dbl.sqrt (Scalar.toDouble CInt.min) = .error .undefined := by
    rw [CInt.toDouble_eq, CInt.min_val]
    unfold Dbl.sqrt
    rw [if_pos (by norm_num)]
  rw [hsq]
  rfl

end TuplaG

namespace TuplaG2

variable {T : Type}

theorem ctor2_eq (c0 c1 : T) (this0 : TuplaG2 T) : ctor c0 c1 this0 = .ok ⟨![c0, c1]⟩ := by
  simp only [ctor, TuplaG.ptrWrite, show (0 : ℕ) < 2 by norm_num, show (1 : ℕ) < 2 by norm_num,
    if_true, ok_bind]
  congr 1
  apply TuplaG.ext_coo
  intro j
  fin_cases j <;> simp

end TuplaG2

namespace TuplaG

variable {n : ℕ}

/-- The three outcomes of `normalized` on an `int` tuple whose squared length is `s`. -/
theorem normalized_cases (v res0 : TuplaG CInt n) (s : CInt) (h : v.lengthSq = .ok s) :
    (s.val = 0 → v.normalized res0 = .error .assertion) ∧
    (s.val = 1 → v.normalized res0 = .ok v) ∧
    (2 ≤ s.val → v.normalized res0 = .ok ⟨fun _ => 0⟩) := by
  refine ⟨fun h0 => ?_, fun h1 => ?_, fun h2 => ?_⟩
  · rw [normalized_of_lengthSq v res0 s h (by omega), if_neg (by omega)]
  · rw [normalized_of_lengthSq v res0 s h (by omega), if_pos (by omega), invSqrt_one s h1,
      ok_bind, mulScalar_one]
  · rw [normalized_of_lengthSq v res0 s h (by omega), if_pos (by omega), invSqrt_ge_two s h2,
      ok_bind, mulScalar_zero]

end TuplaG

/-! ## Elementwise operations, constructors and assignments -/

section LoopPrefix

variable {σ : Type}

/-- A loop that returns has run its last iteration on what the shorter loop returned. -/
theorem forLoop_succ_ok {k : ℕ} {body : ℕ → σ → Except Fault σ} {s t : σ}
    (h : forLoop (k + 1) body s = .ok t) :
    ∃ s', forLoop k body s = .ok s' ∧ body k s' = .ok t := by
  rw [forLoop_succ] at h
  cases hk : forLoop k body s with
  | error e => rw [hk] at h; cases h
  | ok s' => rw [hk, ok_bind] at h; exact ⟨s', rfl, h⟩

end LoopPrefix

namespace TuplaG

variable {T : Type} {n : ℕ}

theorem opCallRef_lt (self : TuplaG T n) {i : ℕ} (h : i < n) :
    self.opCallRef i =
      .ok (self.coo ⟨i, h⟩, fun x => ⟨fun j => if j.val = i then x else self.coo j⟩) := by
  simp [opCallRef, h]

theorem opCallRef_ge (self : TuplaG T n) {i : ℕ} (h : n ≤ i) :
    self.opCallRef i = .error .assertion := by
  simp [opCallRef, Nat.not_lt.mpr h]

theorem ptrRead_lt (self : TuplaG T n) {i : ℕ} (h : i < n) :
    self.ptrRead i = .ok (self.coo ⟨i, h⟩) := by
  simp [ptrRead, h]

variable [Scalar T]

theorem add_eq (self der res0 : TuplaG T n) :
    self.add der res0 = .ok ⟨fun j => Scalar.add (self.coo j) (der.coo j)⟩ :=
  forLoop_fill _ _ (fun i h res => by simp [opCall_lt _ h]) res0

theorem sub_eq (self der res0 : TuplaG T n) :
    self.sub der res0 = .ok ⟨fun j => Scalar.sub (self.coo j) (der.coo j)⟩ :=
  forLoop_fill _ _ (fun i h res => by simp [opCall_lt _ h]) res0

theorem scalarMul_eq (a : T) (der res0 : TuplaG T n) :
    scalarMul a der res0 = .ok ⟨fun j => Scalar.mul a (der.coo j)⟩ :=
  forLoop_fill _ _ (fun i h res => by simp [opCall_lt _ h]) res0

/-- When every component can be divided by `a`, `operator /` returns the quotients. -/
theorem divScalar_of_ok (self : TuplaG T n) (a : T) (g : Fin n → T) (res0 : TuplaG T n)
    (hg : ∀ j, Scalar.div (self.coo j) a = .ok (g j)) :
    self.divScalar a res0 = .ok ⟨g⟩ :=
  forLoop_fill g _ (fun i h res => by simp [opCall_lt _ h, hg ⟨i, h⟩]) res0

/-- When `operator /` returns, every component could be divided by `a`. -/
theorem div_ok_of_divScalar (self : TuplaG T n) (a : T) (res0 r : TuplaG T n)
    (h : self.divScalar a res0 = .ok r) (j : Fin n) :
    ∃ q, Scalar.div (self.coo j) a = .ok q := by
  have key : ∀ k, k ≤ n → ∀ t, forLoop k (fun i res => do
      let x ← self.opCall i
      let q ← Scalar.div x a
      res.ptrWrite i q) res0 = .ok t →
      ∀ i (hi : i < n), i < k → ∃ q, Scalar.div (self.coo ⟨i, hi⟩) a = .ok q := by
    intro k
    induction k with
    | zero => intro _ _ _ i _ hik; exact absurd hik (Nat.not_lt_zero _)
    | succ k ih =>
      intro hk t ht i hi hik
      obtain ⟨s', hs', hbody⟩ := forLoop_succ_ok ht
      rcases Nat.lt_succ_iff_lt_or_eq.mp hik with hlt | heq
      · exact ih (Nat.le_of_succ_le hk) s' hs' i hi hlt
      · subst heq
        simp only [opCall_lt _ hi, ok_bind] at hbody
        cases hd : Scalar.div (self.coo ⟨i, hi⟩) a with
        | error e => rw [hd] at hbody; cases hbody
        | ok q => exact ⟨q, rfl⟩
  exact key n le_rfl r h j.val j.isLt j.isLt

theorem divScalar_eq_ok_iff (self : TuplaG T n) (a : T) (res0 r : TuplaG T n) :
    self.divScalar a res0 = .ok r ↔ ∀ j, Scalar.div (self.coo j) a = .ok (r.coo j) := by
  constructor
  · intro h j
    have hall := div_ok_of_divScalar self a res0 r h
    choose g hg using hall
    have h' := divScalar_of_ok self a g res0 hg
    rw [h] at h'
    rw [Except.ok.inj h']
    exact hg j
  · intro h
    exact divScalar_of_ok self a r.coo res0 h

end TuplaG

namespace TuplaG

variable {T : Type} {n : ℕ}

/-- Reading `p[0]`, ..., `p[k-1]` through the pointer gives the first `k` components. -/
theorem mapM_ptrRead (self : TuplaG T n) (k : ℕ) (hk : k ≤ n) :
    (List.range k).mapM self.ptrRead =
      .ok (List.ofFn (fun j : Fin k => self.coo (Fin.castLE hk j))) := by
  induction k with
  | zero => rfl
  | succ k ih =>
    rw [List.range_succ, List.mapM_append, ih (Nat.le_of_succ_le hk)]
    simp only [ok_bind, List.mapM_cons, List.mapM_nil, ptrRead_lt self hk, pure_eq_ok]
    congr 1
    rw [List.ofFn_succ']
    simp only [List.concat_eq_append]
    rfl

theorem bufferView_eq (self : TuplaG T n) : self.bufferView = .ok (List.ofFn self.coo) := by
  unfold bufferView
  rw [mapM_ptrRead self n le_rfl]
  rfl

end TuplaG

namespace TuplaG2

variable {T : Type}

theorem ctorCopy2_eq (ini : TuplaG T 2) (this0 : TuplaG2 T) : ctorCopy ini this0 = .ok ini := by
  simp only [ctorCopy, TuplaG.opCall, TuplaG.ptrWrite, show (0 : ℕ) < 2 by norm_num,
    show (1 : ℕ) < 2 by norm_num, dif_pos, if_true, ok_bind]
  congr 1
  apply TuplaG.ext_coo
  intro j
  fin_cases j <;> simp

theorem opAssign2_eq (this0 : TuplaG2 T) (der : TuplaG T 2) : opAssign this0 der = .ok der := by
  simp only [opAssign, TuplaG.opCall, TuplaG.ptrWrite, show (0 : ℕ) < 2 by norm_num,
    show (1 : ℕ) < 2 by norm_num, dif_pos, if_true, ok_bind]
  congr 1
  apply TuplaG.ext_coo
  intro j
  fin_cases j <;> simp

end TuplaG2

namespace TuplaG3

variable {T : Type}

theorem ctorCopy3_eq (ini : TuplaG T 3) (this0 : TuplaG3 T) : ctorCopy ini this0 = .ok ini := by
  simp only [ctorCopy, TuplaG.opCall, TuplaG.ptrWrite, show (0 : ℕ) < 3 by norm_num,
    show (1 : ℕ) < 3 by norm_num, show (2 : ℕ) < 3 by norm_num, dif_pos, if_true, ok_bind]
  congr 1
  apply TuplaG.ext_coo
  intro j
  fin_cases j <;> simp

theorem opAssign3_eq (this0 : TuplaG3 T) (der : TuplaG T 3) : opAssign this0 der = .ok der := by
  simp only [opAssign, TuplaG.opCall, TuplaG.ptrWrite, show (0 : ℕ) < 3 by norm_num,
    show (1 : ℕ) < 3 by norm_num, show (2 : ℕ) < 3 by norm_num, dif_pos, if_true, ok_bind]
  congr 1
  apply TuplaG.ext_coo
  intro j
  fin_cases j <;> simp

theorem opAssign4_eq (this0 : TuplaG3 T) (der : TuplaG T 4) :
    opAssign4 this0 der = .ok ⟨![der.coo 0, der.coo 1, der.coo 2]⟩ := by
  simp only [opAssign4, TuplaG.opCall, TuplaG.ptrWrite, show (0 : ℕ) < 3 by norm_num,
    show (1 : ℕ) < 3 by norm_num, show (2 : ℕ) < 3 by norm_num, show (0 : ℕ) < 4 by norm_num,
    show (1 : ℕ) < 4 by norm_num, show (2 : ℕ) < 4 by norm_num, dif_pos, if_true, ok_bind]
  congr 1
  apply TuplaG.ext_coo
  intro j
  fin_cases j <;> simp

end TuplaG3

namespace TuplaG4

variable {T : Type}

theorem ctor4_eq (c0 c1 c2 c3 : T) (this0 : TuplaG4 T) :
    ctor c0 c1 c2 c3 this0 = .ok ⟨![c0, c1, c2, c3]⟩ := by
  simp only [ctor, TuplaG.ptrWrite, show (0 : ℕ) < 4 by norm_num, show (1 : ℕ) < 4 by norm_num,
    show (2 : ℕ) < 4 by norm_num, show (3 : ℕ) < 4 by norm_num, if_true, ok_bind]
  congr 1
  apply TuplaG.ext_coo
  intro j
  fin_cases j <;> simp

theorem ctorCopy4_eq (ini : TuplaG T 4) (this0 : TuplaG4 T) : ctorCopy ini this0 = .ok ini := by
  simp only [ctorCopy, TuplaG.opCall, TuplaG.ptrWrite, show (0 : ℕ) < 4 by norm_num,
    show (1 : ℕ) < 4 by norm_num, show (2 : ℕ) < 4 by norm_num, show (3 : ℕ) < 4 by norm_num,
    dif_pos, if_true, ok_bind]
  congr 1
  apply TuplaG.ext_coo
  intro j
  fin_cases j <;> simp

theorem opAssign4to4_eq (this0 : TuplaG4 T) (der : TuplaG T 4) :
    opAssign this0 der = .ok der := by
  simp only [opAssign, TuplaG.opCall, TuplaG.ptrWrite, show (0 : ℕ) < 4 by norm_num,
    show (1 : ℕ) < 4 by norm_num, show (2 : ℕ) < 4 by norm_num, show (3 : ℕ) < 4 by norm_num,
    dif_pos, if_true, ok_bind]
  congr 1
  apply TuplaG.ext_coo
  intro j
  fin_cases j <;> simp

end TuplaG4

namespace CInt

theorem wrap32_modEq (x : ℤ) : wrap32 x ≡ x [ZMOD 4294967296] := by
  unfold wrap32 Int.ModEq
  omega

theorem wrap32_congr {x y : ℤ} (h : x ≡ y [ZMOD 4294967296]) : wrap32 x = wrap32 y := by
  unfold wrap32
  unfold Int.ModEq at h
  omega

theorem add_assoc_int (a b c : CInt) :
    Scalar.add (Scalar.add a b) c = Scalar.add a (Scalar.add b c) := by
  apply ext_val
  simp only [add_val]
  unfold wrap32
  omega

theorem mul_comm_int (a b : CInt) : Scalar.mul a b = Scalar.mul b a := by
  apply ext_val
  simp only [mul_val, mul_comm]

theorem mul_add_int (s a b : CInt) :
    Scalar.mul s (Scalar.add a b) = Scalar.add (Scalar.mul s a) (Scalar.mul s b) := by
  apply ext_val
  simp only [add_val, mul_val]
  apply wrap32_congr
  calc s.val * wrap32 (a.val + b.val) ≡ s.val * (a.val + b.val) [ZMOD 4294967296] :=
        Int.ModEq.mul_left _ (wrap32_modEq _)
    _ = s.val * a.val + s.val * b.val := by ring
    _ ≡ wrap32 (s.val * a.val) + wrap32 (s.val * b.val) [ZMOD 4294967296] :=
        Int.ModEq.add (wrap32_modEq _).symm (wrap32_modEq _).symm

end CInt

/-! ## The formatter -/

section Intercalate

theorem intercalate_go_append (acc s : String) (l : List String) (b : String) :
    String.intercalate.go acc s (l ++ [b]) = String.intercalate.go acc s l ++ s ++ b := by
  induction l generalizing acc with
  | nil => rfl
  | cons a as ih => exact ih (acc ++ s ++ a)

theorem intercalate_singleton (s a : String) : s.intercalate [a] = a := rfl

theorem intercalate_append_singleton (s : String) (l : List String) (b : String)
    (hl : l ≠ []) : s.intercalate (l ++ [b]) = s.intercalate l ++ s ++ b := by
  cases l with
  | nil => exact absurd rfl hl
  | cons a as => exact intercalate_go_append a s as b

end Intercalate

namespace TuplaG

variable {T : Type} {n : ℕ}

/-- The renderings of the first `k` components, in index order. -/
theorem range_map_succ (f : ℕ → String) (k : ℕ) :
    (List.range (k + 1)).map f = (List.range k).map f ++ [f k] := by
  rw [List.range_succ, List.map_append]
  rfl

theorem range_map_eq_ofFn (render : T → String) (v : TuplaG T n) :
    (List.range n).map (fun i => if h : i < n then render (v.coo ⟨i, h⟩) else "")
      = List.ofFn (fun i : Fin n => render (v.coo i)) := by
  rw [List.ofFn_eq_map, ← List.map_coe_finRange, List.map_map]
  apply List.map_congr_left
  intro i _
  simp [i.isLt]

/-- The text that `operator <<` appends: `(`, the renderings of the components separated by
`,`, and `)`. -/
theorem opShiftLeft_eq (render : T → String) (os : String) (v : TuplaG T n) :
    opShiftLeft render os v =
      .ok (os ++ "(" ++ ",".intercalate (List.ofFn (fun i : Fin n => render (v.coo i))) ++ ")") := by
  obtain ⟨s, hs, hP⟩ := forLoop_inv n (fun i os => do
      let x ← v.opCall i
      let os := os ++ render x
      if i + 1 < n then pure (os ++ ",") else pure os)
    (fun k (acc : String) => acc = os ++ "(" ++
      ",".intercalate ((List.range k).map
        (fun i => if h : i < n then render (v.coo ⟨i, h⟩) else "")) ++
      (if 0 < k ∧ k < n then "," else ""))
    (os ++ "(") (by simp [String.intercalate])
    (fun i acc hi hacc => by
      have hacc' : acc = os ++ "(" ++
          ",".intercalate ((List.range i).map
            (fun i => if h : i < n then render (v.coo ⟨i, h⟩) else "")) ++
          (if 0 < i ∧ i < n then "," else "") := hacc
      refine ⟨acc ++ render (v.coo ⟨i, hi⟩) ++ (if i + 1 < n then "," else ""), ?_, ?_⟩
      · simp only [opCall_lt _ hi, ok_bind]
        split_ifs <;> simp
      · show acc ++ render (v.coo ⟨i, hi⟩) ++ (if i + 1 < n then "," else "") = os ++ "(" ++
          ",".intercalate ((List.range (i + 1)).map
            (fun i => if h : i < n then render (v.coo ⟨i, h⟩) else "")) ++
          (if 0 < i + 1 ∧ i + 1 < n then "," else "")
        rw [range_map_succ, hacc']
        simp only [dif_pos hi, Nat.succ_pos, true_and]
        rcases Nat.eq_zero_or_pos i with h0 | hpos
        · subst h0
          simp [String.intercalate, String.intercalate.go, String.append_assoc]
        · have hne : (List.range i).map
              (fun i => if h : i < n then render (v.coo ⟨i, h⟩) else "") ≠ [] := by
            intro hnil
            have := congrArg List.length hnil
            simp at this
            omega
          rw [intercalate_append_singleton _ _ _ hne]
          simp only [hpos, hi, and_self, if_true, String.append_assoc])
  show (forLoop n (fun i os => do
      let x ← v.opCall i
      let os := os ++ render x
      if i + 1 < n then pure (os ++ ",") else pure os) (os ++ "(") >>=
      fun os => pure (os ++ ")")) = _
  rw [hs, ok_bind, pure_eq_ok, hP, range_map_eq_ofFn]
  simp

end TuplaG

namespace TuplaG

variable {T : Type} {n : ℕ}

theorem opCallAssign_lt (self : TuplaG T n) {i : ℕ} (h : i < n) (x : T) :
    self.opCallAssign i x = .ok ⟨fun j => if j.val = i then x else self.coo j⟩ := by
  unfold opCallAssign
  rw [opCallRef_lt self h]
  rfl

/-- The constructor from an array of at least `n` elements stores element `i` at index `i`. -/
theorem ctorArray_eq (org : List T) (hlen : n ≤ org.length) (this0 : TuplaG T n) :
    ctorArray org this0 =
      .ok ⟨fun j => org.get ⟨j.val, Nat.lt_of_lt_of_le j.isLt hlen⟩⟩ :=
  forLoop_fill _ _ (fun i h res => by
    have hi : i < org.length := Nat.lt_of_lt_of_le h hlen
    show (match org.get? i with
      | some x => res.ptrWrite i x
      | none => .error .undefined) = _
    rw [List.get?_eq_get hi]) this0

theorem ofFn_get_eq_take (org : List T) (hlen : n ≤ org.length) :
    List.ofFn (fun j : Fin n => org.get ⟨j.val, Nat.lt_of_lt_of_le j.isLt hlen⟩)
      = org.take n := by
  apply List.ext_getElem
  · simp [hlen]
  · intro i h1 h2
    simp [List.getElem_take]

end TuplaG

namespace CInt

end CInt

section LoopFaults

variable {σ : Type}

end LoopFaults

namespace CInt

end CInt

namespace TuplaG

variable {n : ℕ}

end TuplaG

/-! ## Exact identities of the cross and dot products -/

namespace CInt

theorem sub_self_int (a : CInt) : Scalar.sub a a = 0 := by
  apply ext_val
  simp only [sub_val, sub_self]
  rfl

theorem mul_mul_comm_int (a b s : CInt) :
    Scalar.mul a (Scalar.mul b s) = Scalar.mul b (Scalar.mul a s) := by
  apply ext_val
  simp only [mul_val]
  apply wrap32_congr
  calc a.val * wrap32 (b.val * s.val) ≡ a.val * (b.val * s.val) [ZMOD 4294967296] :=
        Int.ModEq.mul_left _ (wrap32_modEq _)
    _ = b.val * (a.val * s.val) := by ring
    _ ≡ b.val * wrap32 (a.val * s.val) [ZMOD 4294967296] :=
        Int.ModEq.mul_left _ (wrap32_modEq _).symm

theorem eq_zero_iff_val (a : CInt) : a = 0 ↔ a.val = 0 := by
  constructor
  · intro h; rw [h]; rfl
  · intro h; exact ext_val (by rw [h]; rfl)

/-- A product is in the range of `int` when the squares of its factors are. -/
theorem abs_lt_of_mul_self_le {p u v : ℤ} (hu0 : 0 ≤ u) (hv0 : 0 ≤ v) (hu : u < 2147483648)
    (hv : v < 2147483648) (h : p * p ≤ u * v) : -2147483648 < p ∧ p < 2147483648 := by
  have huv : u * v < 2147483648 * 2147483648 := by
    calc u * v ≤ 2147483647 * 2147483647 :=
          mul_le_mul (by omega) (by omega) hv0 (by norm_num)
      _ < 2147483648 * 2147483648 := by norm_num
  have hsq : p ^ 2 < (2147483648 : ℤ) ^ 2 := by
    rw [pow_two, pow_two]
    exact lt_of_le_of_lt h huv
  have := abs_lt_of_sq_lt_sq hsq (by norm_num)
  exact abs_lt.mp this

end CInt

/-- Over the integers, the cross product of `x` and `y` vanishes exactly when `x` and `y` are
linearly dependent. -/
theorem cross_zero_iff_dependent (x0 x1 x2 y0 y1 y2 : ℤ) :
    (x1 * y2 - x2 * y1 = 0 ∧ x2 * y0 - x0 * y2 = 0 ∧ x0 * y1 - x1 * y0 = 0) ↔
    ∃ s t : ℤ, (s ≠ 0 ∨ t ≠ 0) ∧ s * x0 = t * y0 ∧ s * x1 = t * y1 ∧ s * x2 = t * y2 := by
  constructor
  · rintro ⟨h0, h1, h2⟩
    by_cases hx0 : x0 = 0
    · by_cases hx1 : x1 = 0
      · by_cases hx2 : x2 = 0
        · exact ⟨1, 0, Or.inl one_ne_zero, by simp [hx0], by simp [hx1], by simp [hx2]⟩
        · exact ⟨y2, x2, Or.inr hx2, by linarith, by linarith, by ring⟩
      · exact ⟨y1, x1, Or.inr hx1, by linarith, by ring, by linarith⟩
    · exact ⟨y0, x0, Or.inr hx0, by ring, by linarith, by linarith⟩
  · rintro ⟨s, t, hst, e0, e1, e2⟩
    rcases hst with hs | ht
    · refine ⟨?_, ?_, ?_⟩
      · have : s * (x1 * y2 - x2 * y1) = 0 := by
          calc s * (x1 * y2 - x2 * y1) = (s * x1) * y2 - (s * x2) * y1 := by ring
            _ = 0 := by rw [e1, e2]; ring
        exact (mul_eq_zero.mp this).resolve_left hs
      · have : s * (x2 * y0 - x0 * y2) = 0 := by
          calc s * (x2 * y0 - x0 * y2) = (s * x2) * y0 - (s * x0) * y2 := by ring
            _ = 0 := by rw [e2, e0]; ring
        exact (mul_eq_zero.mp this).resolve_left hs
      · have : s * (x0 * y1 - x1 * y0) = 0 := by
          calc s * (x0 * y1 - x1 * y0) = (s * x0) * y1 - (s * x1) * y0 := by ring
            _ = 0 := by rw [e0, e1]; ring
        exact (mul_eq_zero.mp this).resolve_left hs
    · refine ⟨?_, ?_, ?_⟩
      · have : t * (x1 * y2 - x2 * y1) = 0 := by
          calc t * (x1 * y2 - x2 * y1) = x1 * (t * y2) - x2 * (t * y1) := by ring
            _ = 0 := by rw [← e1, ← e2]; ring
        exact (mul_eq_zero.mp this).resolve_left ht
      · have : t * (x2 * y0 - x0 * y2) = 0 := by
          calc t * (x2 * y0 - x0 * y2) = x2 * (t * y0) - x0 * (t * y2) := by ring
            _ = 0 := by rw [← e2, ← e0]; ring
        exact (mul_eq_zero.mp this).resolve_left ht
      · have : t * (x0 * y1 - x1 * y0) = 0 := by
          calc t * (x0 * y1 - x1 * y0) = x0 * (t * y1) - x1 * (t * y0) := by ring
            _ = 0 := by rw [← e0, ← e1]; ring
        exact (mul_eq_zero.mp this).resolve_left ht

namespace TuplaG3

theorem cross_self (a this0 : TuplaG3 CInt) : a.cross a this0 = .ok ⟨fun _ => 0⟩ := by
  rw [cross_eq]
  refine congrArg Except.ok (TuplaG.ext_coo (fun j => ?_))
  fin_cases j
  · show Scalar.sub (Scalar.mul (a.coo 1) (a.coo 2)) (Scalar.mul (a.coo 2) (a.coo 1)) = 0
    rw [CInt.mul_comm_int (a.coo 2), CInt.sub_self_int]
  · show Scalar.sub (Scalar.mul (a.coo 2) (a.coo 0)) (Scalar.mul (a.coo 0) (a.coo 2)) = 0
    rw [CInt.mul_comm_int (a.coo 2), CInt.sub_self_int]
  · show Scalar.sub (Scalar.mul (a.coo 0) (a.coo 1)) (Scalar.mul (a.coo 1) (a.coo 0)) = 0
    rw [CInt.mul_comm_int (a.coo 1), CInt.sub_self_int]

theorem cross_mulScalar (a this0 : TuplaG3 CInt) (s : CInt) :
    a.cross ⟨fun j => Scalar.mul (a.coo j) s⟩ this0 = .ok ⟨fun _ => 0⟩ := by
  rw [cross_eq]
  refine congrArg Except.ok (TuplaG.ext_coo (fun j => ?_))
  fin_cases j
  · show Scalar.sub (Scalar.mul (a.coo 1) (Scalar.mul (a.coo 2) s))
      (Scalar.mul (a.coo 2) (Scalar.mul (a.coo 1) s)) = 0
    rw [CInt.mul_mul_comm_int (a.coo 2), CInt.sub_self_int]
  · show Scalar.sub (Scalar.mul (a.coo 2) (Scalar.mul (a.coo 0) s))
      (Scalar.mul (a.coo 0) (Scalar.mul (a.coo 2) s)) = 0
    rw [CInt.mul_mul_comm_int (a.coo 2), CInt.sub_self_int]
  · show Scalar.sub (Scalar.mul (a.coo 0) (Scalar.mul (a.coo 1) s))
      (Scalar.mul (a.coo 1) (Scalar.mul (a.coo 0) s)) = 0
    rw [CInt.mul_mul_comm_int (a.coo 1), CInt.sub_self_int]

end TuplaG3

namespace TuplaG

variable {T : Type} {n : ℕ}

theorem dot_comm [Scalar T] (a b : TuplaG T n) : a.dot b = b.dot a := by
  rw [dot_eq_dotSpec, dot_eq_dotSpec]
  unfold dotSpec
  congr 2
  funext acc i
  unfold Dbl.mul
  rw [mul_comm]

theorem dot_of_dotExact (a b : TuplaG CInt n) (h : DotExact a b) :
    a.dot b = .ok ⟨prefixSum a b n, h.2.2.1, h.2.2.2⟩ :=
  dot_exact a b h.1 h.2.1 h.2.2.1 h.2.2.2

theorem prefixSum3 (a b : TuplaG CInt 3) :
    prefixSum a b 0 = 0 ∧
    prefixSum a b 1 = (a.coo 0).val * (b.coo 0).val ∧
    prefixSum a b 2 = (a.coo 0).val * (b.coo 0).val + (a.coo 1).val * (b.coo 1).val ∧
    prefixSum a b 3 = (a.coo 0).val * (b.coo 0).val + (a.coo 1).val * (b.coo 1).val
      + (a.coo 2).val * (b.coo 2).val := by
  have p0 : prodAt a b 0 = (a.coo 0).val * (b.coo 0).val := prodAt_lt a b (by norm_num)
  have p1 : prodAt a b 1 = (a.coo 1).val * (b.coo 1).val := prodAt_lt a b (by norm_num)
  have p2 : prodAt a b 2 = (a.coo 2).val * (b.coo 2).val := prodAt_lt a b (by norm_num)
  refine ⟨prefixSum_zero a b, ?_, ?_, ?_⟩
  · rw [prefixSum_succ, prefixSum_zero, p0, zero_add]
  · rw [prefixSum_succ, prefixSum_succ, prefixSum_zero, p0, p1, zero_add]
  · rw [prefixSum_succ, prefixSum_succ, prefixSum_succ, prefixSum_zero, p0, p1, p2, zero_add]

end TuplaG

namespace TuplaG

variable {n : ℕ}

/-- On 3-component `int` tuples whose squared lengths fit in `int`, `dot` returns the exact
sum of products whenever the square of that sum is at most the product of the squared
lengths. -/
theorem dot3_exact_of_lengthSq (a b : TuplaG CInt 3) (A B : CInt)
    (hA : A.val = prefixSum a a 3) (hB : B.val = prefixSum b b 3)
    (hd : prefixSum a b 3 * prefixSum a b 3 ≤ A.val * B.val) :
    ∃ d : CInt, a.dot b = .ok d ∧ d.val = prefixSum a b 3 := by
  obtain ⟨_, _, _, a3⟩ := prefixSum3 a a
  obtain ⟨_, _, _, b3⟩ := prefixSum3 b b
  obtain ⟨s0, s1, s2, s3⟩ := prefixSum3 a b
  have hAhi := A.hi
  have hBhi := B.hi
  rw [hA, a3] at hAhi
  rw [hB, b3] at hBhi
  have hA0 : 0 ≤ A.val := by rw [hA]; exact prefixSum_self_nonneg a 3
  have hB0 : 0 ≤ B.val := by rw [hB]; exact prefixSum_self_nonneg b 3
  have q0a := mul_self_nonneg (a.coo 0).val
  have q1a := mul_self_nonneg (a.coo 1).val
  have q2a := mul_self_nonneg (a.coo 2).val
  have q0b := mul_self_nonneg (b.coo 0).val
  have q1b := mul_self_nonneg (b.coo 1).val
  have q2b := mul_self_nonneg (b.coo 2).val
  have key : ∀ x y : ℤ, 0 ≤ x * x → x * x < 2147483648 → 0 ≤ y * y → y * y < 2147483648 →
      -2147483648 < x * y ∧ x * y < 2147483648 := fun x y h1 h2 h3 h4 =>
    CInt.abs_lt_of_mul_self_le h1 h3 h2 h4 (le_of_eq (by ring))
  have p0 := key (a.coo 0).val (b.coo 0).val q0a (by omega) q0b (by omega)
  have p1 := key (a.coo 1).val (b.coo 1).val q1a (by omega) q1b (by omega)
  have p2 := key (a.coo 2).val (b.coo 2).val q2a (by omega) q2b (by omega)
  have ht := CInt.abs_lt_of_mul_self_le hA0 hB0 A.hi B.hi hd
  have hP0 : prodAt a b 0 = (a.coo 0).val * (b.coo 0).val := prodAt_lt a b (by norm_num)
  have hP1 : prodAt a b 1 = (a.coo 1).val * (b.coo 1).val := prodAt_lt a b (by norm_num)
  have hP2 : prodAt a b 2 = (a.coo 2).val * (b.coo 2).val := prodAt_lt a b (by norm_num)
  refine ⟨_, dot_exact a b (fun i hi => ?_) (fun k hk => ?_) (le_of_lt ht.1) ht.2, rfl⟩
  · refine Dbl.isDouble_intCast _ ?_
    rw [abs_le]
    interval_cases i
    · rw [hP0]; constructor <;> omega
    · rw [hP1]; constructor <;> omega
    · rw [hP2]; constructor <;> omega
  · refine Dbl.isDouble_intCast _ ?_
    rw [abs_le]
    interval_cases k
    · rw [s0]; constructor <;> norm_num
    · rw [s1]; constructor <;> omega
    · rw [s2]; constructor <;> omega
    · rw [s3]; constructor <;> omega

/-- The exact sum of products is additive and homogeneous in its first argument. -/
theorem prefixSum_linear (a b c x : TuplaG CInt n) (s : ℤ)
    (hx : ∀ i : Fin n, (x.coo i).val = (a.coo i).val * s + (b.coo i).val) :
    prefixSum x c n = s * prefixSum a c n + prefixSum b c n := by
  rw [prefixSum_full, prefixSum_full, prefixSum_full, Finset.mul_sum, ← Finset.sum_add_distrib]
  refine Finset.sum_congr rfl (fun i _ => ?_)
  rw [hx i]
  ring

end TuplaG

namespace Dbl

/-- The accumulation of `(2^30, -2^30, -(2^30+1)) · (2^30+1, 2^30+1, 1)` in `double`: every
product and every partial sum is a `double`, the result is the exact `-(2^30+1)`. -/
theorem accumulate_exact_example :
    Dbl.add (Dbl.add (Dbl.add 0
      (Dbl.mul ((1073741824 : ℤ) : ℚ) ((1073741825 : ℤ) : ℚ)))
      (Dbl.mul ((-1073741824 : ℤ) : ℚ) ((1073741825 : ℤ) : ℚ)))
      (Dbl.mul ((-1073741825 : ℤ) : ℚ) ((1 : ℤ) : ℚ)) = ((-1073741825 : ℤ) : ℚ) := by
  have m0 : Dbl.mul ((1073741824 : ℤ) : ℚ) ((1073741825 : ℤ) : ℚ)
      = ((1152921505680588800 : ℤ) : ℚ) := by
    have h := rnd_eq_self_of_repr 1073741825 30 (by norm_num)
    unfold Dbl.mul
    norm_num at h ⊢
    exact h
  have a0 : Dbl.add 0 ((1152921505680588800 : ℤ) : ℚ) = ((1152921505680588800 : ℤ) : ℚ) := by
    have h := rnd_eq_self_of_repr 1073741825 30 (by norm_num)
    unfold Dbl.add
    norm_num at h ⊢
    exact h
  have m1 : Dbl.mul ((-1073741824 : ℤ) : ℚ) ((1073741825 : ℤ) : ℚ)
      = ((-1152921505680588800 : ℤ) : ℚ) := by
    have h := rnd_eq_self_of_repr (-1073741825) 30 (by norm_num)
    unfold Dbl.mul
    norm_num at h ⊢
    exact h
  have a1 : Dbl.add ((1152921505680588800 : ℤ) : ℚ) ((-1152921505680588800 : ℤ) : ℚ)
      = ((0 : ℤ) : ℚ) := by
    have h := rnd_intCast 0 (by norm_num)
    unfold Dbl.add
    norm_num at h ⊢
    exact h
  have m2 : Dbl.mul ((-1073741825 : ℤ) : ℚ) ((1 : ℤ) : ℚ) = ((-1073741825 : ℤ) : ℚ) := by
    have h := rnd_intCast (-1073741825) (by norm_num)
    unfold Dbl.mul
    norm_num at h ⊢
    exact h
  have a2 : Dbl.add ((0 : ℤ) : ℚ) ((-1073741825 : ℤ) : ℚ) = ((-1073741825 : ℤ) : ℚ) := by
    have h := rnd_intCast (-1073741825) (by norm_num)
    unfold Dbl.add
    norm_num at h ⊢
    exact h
  rw [m0, a0, m1, a1, m2, a2]

/-- The accumulation of `(1, 0, 0) · (2^30+1, 2^30+1, 1)` in `double`. -/
theorem accumulate_unit_example :
    Dbl.add (Dbl.add (Dbl.add 0
      (Dbl.mul ((1 : ℤ) : ℚ) ((1073741825 : ℤ) : ℚ)))
      (Dbl.mul ((0 : ℤ) : ℚ) ((1073741825 : ℤ) : ℚ)))
      (Dbl.mul ((0 : ℤ) : ℚ) ((1 : ℤ) : ℚ)) = ((1073741825 : ℤ) : ℚ) := by
  have m0 : Dbl.mul ((1 : ℤ) : ℚ) ((1073741825 : ℤ) : ℚ) = ((1073741825 : ℤ) : ℚ) := by
    have h := rnd_intCast 1073741825 (by norm_num)
    unfold Dbl.mul
    norm_num at h ⊢
    exact h
  have a0 : Dbl.add 0 ((1073741825 : ℤ) : ℚ) = ((1073741825 : ℤ) : ℚ) := by
    have h := rnd_intCast 1073741825 (by norm_num)
    unfold Dbl.add
    norm_num at h ⊢
    exact h
  have m1 : Dbl.mul ((0 : ℤ) : ℚ) ((1073741825 : ℤ) : ℚ) = ((0 : ℤ) : ℚ) := by
    have h := rnd_intCast 0 (by norm_num)
    unfold Dbl.mul
    norm_num at h ⊢
    exact h
  have a1 : Dbl.add ((1073741825 : ℤ) : ℚ) ((0 : ℤ) : ℚ) = ((1073741825 : ℤ) : ℚ) := by
    have h := rnd_intCast 1073741825 (by norm_num)
    unfold Dbl.add
    norm_num at h ⊢
    exact h
  have m2 : Dbl.mul ((0 : ℤ) : ℚ) ((1 : ℤ) : ℚ) = ((0 : ℤ) : ℚ) := by
    have h := rnd_intCast 0 (by norm_num)
    unfold Dbl.mul
    norm_num at h ⊢
    exact h
  rw [m0, a0, m1, a1, m2, a1]

end Dbl

/-! ## Rounding in `float` and the scalar types `float` and `double` -/

namespace Flt

/-- Rounding of `q` with `2 ^ e ≤ |q| < 2 ^ (e + 1)` to `float`: the multiple `z * 2 ^ u` of
the unit in the last place `2 ^ u`, `u = max (e - 23) (-149)`, that is less than half a unit
away. -/
theorem rndF_eq_of_near (q : ℚ) (e u z : ℤ) (h1 : (2 : ℚ) ^ e ≤ |q|)
    (h2 : |q| < (2 : ℚ) ^ (e + 1)) (hu : max (e - 23) (-149) = u)
    (hz : |q / 2 ^ u - z| < 1 / 2) : rnd q = (z : ℚ) * 2 ^ u := by
  have hq : q ≠ 0 := by
    intro h0
    rw [h0, abs_zero] at h1
    exact absurd h1 (not_le.mpr (by positivity))
  unfold rnd
  rw [if_neg hq, Dbl.expo_eq h1 h2, hu, Dbl.roundHalfEven_eq_of_near _ z hz]

/-- A value `z * 2 ^ u` with `2 ^ e ≤ |z * 2 ^ u| < 2 ^ (e + 1)` and `u = max (e - 23) (-149)`
is a `float`. -/
theorem isFloat_of_repr (q : ℚ) (e u z : ℤ) (h1 : (2 : ℚ) ^ e ≤ |q|)
    (h2 : |q| < (2 : ℚ) ^ (e + 1)) (hu : max (e - 23) (-149) = u)
    (hz : q = (z : ℚ) * 2 ^ u) : IsFloat q := by
  unfold IsFloat
  rw [rndF_eq_of_near q e u z h1 h2 hu, ← hz]
  rw [hz, mul_div_assoc, div_self (by positivity), mul_one, sub_self, abs_zero]
  norm_num

end Flt

namespace CFloat

theorem ofDoubleF_eq (d : Dbl) : (Scalar.ofDouble d : Except Fault CFloat) = .ok ⟨Flt.rnd d⟩ := rfl

theorem toDoubleF_eq (a : CFloat) : Scalar.toDouble a = a.val := rfl

end CFloat

namespace TuplaG

variable {T : Type}

theorem lengthSq_dot [Scalar T] {n : ℕ} (v : TuplaG T n) : v.lengthSq = v.dot v := by
  unfold lengthSq
  cases v.dot v <;> rfl

theorem lengthSq_two [Scalar T] (v : TuplaG T 2) :
    v.lengthSq = Scalar.ofDouble (Dbl.add (Dbl.add 0
      (Dbl.mul (Scalar.toDouble (v.coo 0)) (Scalar.toDouble (v.coo 0))))
      (Dbl.mul (Scalar.toDouble (v.coo 1)) (Scalar.toDouble (v.coo 1)))) := by
  rw [lengthSq_dot, dot_eq_dotSpec]
  rfl

end TuplaG

namespace Dbl

end Dbl

namespace Dbl

theorem sqrt_one : sqrt 1 = .ok 1 := by
  obtain ⟨d, hd, _, _, _, hsq⟩ := sqrt_natCast 1 (by norm_num) (by norm_num)
  have h1 : d = 1 := by
    have := hsq (by norm_num)
    simpa using this
  rw [h1] at hd
  simpa using hd

end Dbl

namespace Flt

end Flt

namespace Dbl

theorem sqrt_25 : sqrt 25 = .ok 5 := by
  obtain ⟨d, hd, _, _, _, hsq⟩ := sqrt_natCast 25 (by norm_num) (by norm_num)
  have h5 : Nat.sqrt 25 = 5 := by
    rw [show (25 : ℕ) = 5 * 5 by norm_num, Nat.sqrt_eq]
  have h1 : d = 5 := by
    have := hsq (by rw [h5])
    rw [h5] at this
    simpa using this
  rw [h1] at hd
  simpa using hd

/-- The accumulation of `(3,4) · (3,4)` in `double`. -/
theorem accumulate_three_four :
    Dbl.add (Dbl.add 0 (Dbl.mul 3 3)) (Dbl.mul 4 4) = 25 := by
  have m0 : Dbl.mul 3 3 = 9 := by
    have h := rnd_intCast 9 (by norm_num)
    unfold Dbl.mul
    norm_num at h ⊢
    exact h
  have a0 : Dbl.add 0 9 = 9 := by
    have h := rnd_intCast 9 (by norm_num)
    unfold Dbl.add
    norm_num at h ⊢
    exact h
  have m1 : Dbl.mul 4 4 = 16 := by
    have h := rnd_intCast 16 (by norm_num)
    unfold Dbl.mul
    norm_num at h ⊢
    exact h
  have a1 : Dbl.add 9 16 = 25 := by
    have h := rnd_intCast 25 (by norm_num)
    unfold Dbl.add
    norm_num at h ⊢
    exact h
  rw [m0, a0, m1, a1]

end Dbl

namespace TuplaG

variable {n : ℕ}

/-- The `float` tuple `(3,4)` has length exactly `5`. -/
theorem length_three_four_float :
    (⟨![⟨3⟩, ⟨4⟩]⟩ : TuplaG CFloat 2).length = .ok ⟨5⟩ := by
  have f25 : Flt.rnd 25 = 25 :=
    Flt.isFloat_of_repr _ 4 (-19) 13107200 (by norm_num) (by norm_num [abs_lt]) (by norm_num)
      (by norm_num)
  have f5 : Flt.rnd 5 = 5 :=
    Flt.isFloat_of_repr _ 2 (-21) 10485760 (by norm_num) (by norm_num [abs_lt]) (by norm_num)
      (by norm_num)
  have hl : (⟨![⟨3⟩, ⟨4⟩]⟩ : TuplaG CFloat 2).lengthSq = .ok ⟨25⟩ := by
    rw [lengthSq_two]
    show (Scalar.ofDouble (Dbl.add (Dbl.add 0 (Dbl.mul 3 3)) (Dbl.mul 4 4))
      : Except Fault CFloat) = _
    rw [Dbl.accumulate_three_four, CFloat.ofDoubleF_eq, f25]
  unfold length
  rw [hl, ok_bind, CFloat.toDoubleF_eq, Dbl.sqrt_25]
  show (Scalar.ofDouble (5 : Dbl) : Except Fault CFloat) = _
  rw [CFloat.ofDoubleF_eq, f5]

/-- The `double` tuple `(3,4)` has length exactly `5`. -/
theorem length_three_four_double :
    (⟨![⟨3⟩, ⟨4⟩]⟩ : TuplaG CDouble 2).length = .ok ⟨5⟩ := by
  have hl : (⟨![⟨3⟩, ⟨4⟩]⟩ : TuplaG CDouble 2).lengthSq = .ok ⟨25⟩ := by
    rw [lengthSq_two]
    show (Scalar.ofDouble (Dbl.add (Dbl.add 0 (Dbl.mul 3 3)) (Dbl.mul 4 4))
      : Except Fault CDouble) = _
    rw [Dbl.accumulate_three_four]
    rfl
  unfold length
  rw [hl, ok_bind]
  show (match Dbl.sqrt 25 with
    | .ok r => (Scalar.ofDouble r : Except Fault CDouble)
    | .error _ => Scalar.ofNaN) = _
  rw [Dbl.sqrt_25]
  rfl

end TuplaG

/-! ## The claims -/

/-- C1: for all 3-component tuples `a` and `b`, over every scalar type, `a.cross(b)` returns
the tuple whose components are `a(1)*b(2) - a(2)*b(1)`, `a(2)*b(0) - a(0)*b(2)` and
`a(0)*b(1) - a(1)*b(0)`; and with `int` scalars `TuplaG3(1,0,0).cross(TuplaG3(0,1,0))` is the
tuple that `TuplaG3(0,0,1)` constructs. -/
theorem cross_components :
    (∀ (T : Type) [Scalar T] (a b this0 : TuplaG3 T), ∃ r : TuplaG3 T,
      a.cross b this0 = .ok r ∧
      r.coo 0 = Scalar.sub (Scalar.mul (a.coo 1) (b.coo 2)) (Scalar.mul (a.coo 2) (b.coo 1)) ∧
      r.coo 1 = Scalar.sub (Scalar.mul (a.coo 2) (b.coo 0)) (Scalar.mul (a.coo 0) (b.coo 2)) ∧
      r.coo 2 = Scalar.sub (Scalar.mul (a.coo 0) (b.coo 1)) (Scalar.mul (a.coo 1) (b.coo 0))) ∧
    (∀ j1 j2 j3 j4 : TuplaG3 CInt, ∃ x y z : TuplaG3 CInt,
      TuplaG3.ctor 1 0 0 j1 = .ok x ∧ TuplaG3.ctor 0 1 0 j2 = .ok y ∧
      TuplaG3.ctor 0 0 1 j3 = .ok z ∧ x.cross y j4 = .ok z) := by
  constructor
  · intro T _ a b this0
    exact ⟨_, TuplaG3.cross_eq a b this0, rfl, rfl, rfl⟩
  · intro j1 j2 j3 j4
    refine ⟨_, _, _, TuplaG3.ctor3_eq _ _ _ j1, TuplaG3.ctor3_eq _ _ _ j2,
      TuplaG3.ctor3_eq _ _ _ j3, ?_⟩
    rw [TuplaG3.cross_eq]
    exact congrArg Except.ok (TuplaG.ext_coo (fun j => by fin_cases j <;> decide))

/-- C3, as amended: for `int` tuples `v` and `w` such that no `int` operation of
`v.cross(w)` overflows and the accumulations of the two dot products are exact (every product
and every partial sum is a `double`), `dot(v.cross(w), v)` and `dot(v.cross(w), w)` return
exactly zero. -/
theorem cross_dot_zero_of_exact (v w this0 c : TuplaG3 CInt)
    (hc : v.cross w this0 = .ok c) (hex : TuplaG3.CrossExact v w)
    (hpv : ∀ i : Fin 3, Dbl.IsDouble (((c.coo i).val * (v.coo i).val : ℤ) : ℚ))
    (hsv : ∀ k, k ≤ 3 → Dbl.IsDouble ((TuplaG.prefixSum c v k : ℤ) : ℚ))
    (hpw : ∀ i : Fin 3, Dbl.IsDouble (((c.coo i).val * (w.coo i).val : ℤ) : ℚ))
    (hsw : ∀ k, k ≤ 3 → Dbl.IsDouble ((TuplaG.prefixSum c w k : ℤ) : ℚ)) :
    ∃ z z' : CInt, c.dot v = .ok z ∧ z.val = 0 ∧ c.dot w = .ok z' ∧ z'.val = 0 := by
  obtain ⟨e0, e1, e2⟩ := TuplaG3.coo_of_cross_eq hc hex
  have hv0 : TuplaG.prefixSum c v 3 = 0 := by
    rw [TuplaG.prefixSum_full, Fin.sum_univ_three, e0, e1, e2]
    ring
  have hw0 : TuplaG.prefixSum c w 3 = 0 := by
    rw [TuplaG.prefixSum_full, Fin.sum_univ_three, e0, e1, e2]
    ring
  refine ⟨_, _, TuplaG.dot_exact c v
      (fun i hi => by rw [TuplaG.prodAt_lt c v hi]; exact hpv ⟨i, hi⟩) hsv
      (by rw [hv0]; norm_num) (by rw [hv0]; norm_num), hv0,
    TuplaG.dot_exact c w
      (fun i hi => by rw [TuplaG.prodAt_lt c w hi]; exact hpw ⟨i, hi⟩) hsw
      (by rw [hw0]; norm_num) (by rw [hw0]; norm_num), hw0⟩

/-- C3, an instance of the amended claim: `v = (1,2,3)`, `w = (4,5,6)`. -/
theorem cross_dot_zero_of_exact_witness :
    ∃ (c : TuplaG3 CInt) (z z' : CInt),
      TuplaG3.cross (⟨![1, 2, 3]⟩ : TuplaG3 CInt) ⟨![4, 5, 6]⟩ ⟨![0, 0, 0]⟩ = .ok c ∧
      c.dot ⟨![1, 2, 3]⟩ = .ok z ∧ z.val = 0 ∧ c.dot ⟨![4, 5, 6]⟩ = .ok z' ∧ z'.val = 0 := by
  have hc := TuplaG3.cross_eq (⟨![1, 2, 3]⟩ : TuplaG3 CInt) ⟨![4, 5, 6]⟩ ⟨![0, 0, 0]⟩
  obtain ⟨z, z', h1, h2, h3, h4⟩ := cross_dot_zero_of_exact _ _ _ _ hc (by decide)
    (fun i => Dbl.isDouble_intCast _ (by fin_cases i <;> decide))
    (fun k hk => Dbl.isDouble_intCast _ (by
      interval_cases k <;> simp [TuplaG.prefixSum, Finset.sum_range_succ, TuplaG.prodAt] <;>
        decide))
    (fun i => Dbl.isDouble_intCast _ (by fin_cases i <;> decide))
    (fun k hk => Dbl.isDouble_intCast _ (by
      interval_cases k <;> simp [TuplaG.prefixSum, Finset.sum_range_succ, TuplaG.prodAt] <;>
        decide))
  exact ⟨_, z, z', hc, h1, h2, h3, h4⟩

/-- C3, counterexample: `v = (2^30 + 1, 2^30 + 1, 1)` and `w = (1, 0, 1)` are `int` tuples,
no `int` operation of `v.cross(w) = (2^30 + 1, -2^30, -(2^30 + 1))` overflows, and
`dot(v.cross(w), v)` returns `-1`: the first product `(2^30 + 1)^2 = 2^60 + 2^31 + 1` is rounded
to `2^60 + 2^31` in the `double` accumulator. -/
theorem cross_dot_rounds_to_minus_one :
    ∃ (c : TuplaG3 CInt) (z : CInt),
      TuplaG3.cross (⟨![1073741825, 1073741825, 1]⟩ : TuplaG3 CInt) ⟨![1, 0, 1]⟩ ⟨![0, 0, 0]⟩
        = .ok c ∧
      TuplaG3.CrossExact ⟨![1073741825, 1073741825, 1]⟩ ⟨![1, 0, 1]⟩ ∧
      (c.coo 0).val = 1073741825 ∧ (c.coo 1).val = -1073741824 ∧ (c.coo 2).val = -1073741825 ∧
      c.dot ⟨![1073741825, 1073741825, 1]⟩ = .ok z ∧ z.val = -1 := by
  obtain ⟨c, hc⟩ : ∃ c, TuplaG3.cross (⟨![1073741825, 1073741825, 1]⟩ : TuplaG3 CInt)
      ⟨![1, 0, 1]⟩ ⟨![0, 0, 0]⟩ = .ok c := ⟨_, TuplaG3.cross_eq _ _ _⟩
  have hex : TuplaG3.CrossExact ⟨![1073741825, 1073741825, 1]⟩ ⟨![1, 0, 1]⟩ := by decide
  obtain ⟨e0, e1, e2⟩ := TuplaG3.coo_of_cross_eq hc hex
  have v0 : ((⟨![1073741825, 1073741825, 1]⟩ : TuplaG3 CInt).coo 0).val = 1073741825 := by decide
  have v1 : ((⟨![1073741825, 1073741825, 1]⟩ : TuplaG3 CInt).coo 1).val = 1073741825 := by decide
  have v2 : ((⟨![1073741825, 1073741825, 1]⟩ : TuplaG3 CInt).coo 2).val = 1 := by decide
  have w0 : ((⟨![1, 0, 1]⟩ : TuplaG3 CInt).coo 0).val = 1 := by decide
  have w1 : ((⟨![1, 0, 1]⟩ : TuplaG3 CInt).coo 1).val = 0 := by decide
  have w2 : ((⟨![1, 0, 1]⟩ : TuplaG3 CInt).coo 2).val = 1 := by decide
  rw [v1, v2, w1, w2] at e0
  rw [v0, v2, w0, w2] at e1
  rw [v0, v1, w0, w1] at e2
  norm_num at e0 e1 e2
  refine ⟨c, ⟨-1, by norm_num, by norm_num⟩, hc, hex, e0, e1, e2, ?_, rfl⟩
  rw [TuplaG.dot3_eq, e0, e1, e2, v0, v1, v2, Dbl.accumulate_example]
  exact CInt.ofDouble_intCast (-1) (by norm_num) (by norm_num)

/-- C4: over every scalar type, `dot(a,b)` is the sum of the products `a(i)*b(i)` accumulated
in `double`, in index order from `0`, and converted back to `T`; and for `int` tuples whose
products and partial sums are `double`s (rounding leaves them unchanged) and whose sum is in
the range of `int`, `dot(a,b)` returns the exact integer sum of the `a(i)*b(i)`. -/
theorem dot_accumulates_in_double :
    (∀ (T : Type) [Scalar T] (n : ℕ) (a b : TuplaG T n),
      a.dot b = Scalar.ofDouble ((List.finRange n).foldl (fun acc i =>
        Dbl.add acc (Dbl.mul (Scalar.toDouble (a.coo i)) (Scalar.toDouble (b.coo i))))
        (0 : Dbl))) ∧
    (∀ (n : ℕ) (a b : TuplaG CInt n),
      (∀ i : Fin n, Dbl.IsDouble (((a.coo i).val * (b.coo i).val : ℤ) : ℚ)) →
      (∀ k, k ≤ n → Dbl.IsDouble ((TuplaG.prefixSum a b k : ℤ) : ℚ)) →
      CInt.InRange (∑ i : Fin n, (a.coo i).val * (b.coo i).val) →
      ∃ s : CInt, a.dot b = .ok s ∧ s.val = ∑ i : Fin n, (a.coo i).val * (b.coo i).val) := by
  constructor
  · intro T _ n a b
    exact TuplaG.dot_eq_dotSpec a b
  · intro n a b hp hs hr
    rw [← TuplaG.prefixSum_full] at hr ⊢
    exact ⟨_, TuplaG.dot_exact a b
      (fun i hi => by rw [TuplaG.prodAt_lt a b hi]; exact hp ⟨i, hi⟩) hs hr.1 hr.2, rfl⟩

/-- C4, an instance: the dot product of the `int` tuples `(1,2,3)` and `(4,5,6)` is `32`. -/
theorem dot_accumulates_in_double_witness :
    ∃ s : CInt, (⟨![1, 2, 3]⟩ : TuplaG CInt 3).dot ⟨![4, 5, 6]⟩ = .ok s ∧ s.val = 32 := by
  obtain ⟨s, h1, h2⟩ := dot_accumulates_in_double.2 3 ⟨![1, 2, 3]⟩ ⟨![4, 5, 6]⟩
    (fun i => Dbl.isDouble_intCast _ (by fin_cases i <;> decide))
    (fun k hk => Dbl.isDouble_intCast _ (by
      interval_cases k <;> simp [TuplaG.prefixSum, Finset.sum_range_succ, TuplaG.prodAt] <;>
        decide))
    (by rw [Fin.sum_univ_three]; decide)
  refine ⟨s, h1, ?_⟩
  rw [h2, Fin.sum_univ_three]
  decide

/-- C5: for every tuple `v`, over every scalar type and dimension, `lengthSq(v)` is the very
result of `dot(v,v)`: the same value, or the same failure. -/
theorem lengthSq_eq_dot (T : Type) [Scalar T] (n : ℕ) (v : TuplaG T n) :
    v.lengthSq = v.dot v := by
  unfold TuplaG.lengthSq
  cases v.dot v <;> rfl

/-- C6, as amended: over every scalar type, when `lengthSq(v)` returns `s` and the `double`
square root of `double(s)` is `r`, `length(v)` is the conversion `T(r)`.  On an `int` tuple
whose `lengthSq` returns a non-negative `s` (the sum of the squares is below `2^31`),
`length(v)` returns the floor of the square root of `s`: a value `l ≥ 0` with
`l^2 ≤ s < (l+1)^2`; and the tuple that `TuplaG2(3,4)` constructs has length exactly `5`,
with `int`, `float` and `double` scalars. -/
theorem length_is_floor_sqrt :
    (∀ (T : Type) [Scalar T] (n : ℕ) (v : TuplaG T n) (s : T) (r : Dbl),
      v.lengthSq = .ok s → Dbl.sqrt (Scalar.toDouble s) = .ok r →
      v.length = Scalar.ofDouble r) ∧
    (∀ (n : ℕ) (v : TuplaG CInt n) (s : CInt), v.lengthSq = .ok s → 0 ≤ s.val →
      ∃ l : CInt, v.length = .ok l ∧ 0 ≤ l.val ∧ l.val ^ 2 ≤ s.val ∧
        s.val < (l.val + 1) ^ 2) ∧
    (∀ this0 : TuplaG2 CInt, ∃ v : TuplaG2 CInt,
      TuplaG2.ctor 3 4 this0 = .ok v ∧ v.length = .ok 5) ∧
    (∀ this0 : TuplaG2 CFloat, ∃ v : TuplaG2 CFloat,
      TuplaG2.ctor ⟨3⟩ ⟨4⟩ this0 = .ok v ∧ v.length = .ok ⟨5⟩) ∧
    (∀ this0 : TuplaG2 CDouble, ∃ v : TuplaG2 CDouble,
      TuplaG2.ctor ⟨3⟩ ⟨4⟩ this0 = .ok v ∧ v.length = .ok ⟨5⟩) := by
  refine ⟨?_, ?_, ?_, fun this0 => ⟨_, TuplaG2.ctor2_eq _ _ this0,
    TuplaG.length_three_four_float⟩, fun this0 => ⟨_, TuplaG2.ctor2_eq _ _ this0,
    TuplaG.length_three_four_double⟩⟩
  · intro T _ n v s r hs hr
    unfold TuplaG.length
    rw [hs, ok_bind, hr]
  · intro n v s h hs0
    obtain ⟨l, hl, hv⟩ := TuplaG.length_of_lengthSq v s h hs0
    obtain ⟨t, ht⟩ : ∃ t : ℕ, s.val = t := ⟨s.val.toNat, by omega⟩
    rw [ht, Int.toNat_ofNat] at hv
    refine ⟨l, hl, by rw [hv]; positivity, ?_, ?_⟩
    · rw [hv, ht]
      exact_mod_cast Nat.sqrt_le' t
    · rw [hv, ht]
      exact_mod_cast Nat.lt_succ_sqrt' t
  · intro this0
    refine ⟨_, TuplaG2.ctor2_eq 3 4 this0, ?_⟩
    have h25 : (⟨![3, 4]⟩ : TuplaG2 CInt).lengthSq = .ok 25 := by
      apply TuplaG.lengthSq_of_sum
      simp [TuplaG.prefixSum, Finset.sum_range_succ, TuplaG.prodAt]
      decide
    obtain ⟨l, hl, hv⟩ := TuplaG.length_of_lengthSq _ _ h25 (by decide)
    rw [hl]
    congr 1
    apply CInt.ext_val
    rw [hv, show (25 : CInt).val.toNat = 5 * 5 by decide, Nat.sqrt_eq]
    decide

/-- C6, an instance of the amended claim: the `int` tuple `(1,2,2)` has squared length `9` and
length `3`. -/
theorem length_is_floor_sqrt_witness :
    ∃ l : CInt, (⟨![1, 2, 2]⟩ : TuplaG CInt 3).length = .ok l ∧ 0 ≤ l.val ∧
      l.val ^ 2 ≤ (9 : CInt).val ∧ (9 : CInt).val < (l.val + 1) ^ 2 :=
  length_is_floor_sqrt.2.1 3 ⟨![1, 2, 2]⟩ 9 (by
    apply TuplaG.lengthSq_of_sum
    simp [TuplaG.prefixSum, Finset.sum_range_succ, TuplaG.prodAt]
    decide) (by decide)

/-- C6, counterexample: on the `int` tuple `(65536, 0)` the sum of the squares is `2^32`, out
of the range of `int`: the conversion of the `double` sum yields `INT_MIN`, so `lengthSq()`
returns `-2^31`; its square root is a NaN, whose conversion yields `INT_MIN` again, so
`length()` returns `-2^31`, and `length()^2 = 2^62` is not at most `lengthSq()`. -/
theorem length_of_overflowing_tuple :
    ∃ s l : CInt, (⟨![65536, 0]⟩ : TuplaG CInt 2).lengthSq = .ok s ∧
      (⟨![65536, 0]⟩ : TuplaG CInt 2).length = .ok l ∧
      s.val = -2147483648 ∧ l.val = -2147483648 ∧ s.val < l.val ^ 2 := by
  obtain ⟨h1, h2⟩ := TuplaG.length_of_overflow (⟨![65536, 0]⟩ : TuplaG CInt 2) (by
    simp [TuplaG.prefixSum, Finset.sum_range_succ, TuplaG.prodAt]
    decide)
  exact ⟨_, _, h1, h2, rfl, rfl, by rw [CInt.min_val]; norm_num⟩

/-- C9, as amended: for every `int` tuple `v` whose `lengthSq()` returns a value `s > 0`,
`normalized(v)` returns a tuple whose `length()` is `1` when `s = 1` and `0` when `s ≥ 2`
(the factor `1/sqrt(s)` is truncated to `int` before the multiplication). -/
theorem length_normalized_int (n : ℕ) (v res0 : TuplaG CInt n) (s : CInt)
    (h : v.lengthSq = .ok s) (hpos : 0 < s.val) :
    ∃ (r : TuplaG CInt n) (l : CInt), v.normalized res0 = .ok r ∧ r.length = .ok l ∧
      (s.val = 1 → l.val = 1) ∧ (2 ≤ s.val → l.val = 0) := by
  obtain ⟨_, c1, c2⟩ := TuplaG.normalized_cases v res0 s h
  rcases (by omega : s.val = 1 ∨ 2 ≤ s.val) with h1 | h2
  · obtain ⟨l, hl, hv⟩ := TuplaG.length_of_lengthSq v s h (by omega)
    refine ⟨v, l, c1 h1, hl, fun _ => ?_, fun h2 => by omega⟩
    rw [hv, h1]
    decide
  · obtain ⟨l, hl, hv⟩ := TuplaG.length_of_lengthSq (⟨fun _ => 0⟩ : TuplaG CInt n) 0
      TuplaG.lengthSq_zero_tuple (by decide)
    refine ⟨_, l, c2 h2, hl, fun h1 => by omega, fun _ => ?_⟩
    rw [hv]
    decide

/-- C9, an instance of the amended claim: the `int` tuple `(1,0)`, of squared length `1`. -/
theorem length_normalized_int_witness :
    ∃ (r : TuplaG CInt 2) (l : CInt),
      (⟨![1, 0]⟩ : TuplaG CInt 2).normalized ⟨![0, 0]⟩ = .ok r ∧ r.length = .ok l ∧
      ((1 : CInt).val = 1 → l.val = 1) ∧ (2 ≤ (1 : CInt).val → l.val = 0) :=
  length_normalized_int 2 ⟨![1, 0]⟩ ⟨![0, 0]⟩ 1 (by
    apply TuplaG.lengthSq_of_sum
    simp [TuplaG.prefixSum, Finset.sum_range_succ, TuplaG.prodAt]
    decide) (by decide)

/-- C9, counterexample: the `int` tuple `(1,1)` has `lengthSq() = 2 > 0`, `normalized()`
returns the tuple `(0,0)`, and the length of that tuple is `0`, not `1`. -/
theorem length_normalized_one_one :
    (⟨![1, 1]⟩ : TuplaG CInt 2).lengthSq = .ok 2 ∧ 0 < (2 : CInt).val ∧
    (⟨![1, 1]⟩ : TuplaG CInt 2).normalized ⟨![7, 7]⟩ = .ok ⟨![0, 0]⟩ ∧
    (⟨![0, 0]⟩ : TuplaG CInt 2).length = .ok 0 ∧ (0 : CInt) ≠ 1 := by
  have h2 : (⟨![1, 1]⟩ : TuplaG CInt 2).lengthSq = .ok 2 := by
    apply TuplaG.lengthSq_of_sum
    simp [TuplaG.prefixSum, Finset.sum_range_succ, TuplaG.prodAt]
    decide
  have hz : (⟨fun _ => 0⟩ : TuplaG CInt 2) = ⟨![0, 0]⟩ :=
    TuplaG.ext_coo (fun j => by fin_cases j <;> rfl)
  refine ⟨h2, by decide, ?_, ?_, by decide⟩
  · rw [(TuplaG.normalized_cases _ _ 2 h2).2.2 (by decide), hz]
  · obtain ⟨l, hl, hv⟩ := TuplaG.length_of_lengthSq (⟨fun _ => 0⟩ : TuplaG CInt 2) 0
      TuplaG.lengthSq_zero_tuple (by decide)
    rw [← hz, hl]
    congr 1
    apply CInt.ext_val
    rw [hv]
    decide

/-- C10, as amended: for every `int` tuple `v` whose `lengthSq()` returns a value `s > 0`:
when `s = 1`, `normalized(v)` returns `v` itself, which can be normalized again with the same
result; when `s ≥ 2`, `normalized(v)` returns the zero tuple, and normalizing that tuple fails
the assertion. -/
theorem normalized_twice_int (n : ℕ) (v res0 res1 : TuplaG CInt n) (s : CInt)
    (h : v.lengthSq = .ok s) (hpos : 0 < s.val) :
    ∃ r : TuplaG CInt n, v.normalized res0 = .ok r ∧
      (s.val = 1 → r = v ∧ r.normalized res1 = .ok r) ∧
      (2 ≤ s.val → r = ⟨fun _ => 0⟩ ∧ r.normalized res1 = .error .assertion) := by
  obtain ⟨_, c1, c2⟩ := TuplaG.normalized_cases v res0 s h
  rcases (by omega : s.val = 1 ∨ 2 ≤ s.val) with h1 | h2
  · exact ⟨v, c1 h1, fun _ => ⟨rfl, (TuplaG.normalized_cases v res1 s h).2.1 h1⟩,
      fun h2 => by omega⟩
  · exact ⟨_, c2 h2, fun h1 => by omega, fun _ => ⟨rfl,
      (TuplaG.normalized_cases _ res1 0 TuplaG.lengthSq_zero_tuple).1 (by decide)⟩⟩

/-- C10, an instance of the amended claim: the `int` tuple `(0,1,0)`, of squared length `1`. -/
theorem normalized_twice_int_witness :
    ∃ r : TuplaG CInt 3, (⟨![0, 1, 0]⟩ : TuplaG CInt 3).normalized ⟨![0, 0, 0]⟩ = .ok r ∧
      ((1 : CInt).val = 1 → r = ⟨![0, 1, 0]⟩ ∧ r.normalized ⟨![5, 5, 5]⟩ = .ok r) ∧
      (2 ≤ (1 : CInt).val →
        r = ⟨fun _ => 0⟩ ∧ r.normalized ⟨![5, 5, 5]⟩ = .error .assertion) :=
  normalized_twice_int 3 ⟨![0, 1, 0]⟩ ⟨![0, 0, 0]⟩ ⟨![5, 5, 5]⟩ 1 (by
    apply TuplaG.lengthSq_of_sum
    simp [TuplaG.prefixSum, Finset.sum_range_succ, TuplaG.prodAt]
    decide) (by decide)

/-- C10, counterexample: the `int` tuple `(1,1)` has `lengthSq() = 2 > 0`; `normalized()`
returns `(0,0)`, and normalizing `(0,0)` fails the assertion instead of returning `(0,0)`. -/
theorem normalized_twice_one_one :
    (⟨![1, 1]⟩ : TuplaG CInt 2).lengthSq = .ok 2 ∧ 0 < (2 : CInt).val ∧
    (⟨![1, 1]⟩ : TuplaG CInt 2).normalized ⟨![7, 7]⟩ = .ok ⟨![0, 0]⟩ ∧
    (⟨![0, 0]⟩ : TuplaG CInt 2).normalized ⟨![7, 7]⟩ = .error .assertion := by
  have h2 : (⟨![1, 1]⟩ : TuplaG CInt 2).lengthSq = .ok 2 := by
    apply TuplaG.lengthSq_of_sum
    simp [TuplaG.prefixSum, Finset.sum_range_succ, TuplaG.prodAt]
    decide
  have hz : (⟨fun _ => 0⟩ : TuplaG CInt 2) = ⟨![0, 0]⟩ :=
    TuplaG.ext_coo (fun j => by fin_cases j <;> rfl)
  refine ⟨h2, by decide, ?_, ?_⟩
  · rw [(TuplaG.normalized_cases _ _ 2 h2).2.2 (by decide), hz]
  · rw [← hz]
    exact (TuplaG.normalized_cases _ _ 0 TuplaG.lengthSq_zero_tuple).1 (by decide)

/-- C11: on an `N`-component tuple, over every scalar type, the read only access `v(i)` and
the read-write access `v(i)` fail their assertion if and only if `i ≥ N`; for every `i < N`
both return, and yield the `i`-th stored component. -/
theorem indexed_access_fails_iff (T : Type) (n : ℕ) (v : TuplaG T n) (i : ℕ) :
    (v.opCall i = .error .assertion ↔ n ≤ i) ∧
    (v.opCallRef i = .error .assertion ↔ n ≤ i) ∧
    (∀ h : i < n, v.opCall i = .ok (v.coo ⟨i, h⟩) ∧
      ∃ r, v.opCallRef i = .ok r ∧ r.1 = v.coo ⟨i, h⟩) := by
  refine ⟨⟨fun h => ?_, fun h => TuplaG.opCall_ge v h⟩,
    ⟨fun h => ?_, fun h => TuplaG.opCallRef_ge v h⟩,
    fun h => ⟨TuplaG.opCall_lt v h, _, TuplaG.opCallRef_lt v h, rfl⟩⟩
  · by_contra hc
    rw [TuplaG.opCall_lt v (Nat.lt_of_not_le hc)] at h
    cases h
  · by_contra hc
    rw [TuplaG.opCallRef_lt v (Nat.lt_of_not_le hc)] at h
    cases h

/-- C12: assigning a 4-component tuple `q` to a 3-component tuple, over every scalar type,
yields the tuple with components `q(0)`, `q(1)`, `q(2)`, the same for every previous content
of the receiver and every `q` with these three components; and with `int` scalars, assigning
the tuple that `TuplaG4(1,2,3,4)` constructs yields the tuple that `TuplaG3(1,2,3)`
constructs. -/
theorem assign_four_to_three :
    (∀ (T : Type) (this0 this1 : TuplaG3 T) (q q' : TuplaG T 4),
      ∃ r : TuplaG3 T, TuplaG3.opAssign4 this0 q = .ok r ∧
        r.coo 0 = q.coo 0 ∧ r.coo 1 = q.coo 1 ∧ r.coo 2 = q.coo 2 ∧
        (q'.coo 0 = q.coo 0 → q'.coo 1 = q.coo 1 → q'.coo 2 = q.coo 2 →
          TuplaG3.opAssign4 this1 q' = .ok r)) ∧
    (∀ (j : TuplaG4 CInt) (this0 j' : TuplaG3 CInt),
      ∃ (q : TuplaG4 CInt) (r : TuplaG3 CInt), TuplaG4.ctor 1 2 3 4 j = .ok q ∧
        TuplaG3.opAssign4 this0 q = .ok r ∧ TuplaG3.ctor 1 2 3 j' = .ok r) := by
  constructor
  · intro T this0 this1 q q'
    refine ⟨_, TuplaG3.opAssign4_eq this0 q, rfl, rfl, rfl, fun h0 h1 h2 => ?_⟩
    rw [TuplaG3.opAssign4_eq, h0, h1, h2]
  · intro j this0 j'
    refine ⟨_, _, TuplaG4.ctor4_eq 1 2 3 4 j, TuplaG3.opAssign4_eq this0 _, ?_⟩
    rw [TuplaG3.ctor3_eq]
    rfl

/-- C12, an instance: two 4-component `int` tuples that differ in the last component only,
assigned to receivers with different contents, yield the same tuple. -/
theorem assign_four_to_three_witness :
    ∃ r : TuplaG3 CInt, TuplaG3.opAssign4 ⟨![0, 0, 0]⟩ (⟨![1, 2, 3, 4]⟩ : TuplaG CInt 4) = .ok r ∧
      TuplaG3.opAssign4 ⟨![7, 8, 9]⟩ (⟨![1, 2, 3, 5]⟩ : TuplaG CInt 4) = .ok r := by
  obtain ⟨r, h, _, _, _, h'⟩ := assign_four_to_three.1 CInt ⟨![0, 0, 0]⟩ ⟨![7, 8, 9]⟩
    ⟨![1, 2, 3, 4]⟩ ⟨![1, 2, 3, 5]⟩
  exact ⟨r, h, h' (by simp) (by simp) (by simp)⟩

/-- C13: for all `int` tuples `a`, `b`, `c` of one dimension (the arithmetic wrapping
around), `(a+b)+c` and `a+(b+c)` both return, and return the same tuple. -/
theorem add_associative (n : ℕ) (a b c j1 j2 j3 j4 : TuplaG CInt n) :
    ∃ r : TuplaG CInt n, (a.add b j1 >>= fun ab => ab.add c j2) = .ok r ∧
      (b.add c j3 >>= fun bc => a.add bc j4) = .ok r := by
  refine ⟨⟨fun j => Scalar.add (Scalar.add (a.coo j) (b.coo j)) (c.coo j)⟩, ?_, ?_⟩
  · rw [TuplaG.add_eq, ok_bind, TuplaG.add_eq]
  · rw [TuplaG.add_eq, ok_bind, TuplaG.add_eq]
    exact congrArg Except.ok (TuplaG.ext_coo (fun j => (CInt.add_assoc_int _ _ _).symm))

/-- C15, as amended: for all `int` tuples `v`, `w` of one dimension and every `int` scalar `s`
(the arithmetic wrapping around), the left scalar products `s*(v+w)` and `s*v + s*w` both
return, and return the same tuple: its component `i` is `s*(v(i)+w(i))`, the integer
`s*(v(i)+w(i))` reduced to the range of `int`. -/
theorem scalar_mul_distributes (n : ℕ) (s : CInt) (v w j1 j2 j3 j4 j5 : TuplaG CInt n) :
    ∃ r : TuplaG CInt n,
      (v.add w j1 >>= fun vw => TuplaG.scalarMul s vw j2) = .ok r ∧
      (TuplaG.scalarMul s v j3 >>= fun sv =>
        TuplaG.scalarMul s w j4 >>= fun sw => sv.add sw j5) = .ok r ∧
      ∀ i : Fin n, r.coo i = Scalar.mul s (Scalar.add (v.coo i) (w.coo i)) ∧
        (r.coo i).val = wrap32 (s.val * ((v.coo i).val + (w.coo i).val)) := by
  refine ⟨⟨fun j => Scalar.mul s (Scalar.add (v.coo j) (w.coo j))⟩, ?_, ?_, fun i => ⟨rfl, ?_⟩⟩
  · rw [TuplaG.add_eq, ok_bind, TuplaG.scalarMul_eq]
  · rw [TuplaG.scalarMul_eq, ok_bind, TuplaG.scalarMul_eq, ok_bind, TuplaG.add_eq]
    exact congrArg Except.ok (TuplaG.ext_coo (fun j => (CInt.mul_add_int _ _ _).symm))
  · show (Scalar.mul s (Scalar.add (v.coo i) (w.coo i))).val = _
    rw [CInt.mul_val, CInt.add_val]
    exact CInt.wrap32_congr (Int.ModEq.mul_left _ (CInt.wrap32_modEq _))

/-- C15, counterexample: `s = 0.1` (the `double` `3602879701896397·2^-55`), `v = (0.1, 0)` and
`w = (0.5, 0)` are `double` tuples.  The first component of `s*(v+w)` is
`1080863910568919·2^-54` (printed `0.06`), the first component of `s*v + s*w` is
`8646911284551353·2^-57` (printed `0.060000000000000005`), one unit in the last place
above. -/
theorem scalar_mul_not_distributive_in_double :
    Dbl.IsDouble (3602879701896397 / 2 ^ 55) ∧ Dbl.IsDouble (1 / 2) ∧
    ((⟨![⟨3602879701896397 / 2 ^ 55⟩, ⟨0⟩]⟩ : TuplaG CDouble 2).add ⟨![⟨1 / 2⟩, ⟨0⟩]⟩
        ⟨![⟨0⟩, ⟨0⟩]⟩ >>= fun vw =>
      TuplaG.scalarMul ⟨3602879701896397 / 2 ^ 55⟩ vw ⟨![⟨0⟩, ⟨0⟩]⟩)
      = .ok ⟨![⟨1080863910568919 / 2 ^ 54⟩, ⟨0⟩]⟩ ∧
    (TuplaG.scalarMul ⟨3602879701896397 / 2 ^ 55⟩
        (⟨![⟨3602879701896397 / 2 ^ 55⟩, ⟨0⟩]⟩ : TuplaG CDouble 2) ⟨![⟨0⟩, ⟨0⟩]⟩ >>= fun sv =>
      TuplaG.scalarMul ⟨3602879701896397 / 2 ^ 55⟩
        (⟨![⟨1 / 2⟩, ⟨0⟩]⟩ : TuplaG CDouble 2) ⟨![⟨0⟩, ⟨0⟩]⟩ >>= fun sw =>
      sv.add sw ⟨![⟨0⟩, ⟨0⟩]⟩)
      = .ok ⟨![⟨8646911284551353 / 2 ^ 57⟩, ⟨0⟩]⟩ ∧
    (1080863910568919 / 2 ^ 54 : ℚ) < 8646911284551353 / 2 ^ 57 := by
  have d1 : Dbl.IsDouble (3602879701896397 / 2 ^ 55) := by
    have h := Dbl.rnd_eq_self_of_repr 3602879701896397 (-55) (by norm_num)
    unfold Dbl.IsDouble
    norm_num at h ⊢
    exact h
  have d2 : Dbl.IsDouble (1 / 2) := by
    have h := Dbl.rnd_eq_self_of_repr 1 (-1) (by norm_num)
    unfold Dbl.IsDouble
    norm_num at h ⊢
    exact h
  have hz : Dbl.rnd 0 = 0 := by simp [Dbl.rnd]
  have hadd : Dbl.rnd (3602879701896397 / 2 ^ 55 + 1 / 2) = 5404319552844595 / 2 ^ 53 := by
    have h := Dbl.rnd_eq_of_near (3602879701896397 / 2 ^ 55 + 1 / 2) (-1) 5404319552844595
      (by rw [abs_of_pos (by positivity)]; norm_num) (by norm_num [abs_lt])
      (by norm_num [abs_lt])
    rw [h]
    norm_num
  have hl : Dbl.rnd (3602879701896397 / 2 ^ 55 * (5404319552844595 / 2 ^ 53))
      = 1080863910568919 / 2 ^ 54 := by
    have h := Dbl.rnd_eq_of_near (3602879701896397 / 2 ^ 55 * (5404319552844595 / 2 ^ 53)) (-5)
      8646911284551352 (by rw [abs_of_pos (by positivity)]; norm_num) (by norm_num [abs_lt])
      (by norm_num [abs_lt])
    rw [h]
    norm_num
  have hsv : Dbl.rnd (3602879701896397 / 2 ^ 55 * (3602879701896397 / 2 ^ 55))
      = 1441151880758559 / 2 ^ 57 := by
    have h := Dbl.rnd_eq_of_near (3602879701896397 / 2 ^ 55 * (3602879701896397 / 2 ^ 55)) (-7)
      5764607523034236 (by rw [abs_of_pos (by positivity)]; norm_num) (by norm_num [abs_lt])
      (by norm_num [abs_lt])
    rw [h]
    norm_num
  have hsw : Dbl.rnd (3602879701896397 / 2 ^ 55 * (1 / 2)) = 3602879701896397 / 2 ^ 56 := by
    have h := Dbl.rnd_eq_self_of_repr 3602879701896397 (-56) (by norm_num)
    norm_num at h ⊢
    exact h
  have hr : Dbl.rnd (1441151880758559 / 2 ^ 57 + 3602879701896397 / 2 ^ 56)
      = 8646911284551353 / 2 ^ 57 := by
    have h := Dbl.rnd_eq_of_near (1441151880758559 / 2 ^ 57 + 3602879701896397 / 2 ^ 56) (-5)
      8646911284551353 (by rw [abs_of_pos (by positivity)]; norm_num) (by norm_num [abs_lt])
      (by norm_num [abs_lt])
    rw [h]
    norm_num
  have hs0 : Dbl.rnd (3602879701896397 / 2 ^ 55 * 0) = 0 := by rw [mul_zero, hz]
  have h00 : Dbl.rnd (0 + 0) = 0 := by rw [add_zero, hz]
  refine ⟨d1, d2, ?_, ?_, by norm_num⟩
  · rw [TuplaG.add_eq, ok_bind, TuplaG.scalarMul_eq]
    refine congrArg Except.ok (TuplaG.ext_coo (fun j => ?_))
    fin_cases j
    · show (⟨Dbl.rnd (3602879701896397 / 2 ^ 55 *
        Dbl.rnd (3602879701896397 / 2 ^ 55 + 1 / 2))⟩ : CDouble) = ⟨1080863910568919 / 2 ^ 54⟩
      rw [hadd, hl]
    · show (⟨Dbl.rnd (3602879701896397 / 2 ^ 55 * Dbl.rnd (0 + 0))⟩ : CDouble) = ⟨0⟩
      rw [h00, hs0]
  · rw [TuplaG.scalarMul_eq, ok_bind, TuplaG.scalarMul_eq, ok_bind, TuplaG.add_eq]
    refine congrArg Except.ok (TuplaG.ext_coo (fun j => ?_))
    fin_cases j
    · show (⟨Dbl.rnd (Dbl.rnd (3602879701896397 / 2 ^ 55 * (3602879701896397 / 2 ^ 55)) +
        Dbl.rnd (3602879701896397 / 2 ^ 55 * (1 / 2)))⟩ : CDouble)
          = ⟨8646911284551353 / 2 ^ 57⟩
      rw [hsv, hsw, hr]
    · show (⟨Dbl.rnd (Dbl.rnd (3602879701896397 / 2 ^ 55 * 0) +
        Dbl.rnd (3602879701896397 / 2 ^ 55 * 0))⟩ : CDouble) = ⟨0⟩
      rw [hs0, h00]

/-- C16: over every scalar type and dimension, `a+b`, `a-b` and `-a` return, and for every
`i < N` component `i` of the result is `a(i)+b(i)`, `a(i)-b(i)` and `-(a(i))`. -/
theorem add_sub_neg_elementwise (T : Type) [Scalar T] (n : ℕ) (a b res0 : TuplaG T n) :
    (∃ r : TuplaG T n, a.add b res0 = .ok r ∧
      ∀ i : Fin n, r.coo i = Scalar.add (a.coo i) (b.coo i)) ∧
    (∃ r : TuplaG T n, a.sub b res0 = .ok r ∧
      ∀ i : Fin n, r.coo i = Scalar.sub (a.coo i) (b.coo i)) ∧
    (∃ r : TuplaG T n, a.neg res0 = .ok r ∧ ∀ i : Fin n, r.coo i = Scalar.neg (a.coo i)) :=
  ⟨⟨_, TuplaG.add_eq a b res0, fun _ => rfl⟩, ⟨_, TuplaG.sub_eq a b res0, fun _ => rfl⟩,
    ⟨_, TuplaG.neg_eq a res0, fun _ => rfl⟩⟩

/-- C17: over every scalar type and dimension, `v*s` and `s*v` return the tuples with
components `v(i)*s` and `s*v(i)`; `v/s` returns a tuple `r` exactly when every `v(i)/s` is
defined and is `r(i)`; and with `int` scalars `s*v` and `v*s` return the same tuple. -/
theorem scalar_mul_div_elementwise :
    (∀ (T : Type) [Scalar T] (n : ℕ) (v res0 : TuplaG T n) (s : T),
      (∃ r : TuplaG T n, v.mulScalar s res0 = .ok r ∧
        ∀ i : Fin n, r.coo i = Scalar.mul (v.coo i) s) ∧
      (∃ r : TuplaG T n, TuplaG.scalarMul s v res0 = .ok r ∧
        ∀ i : Fin n, r.coo i = Scalar.mul s (v.coo i)) ∧
      (∀ r : TuplaG T n, v.divScalar s res0 = .ok r ↔
        ∀ i : Fin n, Scalar.div (v.coo i) s = .ok (r.coo i))) ∧
    (∀ (n : ℕ) (v res0 res1 : TuplaG CInt n) (s : CInt),
      ∃ r : TuplaG CInt n, TuplaG.scalarMul s v res0 = .ok r ∧ v.mulScalar s res1 = .ok r) := by
  constructor
  · intro T _ n v res0 s
    exact ⟨⟨_, TuplaG.mulScalar_eq v s res0, fun _ => rfl⟩,
      ⟨_, TuplaG.scalarMul_eq s v res0, fun _ => rfl⟩,
      fun r => TuplaG.divScalar_eq_ok_iff v s res0 r⟩
  · intro n v res0 res1 s
    refine ⟨_, TuplaG.scalarMul_eq s v res0, ?_⟩
    rw [TuplaG.mulScalar_eq]
    exact congrArg Except.ok (TuplaG.ext_coo (fun j => CInt.mul_comm_int _ _))

/-- C17, an instance of the division: the `int` tuple `(7,-7)` divided by `2` is `(3,-3)`. -/
theorem scalar_mul_div_elementwise_witness :
    (⟨![7, CInt.wrap (-7)]⟩ : TuplaG CInt 2).divScalar 2 ⟨![0, 0]⟩
      = .ok ⟨![3, CInt.wrap (-3)]⟩ :=
  ((scalar_mul_div_elementwise.1 CInt 2 ⟨![7, CInt.wrap (-7)]⟩ ⟨![0, 0]⟩ 2).2.2
    ⟨![3, CInt.wrap (-3)]⟩).2 (fun i => by fin_cases i <;> rfl)

/-- C18: over every scalar type, `TuplaG2(c0,c1)`, `TuplaG3(c0,c1,c2)` and
`TuplaG4(c0,c1,c2,c3)` construct, on any initial contents, the tuple whose component `i` is
`ci`. -/
theorem positional_constructors (T : Type) (c0 c1 c2 c3 : T) (t2 : TuplaG2 T) (t3 : TuplaG3 T)
    (t4 : TuplaG4 T) :
    (∃ r : TuplaG2 T, TuplaG2.ctor c0 c1 t2 = .ok r ∧ r.coo 0 = c0 ∧ r.coo 1 = c1) ∧
    (∃ r : TuplaG3 T, TuplaG3.ctor c0 c1 c2 t3 = .ok r ∧
      r.coo 0 = c0 ∧ r.coo 1 = c1 ∧ r.coo 2 = c2) ∧
    (∃ r : TuplaG4 T, TuplaG4.ctor c0 c1 c2 c3 t4 = .ok r ∧
      r.coo 0 = c0 ∧ r.coo 1 = c1 ∧ r.coo 2 = c2 ∧ r.coo 3 = c3) :=
  ⟨⟨_, TuplaG2.ctor2_eq c0 c1 t2, rfl, rfl⟩, ⟨_, TuplaG3.ctor3_eq c0 c1 c2 t3, rfl, rfl, rfl⟩,
    ⟨_, TuplaG4.ctor4_eq c0 c1 c2 c3 t4, rfl, rfl, rfl, rfl⟩⟩

/-- C19: over every scalar type, constructing or assigning a `TuplaG2`, `TuplaG3` or
`TuplaG4` from a generic tuple `g` of the same dimension returns `g` itself (every component
`i` is `g(i)`), whatever the receiver held before. -/
theorem copy_from_generic (T : Type) (g2 : TuplaG T 2) (g3 : TuplaG T 3) (g4 : TuplaG T 4)
    (t2 : TuplaG2 T) (t3 : TuplaG3 T) (t4 : TuplaG4 T) :
    TuplaG2.ctorCopy g2 t2 = .ok g2 ∧ TuplaG2.opAssign t2 g2 = .ok g2 ∧
    TuplaG3.ctorCopy g3 t3 = .ok g3 ∧ TuplaG3.opAssign t3 g3 = .ok g3 ∧
    TuplaG4.ctorCopy g4 t4 = .ok g4 ∧ TuplaG4.opAssign t4 g4 = .ok g4 :=
  ⟨TuplaG2.ctorCopy2_eq g2 t2, TuplaG2.opAssign2_eq t2 g2, TuplaG3.ctorCopy3_eq g3 t3,
    TuplaG3.opAssign3_eq t3 g3, TuplaG4.ctorCopy4_eq g4 t4, TuplaG4.opAssign4to4_eq t4 g4⟩

/-- C20: over every scalar type, the buffer view of an `N`-component tuple `v` is a sequence
of exactly `N` scalars whose element `i` is `v(i)`, and there is no element `p[N]`; and with
`int` scalars the view of the tuple that `TuplaG3(1,2,3)` constructs is `[1,2,3]`. -/
theorem buffer_view_is_components :
    (∀ (T : Type) (n : ℕ) (v : TuplaG T n), ∃ l : List T, v.bufferView = .ok l ∧
      l.length = n ∧ v.ptrRead n = .error .undefined ∧
      ∀ (i : ℕ) (h : i < n), l[i]? = some (v.coo ⟨i, h⟩) ∧ v.opCall i = .ok (v.coo ⟨i, h⟩)) ∧
    (∀ this0 : TuplaG3 CInt, ∃ v : TuplaG3 CInt,
      TuplaG3.ctor 1 2 3 this0 = .ok v ∧ v.bufferView = .ok [1, 2, 3]) := by
  constructor
  · intro T n v
    refine ⟨_, TuplaG.bufferView_eq v, List.length_ofFn _, by simp [TuplaG.ptrRead],
      fun i h => ⟨?_, TuplaG.opCall_lt v h⟩⟩
    rw [List.getElem?_eq_getElem (by rw [List.length_ofFn]; exact h), List.getElem_ofFn]
  · intro this0
    refine ⟨_, TuplaG3.ctor3_eq 1 2 3 this0, ?_⟩
    rw [TuplaG.bufferView_eq]
    rfl

/-- C21: over every scalar type and dimension `N`, the formatter appends to the stream `(`,
the renderings of `v(0)`, ..., `v(N-1)` in index order with one `,` between consecutive
renderings, and `)`, and nothing else: for `N = 1` the text `(r0)`, for `N = 3` the text
`(r0,r1,r2)`; the `int` tuple `(1,2,3)` is rendered as the string `(1,2,3)`. -/
theorem formatter_renders :
    (∀ (T : Type) (n : ℕ) (render : T → String) (os : String) (v : TuplaG T n),
      TuplaG.opShiftLeft render os v = .ok (os ++ "(" ++
        ",".intercalate (List.ofFn (fun i : Fin n => render (v.coo i))) ++ ")")) ∧
    (∀ (T : Type) (render : T → String) (os : String) (v : TuplaG T 1),
      TuplaG.opShiftLeft render os v = .ok (os ++ "(" ++ render (v.coo 0) ++ ")")) ∧
    (∀ (T : Type) (render : T → String) (os : String) (v : TuplaG T 3),
      TuplaG.opShiftLeft render os v = .ok (os ++ "(" ++ render (v.coo 0) ++ "," ++
        render (v.coo 1) ++ "," ++ render (v.coo 2) ++ ")")) ∧
    TuplaG.opShiftLeft CInt.render "" (⟨![1, 2, 3]⟩ : TuplaG CInt 3) = .ok "(1,2,3)" := by
  refine ⟨fun T n render os v => TuplaG.opShiftLeft_eq render os v, ?_, ?_, ?_⟩
  · intro T render os v
    rw [TuplaG.opShiftLeft_eq]
    simp [String.intercalate, String.intercalate.go]
  · intro T render os v
    rw [TuplaG.opShiftLeft_eq]
    simp [String.intercalate, String.intercalate.go, String.append_assoc]
  · rfl

/-- C24: for 3-component `int` tuples `a`, `b` on which no `int` operation of `a.cross(b)`
overflows, `a.cross(b)` is the zero tuple if and only if there are integers `s`, `t`, not both
zero, with `s*a = t*b` componentwise; and `a.cross(a)` and `a.cross(a*s)` are the zero tuple
for every `int` tuple `a` and every `int` scalar `s` (wrap-around included). -/
theorem cross_zero_iff_parallel :
    (∀ a b this0 c : TuplaG3 CInt, TuplaG3.CrossExact a b → a.cross b this0 = .ok c →
      (c = ⟨fun _ => 0⟩ ↔
        ∃ s t : ℤ, (s ≠ 0 ∨ t ≠ 0) ∧ ∀ i : Fin 3, s * (a.coo i).val = t * (b.coo i).val)) ∧
    (∀ a this0 : TuplaG3 CInt, a.cross a this0 = .ok ⟨fun _ => 0⟩) ∧
    (∀ (a res0 this0 : TuplaG3 CInt) (s : CInt), ∃ m : TuplaG3 CInt,
      a.mulScalar s res0 = .ok m ∧ a.cross m this0 = .ok ⟨fun _ => 0⟩) := by
  refine ⟨fun a b this0 c hex hc => ?_, TuplaG3.cross_self,
    fun a res0 this0 s => ⟨_, TuplaG.mulScalar_eq a s res0, TuplaG3.cross_mulScalar a this0 s⟩⟩
  obtain ⟨e0, e1, e2⟩ := TuplaG3.coo_of_cross_eq hc hex
  have hz : c = ⟨fun _ => 0⟩ ↔
      (c.coo 0).val = 0 ∧ (c.coo 1).val = 0 ∧ (c.coo 2).val = 0 := by
    constructor
    · intro h
      rw [h]
      exact ⟨rfl, rfl, rfl⟩
    · rintro ⟨h0, h1, h2⟩
      refine TuplaG.ext_coo (fun j => ?_)
      fin_cases j
      · exact (CInt.eq_zero_iff_val _).mpr h0
      · exact (CInt.eq_zero_iff_val _).mpr h1
      · exact (CInt.eq_zero_iff_val _).mpr h2
  rw [hz, e0, e1, e2, cross_zero_iff_dependent]
  constructor
  · rintro ⟨s, t, hst, h0, h1, h2⟩
    refine ⟨s, t, hst, fun i => ?_⟩
    fin_cases i
    · exact h0
    · exact h1
    · exact h2
  · rintro ⟨s, t, hst, h⟩
    exact ⟨s, t, hst, h 0, h 1, h 2⟩

/-- C24, an instance: `(1,2,3).cross((2,4,6))` is the zero tuple and `2*(1,2,3) = 1*(2,4,6)`. -/
theorem cross_zero_iff_parallel_witness :
    ((⟨![0, 0, 0]⟩ : TuplaG3 CInt) = ⟨fun _ => 0⟩ ↔
      ∃ s t : ℤ, (s ≠ 0 ∨ t ≠ 0) ∧ ∀ i : Fin 3,
        s * ((⟨![1, 2, 3]⟩ : TuplaG3 CInt).coo i).val
          = t * ((⟨![2, 4, 6]⟩ : TuplaG3 CInt).coo i).val) :=
  cross_zero_iff_parallel.1 ⟨![1, 2, 3]⟩ ⟨![2, 4, 6]⟩ ⟨![9, 9, 9]⟩ ⟨![0, 0, 0]⟩ (by decide)
    (by rw [TuplaG3.cross_eq]; exact congrArg Except.ok (TuplaG.ext_coo (fun j => by
      fin_cases j <;> exact CInt.ext_val (by decide))))

/-- C25: over every scalar type, constructing an `N`-component tuple from an array `org` of
at least `N` elements returns the tuple whose component `i` is `org[i]`, and its buffer view
is the first `N` elements of `org`; and constructing a tuple from the buffer view of a tuple
`v` returns `v`. -/
theorem array_constructor_copies :
    (∀ (T : Type) (n : ℕ) (org : List T) (this0 : TuplaG T n), n ≤ org.length →
      ∃ r : TuplaG T n, TuplaG.ctorArray org this0 = .ok r ∧
        (∀ (i : ℕ) (h : i < n), org[i]? = some (r.coo ⟨i, h⟩)) ∧
        r.bufferView = .ok (org.take n)) ∧
    (∀ (T : Type) (n : ℕ) (v this0 : TuplaG T n),
      ∃ l : List T, v.bufferView = .ok l ∧ TuplaG.ctorArray l this0 = .ok v) := by
  constructor
  · intro T n org this0 hlen
    refine ⟨_, TuplaG.ctorArray_eq org hlen this0, fun i h => ?_, ?_⟩
    · rw [List.getElem?_eq_getElem (Nat.lt_of_lt_of_le h hlen)]
      rfl
    · rw [TuplaG.bufferView_eq, TuplaG.ofFn_get_eq_take org hlen]
  · intro T n v this0
    refine ⟨_, TuplaG.bufferView_eq v, ?_⟩
    rw [TuplaG.ctorArray_eq (List.ofFn v.coo) (by rw [List.length_ofFn]) this0]
    exact congrArg Except.ok (TuplaG.ext_coo (fun j => by simp))

/-- C25, an instance: the 2-component `int` tuple built from the array `[5,6,7]`. -/
theorem array_constructor_copies_witness :
    ∃ r : TuplaG CInt 2, TuplaG.ctorArray [5, 6, 7] (⟨![0, 0]⟩ : TuplaG CInt 2) = .ok r ∧
      (∀ (i : ℕ) (h : i < 2), ([5, 6, 7] : List CInt)[i]? = some (r.coo ⟨i, h⟩)) ∧
      r.bufferView = .ok (([5, 6, 7] : List CInt).take 2) :=
  array_constructor_copies.1 CInt 2 [5, 6, 7] ⟨![0, 0]⟩ (by decide)

/-- C26: for every `int` tuple `v` whose `lengthSq()` returns a value `s` (no overflow),
`normalized()` returns `v` unchanged when `s = 1`, and the all-zero tuple when `s > 1`. -/
theorem normalized_int_unit_or_zero (n : ℕ) (v res0 : TuplaG CInt n) (s : CInt)
    (h : v.lengthSq = .ok s) :
    (s.val = 1 → v.normalized res0 = .ok v) ∧
    (1 < s.val → v.normalized res0 = .ok ⟨fun _ => 0⟩) := by
  obtain ⟨_, c1, c2⟩ := TuplaG.normalized_cases v res0 s h
  exact ⟨c1, fun h2 => c2 (by omega)⟩

/-- C26, an instance: the `int` tuple `(2,0)`, of squared length `4`. -/
theorem normalized_int_unit_or_zero_witness :
    ((4 : CInt).val = 1 →
      (⟨![2, 0]⟩ : TuplaG CInt 2).normalized ⟨![9, 9]⟩ = .ok ⟨![2, 0]⟩) ∧
    (1 < (4 : CInt).val →
      (⟨![2, 0]⟩ : TuplaG CInt 2).normalized ⟨![9, 9]⟩ = .ok ⟨fun _ => 0⟩) :=
  normalized_int_unit_or_zero 2 ⟨![2, 0]⟩ ⟨![9, 9]⟩ 4 (by
    apply TuplaG.lengthSq_of_sum
    simp [TuplaG.prefixSum, Finset.sum_range_succ, TuplaG.prodAt]
    decide)

/-- C27 (Lagrange identity): for 3-component `int` tuples `a`, `b` on which no `int` operation
of `a.cross(b)` overflows and for which `lengthSq(a)`, `lengthSq(b)` and
`lengthSq(a.cross(b))` return values `A`, `B`, `L` without overflow (the three values are not
negative: a conversion that overflows yields `INT_MIN`), `dot(a,b)` returns a value `d` with
`L + d*d = A*B`, both over the integers and in `int` arithmetic. -/
theorem lagrange_identity (a b this0 c : TuplaG3 CInt) (A B L : CInt)
    (hex : TuplaG3.CrossExact a b) (hc : a.cross b this0 = .ok c)
    (hA : a.lengthSq = .ok A) (hB : b.lengthSq = .ok B) (hL : c.lengthSq = .ok L)
    (hA0 : 0 ≤ A.val) (hB0 : 0 ≤ B.val) (hL0 : 0 ≤ L.val) :
    ∃ d : CInt, a.dot b = .ok d ∧ L.val + d.val * d.val = A.val * B.val ∧
      Scalar.add L (Scalar.mul d d) = Scalar.mul A B := by
  obtain ⟨e0, e1, e2⟩ := TuplaG3.coo_of_cross_eq hc hex
  have hA' := TuplaG.lengthSq_sum a A hA hA0
  have hB' := TuplaG.lengthSq_sum b B hB hB0
  have hL' := TuplaG.lengthSq_sum c L hL hL0
  have hA2 := hA'
  have hB2 := hB'
  obtain ⟨_, _, _, a3⟩ := TuplaG.prefixSum3 a a
  obtain ⟨_, _, _, b3⟩ := TuplaG.prefixSum3 b b
  obtain ⟨_, _, _, c3⟩ := TuplaG.prefixSum3 c c
  obtain ⟨_, _, _, s3⟩ := TuplaG.prefixSum3 a b
  rw [a3] at hA'
  rw [b3] at hB'
  rw [c3, e0, e1, e2] at hL'
  have hid : L.val + TuplaG.prefixSum a b 3 * TuplaG.prefixSum a b 3 = A.val * B.val := by
    rw [hL', s3, hA', hB']
    ring
  obtain ⟨d, hd, hdv⟩ := TuplaG.dot3_exact_of_lengthSq a b A B hA2 hB2 (by omega)
  refine ⟨d, hd, by rw [hdv]; exact hid, ?_⟩
  apply CInt.ext_val
  simp only [CInt.add_val, CInt.mul_val]
  apply CInt.wrap32_congr
  calc L.val + wrap32 (d.val * d.val) ≡ L.val + d.val * d.val [ZMOD 4294967296] :=
        Int.ModEq.add_left _ (CInt.wrap32_modEq _)
    _ = A.val * B.val := by rw [hdv]; exact hid

/-- C27, an instance: `a = (1,2,3)`, `b = (4,5,6)`, `a.cross(b) = (-3,6,-3)`;
`54 + 32*32 = 14*77`. -/
theorem lagrange_identity_witness :
    ∃ d : CInt, (⟨![1, 2, 3]⟩ : TuplaG3 CInt).dot ⟨![4, 5, 6]⟩ = .ok d ∧
      (54 : CInt).val + d.val * d.val = (14 : CInt).val * (77 : CInt).val ∧
      Scalar.add (54 : CInt) (Scalar.mul d d) = Scalar.mul (14 : CInt) 77 :=
  lagrange_identity ⟨![1, 2, 3]⟩ ⟨![4, 5, 6]⟩ ⟨![0, 0, 0]⟩ ⟨![Scalar.neg 3, 6, Scalar.neg 3]⟩
    14 77 54 (by decide)
    (by rw [TuplaG3.cross_eq]; exact congrArg Except.ok (TuplaG.ext_coo (fun j => by
      fin_cases j <;> exact CInt.ext_val (by decide))))
    (by
      apply TuplaG.lengthSq_of_sum
      simp [TuplaG.prefixSum, Finset.sum_range_succ, TuplaG.prodAt]
      decide)
    (by
      apply TuplaG.lengthSq_of_sum
      simp [TuplaG.prefixSum, Finset.sum_range_succ, TuplaG.prodAt]
      decide)
    (by
      apply TuplaG.lengthSq_of_sum
      simp [TuplaG.prefixSum, Finset.sum_range_succ, TuplaG.prodAt]
      decide)
    (by decide) (by decide) (by decide)

/-- C28, as amended: over every scalar type `dot(a,b)` and `dot(b,a)` are the same result and
`a|b` is the same result as `dot(a,b)`; for `int` tuples `a*s + b` returns a tuple `x`, and when no `int`
operation of `a*s + b` overflows and the three dot products are exact (every product and
partial sum is a `double`, the sum is in the range of `int`), `dot(x,c)`, `dot(a,c)` and
`dot(b,c)` return values with `dot(x,c) = s*dot(a,c) + dot(b,c)`, both over the integers and in
`int` arithmetic. -/
theorem dot_symmetric_bilinear :
    (∀ (T : Type) [Scalar T] (n : ℕ) (a b : TuplaG T n),
      a.dot b = b.dot a ∧ a.opBar b = a.dot b) ∧
    (∀ (n : ℕ) (a b c res0 res1 : TuplaG CInt n) (s : CInt), ∃ x : TuplaG CInt n,
      (a.mulScalar s res0 >>= fun m => m.add b res1) = .ok x ∧
      ((∀ i : Fin n, CInt.InRange ((a.coo i).val * s.val) ∧
          CInt.InRange ((a.coo i).val * s.val + (b.coo i).val)) →
        TuplaG.DotExact x c → TuplaG.DotExact a c → TuplaG.DotExact b c →
        ∃ dx da db : CInt, x.dot c = .ok dx ∧ a.dot c = .ok da ∧ b.dot c = .ok db ∧
          dx.val = s.val * da.val + db.val ∧ dx = Scalar.add (Scalar.mul s da) db)) := by
  refine ⟨fun T _ n a b => ⟨TuplaG.dot_comm a b, rfl⟩, fun n a b c res0 res1 s => ?_⟩
  refine ⟨⟨fun j => Scalar.add (Scalar.mul (a.coo j) s) (b.coo j)⟩, ?_, ?_⟩
  · rw [TuplaG.mulScalar_eq, ok_bind, TuplaG.add_eq]
  · intro hr hx ha hb
    have hxv : ∀ i : Fin n,
        ((⟨fun j => Scalar.add (Scalar.mul (a.coo j) s) (b.coo j)⟩ : TuplaG CInt n).coo i).val
          = (a.coo i).val * s.val + (b.coo i).val := by
      intro i
      show (Scalar.add (Scalar.mul (a.coo i) s) (b.coo i)).val = _
      rw [CInt.add_val, CInt.mul_val, CInt.wrap32_of_inRange (hr i).1.1 (hr i).1.2,
        CInt.wrap32_of_inRange (hr i).2.1 (hr i).2.2]
    have hlin := TuplaG.prefixSum_linear a b c _ s.val hxv
    refine ⟨_, _, _, TuplaG.dot_of_dotExact _ c hx, TuplaG.dot_of_dotExact a c ha,
      TuplaG.dot_of_dotExact b c hb, hlin, ?_⟩
    apply CInt.ext_val
    simp only [CInt.add_val, CInt.mul_val]
    rw [hlin]
    have h1 := hx.2.2.1
    have h2 := hx.2.2.2
    rw [hlin] at h1 h2
    rw [← CInt.wrap32_of_inRange h1 h2]
    apply CInt.wrap32_congr
    exact Int.ModEq.add_right _ (CInt.wrap32_modEq _).symm

/-- C28, an instance of the amended claim: `a = (1,2)`, `s = 3`, `b = (4,5)`, `c = (6,7)`:
`dot((7,11),(6,7)) = 119 = 3*20 + 59`. -/
theorem dot_symmetric_bilinear_witness :
    ∃ dx da db : CInt, (⟨![7, 11]⟩ : TuplaG CInt 2).dot ⟨![6, 7]⟩ = .ok dx ∧
      (⟨![1, 2]⟩ : TuplaG CInt 2).dot ⟨![6, 7]⟩ = .ok da ∧
      (⟨![4, 5]⟩ : TuplaG CInt 2).dot ⟨![6, 7]⟩ = .ok db ∧
      dx.val = (3 : CInt).val * da.val + db.val ∧ dx = Scalar.add (Scalar.mul 3 da) db := by
  obtain ⟨x, hx, h⟩ := dot_symmetric_bilinear.2 2 ⟨![1, 2]⟩ ⟨![4, 5]⟩ ⟨![6, 7]⟩ ⟨![0, 0]⟩
    ⟨![0, 0]⟩ 3
  have hx7 : x = ⟨![7, 11]⟩ := by
    rw [TuplaG.mulScalar_eq, ok_bind, TuplaG.add_eq] at hx
    rw [← Except.ok.inj hx]
    exact TuplaG.ext_coo (fun j => by fin_cases j <;> exact CInt.ext_val (by decide))
  subst hx7
  have hd : ∀ u v : TuplaG CInt 2,
      (∀ i, i < 2 → |TuplaG.prodAt u v i| ≤ 2 ^ 53) →
      (∀ k, k ≤ 2 → |TuplaG.prefixSum u v k| ≤ 2 ^ 53) →
      CInt.InRange (TuplaG.prefixSum u v 2) → TuplaG.DotExact u v := fun u v h1 h2 h3 =>
    ⟨fun i hi => Dbl.isDouble_intCast _ (h1 i hi), fun k hk => Dbl.isDouble_intCast _ (h2 k hk),
      h3⟩
  exact h (by decide)
    (hd _ _ (fun i hi => by interval_cases i <;> simp [TuplaG.prodAt] <;> decide)
      (fun k hk => by
        interval_cases k <;> simp [TuplaG.prefixSum, Finset.sum_range_succ, TuplaG.prodAt] <;>
          decide)
      (by simp [TuplaG.prefixSum, Finset.sum_range_succ, TuplaG.prodAt]; decide))
    (hd _ _ (fun i hi => by interval_cases i <;> simp [TuplaG.prodAt] <;> decide)
      (fun k hk => by
        interval_cases k <;> simp [TuplaG.prefixSum, Finset.sum_range_succ, TuplaG.prodAt] <;>
          decide)
      (by simp [TuplaG.prefixSum, Finset.sum_range_succ, TuplaG.prodAt]; decide))
    (hd _ _ (fun i hi => by interval_cases i <;> simp [TuplaG.prodAt] <;> decide)
      (fun k hk => by
        interval_cases k <;> simp [TuplaG.prefixSum, Finset.sum_range_succ, TuplaG.prodAt] <;>
          decide)
      (by simp [TuplaG.prefixSum, Finset.sum_range_succ, TuplaG.prodAt]; decide))

/-- C28, counterexample: `a = (2^30, -2^30, -(2^30+1))`, `s = 1`, `b = (1,0,0)` and
`c = (2^30+1, 2^30+1, 1)` are `int` tuples, no `int` operation of
`a*s + b = (2^30+1, -2^30, -(2^30+1))` overflows, `dot(a,c)` returns `-(2^30+1)` and `dot(b,c)`
returns `2^30+1`, so that `s*dot(a,c) + dot(b,c)` is `0`; but `dot(a*s + b, c)` returns `-1`:
its first product `(2^30+1)^2 = 2^60 + 2^31 + 1` is rounded to `2^60 + 2^31` in the `double`
accumulator. -/
theorem dot_not_bilinear_when_rounding :
    ∃ (x : TuplaG CInt 3) (dx da db : CInt),
      ((⟨![1073741824, Scalar.neg 1073741824, Scalar.neg 1073741825]⟩ : TuplaG CInt 3).mulScalar
        1 ⟨![0, 0, 0]⟩ >>= fun m => m.add ⟨![1, 0, 0]⟩ ⟨![0, 0, 0]⟩) = .ok x ∧
      (∀ i : Fin 3,
        CInt.InRange (((⟨![1073741824, Scalar.neg 1073741824, Scalar.neg 1073741825]⟩ :
          TuplaG CInt 3).coo i).val * (1 : CInt).val) ∧
        CInt.InRange (((⟨![1073741824, Scalar.neg 1073741824, Scalar.neg 1073741825]⟩ :
          TuplaG CInt 3).coo i).val * (1 : CInt).val
            + ((⟨![1, 0, 0]⟩ : TuplaG CInt 3).coo i).val)) ∧
      x.dot ⟨![1073741825, 1073741825, 1]⟩ = .ok dx ∧
      (⟨![1073741824, Scalar.neg 1073741824, Scalar.neg 1073741825]⟩ : TuplaG CInt 3).dot
        ⟨![1073741825, 1073741825, 1]⟩ = .ok da ∧
      (⟨![1, 0, 0]⟩ : TuplaG CInt 3).dot ⟨![1073741825, 1073741825, 1]⟩ = .ok db ∧
      dx.val = -1 ∧ da.val = -1073741825 ∧ db.val = 1073741825 ∧
      (1 : CInt).val * da.val + db.val = 0 ∧ Scalar.add (Scalar.mul 1 da) db = (0 : CInt) := by
  obtain ⟨a, ha⟩ : ∃ a : TuplaG CInt 3,
      a = ⟨![1073741824, Scalar.neg 1073741824, Scalar.neg 1073741825]⟩ := ⟨_, rfl⟩
  obtain ⟨b, hb⟩ : ∃ b : TuplaG CInt 3, b = ⟨![1, 0, 0]⟩ := ⟨_, rfl⟩
  obtain ⟨c, hc⟩ : ∃ c : TuplaG CInt 3, c = ⟨![1073741825, 1073741825, 1]⟩ := ⟨_, rfl⟩
  rw [← ha, ← hb, ← hc]
  have a0 : (a.coo 0).val = 1073741824 := by rw [ha]; decide
  have a1 : (a.coo 1).val = -1073741824 := by rw [ha]; decide
  have a2 : (a.coo 2).val = -1073741825 := by rw [ha]; decide
  have b0 : (b.coo 0).val = 1 := by rw [hb]; decide
  have b1 : (b.coo 1).val = 0 := by rw [hb]; decide
  have b2 : (b.coo 2).val = 0 := by rw [hb]; decide
  have c0 : (c.coo 0).val = 1073741825 := by rw [hc]; decide
  have c1 : (c.coo 1).val = 1073741825 := by rw [hc]; decide
  have c2 : (c.coo 2).val = 1 := by rw [hc]; decide
  have s1 : (1 : CInt).val = 1 := rfl
  obtain ⟨x, hx⟩ : ∃ x : TuplaG CInt 3,
      x = ⟨fun j => Scalar.add (Scalar.mul (a.coo j) 1) (b.coo j)⟩ := ⟨_, rfl⟩
  have x0 : (x.coo 0).val = 1073741825 := by
    rw [hx]
    show (Scalar.add (Scalar.mul (a.coo 0) 1) (b.coo 0)).val = _
    rw [CInt.add_val, CInt.mul_val, a0, b0, s1]
    decide
  have x1 : (x.coo 1).val = -1073741824 := by
    rw [hx]
    show (Scalar.add (Scalar.mul (a.coo 1) 1) (b.coo 1)).val = _
    rw [CInt.add_val, CInt.mul_val, a1, b1, s1]
    decide
  have x2 : (x.coo 2).val = -1073741825 := by
    rw [hx]
    show (Scalar.add (Scalar.mul (a.coo 2) 1) (b.coo 2)).val = _
    rw [CInt.add_val, CInt.mul_val, a2, b2, s1]
    decide
  refine ⟨x, ⟨-1, by norm_num, by norm_num⟩, ⟨-1073741825, by norm_num, by norm_num⟩,
    ⟨1073741825, by norm_num, by norm_num⟩, ?_, ?_, ?_, ?_, ?_, rfl, rfl, rfl, ?_, ?_⟩
  · rw [TuplaG.mulScalar_eq, ok_bind, TuplaG.add_eq, hx]
  · intro i
    fin_cases i
    · show CInt.InRange ((a.coo 0).val * _) ∧ CInt.InRange ((a.coo 0).val * _ + (b.coo 0).val)
      rw [a0, b0, s1]
      decide
    · show CInt.InRange ((a.coo 1).val * _) ∧ CInt.InRange ((a.coo 1).val * _ + (b.coo 1).val)
      rw [a1, b1, s1]
      decide
    · show CInt.InRange ((a.coo 2).val * _) ∧ CInt.InRange ((a.coo 2).val * _ + (b.coo 2).val)
      rw [a2, b2, s1]
      decide
  · rw [TuplaG.dot3_eq, x0, x1, x2, c0, c1, c2, Dbl.accumulate_example]
    exact CInt.ofDouble_intCast (-1) (by norm_num) (by norm_num)
  · rw [TuplaG.dot3_eq, a0, a1, a2, c0, c1, c2, Dbl.accumulate_exact_example]
    exact CInt.ofDouble_intCast (-1073741825) (by norm_num) (by norm_num)
  · rw [TuplaG.dot3_eq, b0, b1, b2, c0, c1, c2, Dbl.accumulate_unit_example]
    exact CInt.ofDouble_intCast 1073741825 (by norm_num) (by norm_num)
  · decide
  · exact CInt.ext_val (by decide)

/-- C29: over every scalar type, for `i < N` the assignment `v(i) = x` through the read-write
access, and the store `p[i] = x` through the read-write pointer, return a tuple whose
component `i` is `x` and whose every other component is that of `v`. -/
theorem write_changes_one_component (T : Type) (n : ℕ) (v : TuplaG T n) (i : ℕ) (x : T)
    (h : i < n) :
    (∃ r : TuplaG T n, v.opCallAssign i x = .ok r ∧ r.opCall i = .ok x ∧
      ∀ j : Fin n, j.val ≠ i → r.coo j = v.coo j) ∧
    (∃ r : TuplaG T n, v.ptrWrite i x = .ok r ∧ r.opCall i = .ok x ∧
      ∀ j : Fin n, j.val ≠ i → r.coo j = v.coo j) := by
  constructor
  · refine ⟨_, TuplaG.opCallAssign_lt v h x, ?_, fun j hj => ?_⟩
    · rw [TuplaG.opCall_lt _ h]; simp
    · simp [hj]
  · refine ⟨_, TuplaG.ptrWrite_lt v h x, ?_, fun j hj => ?_⟩
    · rw [TuplaG.opCall_lt _ h]; simp
    · simp [hj]

/-- C29, an instance: writing `9` at index `1` of the `int` tuple `(1,2,3)`. -/
theorem write_changes_one_component_witness :
    (∃ r : TuplaG CInt 3, (⟨![1, 2, 3]⟩ : TuplaG CInt 3).opCallAssign 1 9 = .ok r ∧
      r.opCall 1 = .ok 9 ∧
      ∀ j : Fin 3, j.val ≠ 1 → r.coo j = (⟨![1, 2, 3]⟩ : TuplaG CInt 3).coo j) ∧
    (∃ r : TuplaG CInt 3, (⟨![1, 2, 3]⟩ : TuplaG CInt 3).ptrWrite 1 9 = .ok r ∧
      r.opCall 1 = .ok 9 ∧
      ∀ j : Fin 3, j.val ≠ 1 → r.coo j = (⟨![1, 2, 3]⟩ : TuplaG CInt 3).coo j) :=
  write_changes_one_component CInt 3 ⟨![1, 2, 3]⟩ 1 9 (by decide)

end GVec
